import Mathlib

/-!
DFWS-Chess review pipeline (`src/review.js`) and puzzle module (`src/puzzle.js`).

A shallow embedding of the post-game analysis core of the review page: the
evaluation store (`moveAnalysisData`), the move classifier (`classifyMove`),
the job queue pump (`processStockfishQueue`), the engine message handler
(`handleStockfishMessage_Review`), the accuracy statistics and the progress
summary; and of the solving state machine of the puzzle page.

Modelling conventions.
* JavaScript numbers are exact rationals (`ℚ`); `Math.round x` is `⌊x + 1/2⌋`.
  The accuracy functions work in any ordered field and take `Math.exp` as a
  parameter; their theorems read them over `ℝ` with the real exponential.
* `null` and `undefined` property values are `none`; a provisional (`*_temp`)
  field that is absent from the object is `none` as well.
* Arrays are lists (they are only ever built by `push` and `slice`, so they are
  dense); an out-of-range read is `none`.
* DOM updates and console output are not part of the state.
-/

namespace Review

/-! ## Data model -/

/-- Side that played a move (`move.color`, `'w'` or `'b'` in chess.js). -/
inductive Color
  | w
  | b
  deriving DecidableEq, Repr

/-- A non-null value of `eval_before`: a number in pawn units (`cp`) or the
string `"M<n>"` (`mate n`). -/
inductive Score
  | cp (pawns : ℚ)
  | mate (n : Int)
  deriving DecidableEq

/-- The `played_move` object of a record. -/
structure PlayedMove where
  san : String
  uci : String
  deriving DecidableEq

/-- One element of `moveAnalysisData`. -/
structure MoveAnalysis where
  fen_before : Option String
  fen_after : String
  played_move : Option PlayedMove
  eval_before : Option Score
  best_move_before : Option String
  pv : Option (List String)
  eval_after_played : Option Score
  classification : Option String
  analysis_depth : Nat
  pass1_complete : Bool
  pass2_complete : Bool
  cpl : Option Int
  eval_before_temp : Option Score
  best_move_before_temp : Option String
  pv_temp : Option (List String)
  deriving DecidableEq

/-- One element of `fullGameHistory`: a verbose chess.js move extended with the
positions before and after it. -/
structure HistoryMove where
  color : Color
  fromSq : String
  toSq : String
  promotion : Option String
  san : String
  fen_before : String
  fen_after : String
  deriving DecidableEq

/-- The object literal pushed for every new record (lines 640-645, 657-663,
731-737, 1704-1709): everything empty except the positions and the move. -/
def freshRecord (fen_before : Option String) (fen_after : String)
    (played_move : Option PlayedMove) : MoveAnalysis :=
  { fen_before := fen_before, fen_after := fen_after, played_move := played_move,
    eval_before := none, best_move_before := none, pv := none,
    eval_after_played := none, classification := none, analysis_depth := 0,
    pass1_complete := false, pass2_complete := false, cpl := none,
    eval_before_temp := none, best_move_before_temp := none, pv_temp := none }

/-! ## Move classification (`classifyMove`, lines 1343-1417) -/

def THRESHOLD_BLUNDER : Int := 200

def THRESHOLD_MISTAKE : Int := 90

def THRESHOLD_INACCURACY : Int := 40

def cpEquivalentMate : Int := 10000

/-- `Math.round`: the nearest integer, halves rounded towards `+∞`. -/
def mathRound (x : ℚ) : Int := ⌊x + 1 / 2⌋

/-- Lines 1370-1382: a mate string becomes `±cpEquivalentMate`
(`mateVal > 0 ? cpEquivalentMate : -cpEquivalentMate`), a number is
multiplied by 100. -/
def scoreToCp : Score → ℚ
  | .mate mateVal => if mateVal > 0 then (cpEquivalentMate : ℚ) else -(cpEquivalentMate : ℚ)
  | .cp pawns => pawns * 100

/-- Line 1368: `(playedMove.color === 'w') ? 1 : -1`. -/
def turnMultiplier (color : Color) : ℚ :=
  if color = Color.w then 1 else -1

/-- Line 1384. -/
def centipawnLoss (color : Color) (evalBeforeMove evalAfterPlayed : Score) : Int :=
  mathRound (scoreToCp evalBeforeMove * turnMultiplier color
    - scoreToCp evalAfterPlayed * turnMultiplier color)

/-- Line 1393: `playedMove.from + playedMove.to + (playedMove.promotion || '')`. -/
def playedMoveUCI (playedMove : HistoryMove) : String :=
  playedMove.fromSq ++ playedMove.toSq ++ playedMove.promotion.getD ""

/-- The condition of line 1401, `bestMoveBefore && playedMoveUCI === bestMoveBefore`:
the best move is a non-empty string equal to the played move. -/
def bestMoveMatches (bestMoveBefore : Option String) (uci : String) : Bool :=
  match bestMoveBefore with
  | none => false
  | some bm => bm != "" && uci == bm

/-- Lines 1390-1405: the label chosen for a loss and a best-move match. -/
def classificationLabel (loss : Int) (bestMoveBefore : Option String) (uci : String) : String :=
  if loss ≥ THRESHOLD_BLUNDER then "Gaffe"
  else if loss ≥ THRESHOLD_MISTAKE then "Erreur"
  else if loss ≥ THRESHOLD_INACCURACY then "Imprécision"
  else if bestMoveMatches bestMoveBefore uci then "Meilleur"
  else if loss ≤ 5 then "Excellent"
  else "Bon"

/-- Function `classifyMove(moveIndex)` on the pair (`fullGameHistory`,
`moveAnalysisData`); the result is the new `moveAnalysisData`.

`none` is the `TypeError` raised by `analysisBefore.best_move_before`
(line 1392) when record `moveIndex` does not exist; nothing has been written at
that point, because record `moveIndex + 1` does not exist either. -/
def classifyMove (fullGameHistory : List HistoryMove) (moveAnalysisData : List MoveAnalysis)
    (moveIndex : Int) : Option (List MoveAnalysis) :=
  if moveIndex < 0 ∨ moveIndex ≥ (fullGameHistory.length : Int) then
    some moveAnalysisData
  else
    let dataIndexBefore := moveIndex.toNat
    let dataIndexAfter := moveIndex.toNat + 1
    match fullGameHistory[moveIndex.toNat]? with
    | none => some moveAnalysisData
    | some playedMove =>
      match moveAnalysisData[dataIndexBefore]? with
      | none =>
        -- both evaluations are `undefined`, the loss is `NaN`, nothing is stored
        none
      | some analysisBefore =>
        match moveAnalysisData[dataIndexAfter]? with
        | none =>
          -- deferred, or classified with nowhere to store it (line 1410)
          some moveAnalysisData
        | some analysisAfter =>
          match analysisBefore.eval_before, analysisAfter.eval_before with
          | some evalBeforeMove, some evalAfterPlayed =>
            let loss := centipawnLoss playedMove.color evalBeforeMove evalAfterPlayed
            let classification :=
              classificationLabel loss analysisBefore.best_move_before (playedMoveUCI playedMove)
            some (moveAnalysisData.set dataIndexAfter
              { analysisAfter with cpl := some loss, classification := some classification })
          | _, _ =>
            -- lines 1356-1363: classification deferred
            some (moveAnalysisData.set dataIndexAfter
              { analysisAfter with classification := none, cpl := none })

/-! ## Engine protocol parsing (lines 1482-1498, 1508) -/

/-- `message.startsWith(p)`. -/
def startsWith (message p : String) : Bool :=
  p.data.isPrefixOf message.data

/-- The group `(-?\d+)` matched at the head of `cs`: an optional minus sign
followed by the longest non-empty run of decimal digits. -/
def matchSignedDigits (cs : List Char) : Option (List Char) :=
  match cs with
  | [] => none
  | c :: rest =>
    if c = '-' then
      (if (rest.takeWhile Char.isDigit).isEmpty then none
       else some (c :: rest.takeWhile Char.isDigit))
    else
      (if ((c :: rest).takeWhile Char.isDigit).isEmpty then none
       else some ((c :: rest).takeWhile Char.isDigit))

/-- Characters that `.` does not match in a JavaScript regular expression. -/
def isLineTerminator (c : Char) : Bool :=
  c = '\n' || c = '\r' || c.toNat = 0x2028 || c.toNat = 0x2029

/-- The group `(.+)` matched at the head of `cs`: the non-empty rest of the line. -/
def matchRestOfLine (cs : List Char) : Option (List Char) :=
  if (cs.takeWhile (fun c => !isLineTerminator c)).isEmpty then none
  else some (cs.takeWhile (fun c => !isLineTerminator c))

/-- Leftmost match of the literal `key` followed by the group `capture`, as
`message.match(/key(capture)/)` finds it; the result is the captured group. -/
def regexSearch {α : Type} (key : List Char) (capture : List Char → Option α) :
    List Char → Option α
  | [] => none
  | c :: cs =>
    match (if key.isPrefixOf (c :: cs) then capture ((c :: cs).drop key.length) else none) with
    | some r => some r
    | none => regexSearch key capture cs

/-- Value of a run of decimal digits. -/
def parseDigits (ds : List Char) : Nat :=
  ds.foldl (fun acc c => acc * 10 + (c.toNat - 48)) 0

/-- `parseInt(text, 10)` on a text matched by `-?\d+`. -/
def parseInt (cs : List Char) : Int :=
  match cs with
  | [] => 0
  | c :: rest => if c = '-' then -((parseDigits rest : Nat) : Int) else ((parseDigits (c :: rest) : Nat) : Int)

/-- `text.split(' ')` on a character list. -/
def splitOnSpace : List Char → List (List Char)
  | [] => [[]]
  | c :: cs =>
    match splitOnSpace cs with
    | [] => [[c]]
    | w :: ws => if c = ' ' then [] :: w :: ws else (c :: w) :: ws

/-- The three locals `currentEval`, `currentBestMove`, `currentPv` after the
`info` branch has parsed a line (lines 1483-1498). -/
structure InfoLine where
  currentEval : Option Score
  currentBestMove : Option String
  currentPv : Option (List String)
  deriving DecidableEq

/-- Lines 1483-1498. A mate score is kept as the string `"M<n>"`, a centipawn
score as `parseFloat((n / 100.0).toFixed(2))`, that is `n / 100`. -/
def parseInfo (message : String) : InfoLine :=
  let cpMatch := regexSearch "score cp ".data matchSignedDigits message.data
  let mateMatch := regexSearch "score mate ".data matchSignedDigits message.data
  let pvMatch := regexSearch " pv ".data matchRestOfLine message.data
  let currentEval : Option Score :=
    match mateMatch with
    | some n => some (Score.mate (parseInt n))
    | none =>
      match cpMatch with
      | some n => some (Score.cp ((parseInt n : ℚ) / 100))
      | none => none
  let currentPv : Option (List String) :=
    pvMatch.map (fun t => (splitOnSpace t).map String.mk)
  let currentBestMove : Option String :=
    match currentPv with
    | some (first :: _) => some first
    | _ => none
  { currentEval := currentEval, currentBestMove := currentBestMove, currentPv := currentPv }

/-- Line 1508: `message.split(' ')[1]` (`none` when there is no second piece). -/
def parseFinalBestMove (message : String) : Option String :=
  ((splitOnSpace message.data)[1]?).map String.mk

/-! ## Jobs, session state and the queue pump -/

def DEPTH_PASS_1 : Nat := 12

def DEPTH_PASS_2 : Nat := 16

/-- An element of `stockfishQueue` (lines 771-777, 1567-1573). -/
structure Job where
  analysisDataIndex : Nat
  fen : String
  depth : Nat
  purpose : String
  isPass1 : Bool
  deriving DecidableEq

/-- A command given to `stockfish.postMessage`. -/
inductive EngineCommand
  | stop
  | ucinewgame
  | positionFen (fen : String)
  | goDepth (depth : Nat)
  | isready
  deriving DecidableEq

/-- The text of a command as the worker receives it. -/
def EngineCommand.text : EngineCommand → String
  | .stop => "stop"
  | .ucinewgame => "ucinewgame"
  | .positionFen fen => "position fen " ++ fen
  | .goDepth depth => "go depth " ++ toString depth
  | .isready => "isready"

/-- The module-level variables of `review.js` that the analysis pipeline reads
or writes (lines 43-52), and `posted`, the commands sent to the worker so far
in the order of the `postMessage` calls. -/
structure ReviewState where
  fullGameHistory : List HistoryMove
  moveAnalysisData : List MoveAnalysis
  currentMoveIndex : Int
  isStockfishReady : Bool
  stockfishQueue : List Job
  currentAnalysisJob : Option Job
  isProcessingQueue : Bool
  analysisComplete : Bool
  posted : List EngineCommand
  deriving DecidableEq

/-- The values the variables are declared with (lines 43-52). -/
def initialState : ReviewState :=
  { fullGameHistory := [], moveAnalysisData := [], currentMoveIndex := -1,
    isStockfishReady := false, stockfishQueue := [], currentAnalysisJob := none,
    isProcessingQueue := false, analysisComplete := false, posted := [] }

/-- Function `processStockfishQueue` (lines 1421-1456). -/
def processStockfishQueue (s : ReviewState) : ReviewState :=
  match s.stockfishQueue with
  | [] =>
    let allPass1Done := (s.moveAnalysisData.drop 1).all (fun d => d.pass1_complete)
    if allPass1Done && !s.analysisComplete then
      { s with isProcessingQueue := false, analysisComplete := true }
    else
      { s with isProcessingQueue := false }
  | job :: rest =>
    if s.isProcessingQueue then s
    else
      { s with
        isProcessingQueue := true
        currentAnalysisJob := some job
        stockfishQueue := rest
        posted := s.posted ++
          [EngineCommand.stop, EngineCommand.ucinewgame, EngineCommand.positionFen job.fen,
           EngineCommand.goDepth job.depth] }

/-! ## The engine message handler (lines 1458-1547) -/

/-- Lines 1499-1504: the provisional fields of the targeted record after an
`info` line. -/
def applyInfo (dataEntry : MoveAnalysis) (info : InfoLine) : MoveAnalysis :=
  { dataEntry with
    eval_before_temp :=
      match info.currentEval with
      | some e => some e
      | none => dataEntry.eval_before_temp
    best_move_before_temp :=
      match info.currentBestMove with
      | some m => some m
      | none => dataEntry.best_move_before_temp
    pv_temp :=
      match info.currentPv with
      | some pv => some pv
      | none => dataEntry.pv_temp }

/-- Line 1517: `finalBestMove && finalBestMove !== '(none)' ? [finalBestMove] : null`. -/
def fallbackPv (finalBestMove : Option String) : Option (List String) :=
  match finalBestMove with
  | none => none
  | some bm => if bm ≠ "" ∧ bm ≠ "(none)" then some [bm] else none

/-- Lines 1515-1525: the targeted record after the commit. `currentEval` is the
local of that name, which is still `null` in the `bestmove` branch. -/
def commitRecord (dataEntry : MoveAnalysis) (job : Job) (currentEval : Option Score)
    (finalBestMove : Option String) : MoveAnalysis :=
  { dataEntry with
    eval_before := (dataEntry.eval_before_temp <|> currentEval)
    best_move_before := (dataEntry.best_move_before_temp <|> finalBestMove)
    pv := (dataEntry.pv_temp <|> fallbackPv finalBestMove)
    analysis_depth := job.depth
    pass1_complete := if job.isPass1 then true else dataEntry.pass1_complete
    pass2_complete := if job.isPass1 then dataEntry.pass2_complete else true
    eval_before_temp := none
    best_move_before_temp := none
    pv_temp := none }

/-- Function `handleStockfishMessage_Review` (lines 1458-1547) applied to
`event.data`.

In the `bestmove` branch a `TypeError` escaping from `classifyMove` would end
the handler with the commit done and the job still in flight. -/
def handleStockfishMessage_Review (s : ReviewState) (message : String) : ReviewState :=
  if message = "uciok" then
    { s with posted := s.posted ++ [EngineCommand.isready] }
  else if message = "readyok" then
    if !s.isProcessingQueue && decide (s.stockfishQueue.length > 0) then
      processStockfishQueue { s with isStockfishReady := true }
    else
      { s with isStockfishReady := true }
  else
    match s.currentAnalysisJob with
    | none => s
    | some job =>
      if startsWith message "info" then
        match s.moveAnalysisData[job.analysisDataIndex]? with
        | none => s
        | some dataEntry =>
          { s with moveAnalysisData :=
              s.moveAnalysisData.set job.analysisDataIndex (applyInfo dataEntry (parseInfo message)) }
      else if startsWith message "bestmove" then
        let finalBestMove := parseFinalBestMove message
        let analysisIndex := job.analysisDataIndex
        match s.moveAnalysisData[analysisIndex]? with
        | none =>
          processStockfishQueue { s with currentAnalysisJob := none, isProcessingQueue := false }
        | some dataEntry =>
          let committed :=
            s.moveAnalysisData.set analysisIndex (commitRecord dataEntry job none finalBestMove)
          let moveIndexToClassify : Int := (analysisIndex : Int) - 1
          if moveIndexToClassify ≥ 0 then
            match classifyMove s.fullGameHistory committed moveIndexToClassify with
            | none => { s with moveAnalysisData := committed }
            | some classified =>
              processStockfishQueue
                { s with moveAnalysisData := classified, currentAnalysisJob := none,
                         isProcessingQueue := false }
          else
            processStockfishQueue
              { s with moveAnalysisData := committed, currentAnalysisJob := none,
                       isProcessingQueue := false }
      else s

/-! ## Requests of the page: enqueueing, navigation, interactive moves, reset -/

/-- The loop of lines 1564-1575 from array index `i` on: one pass-1 job for every
record whose `pass1_complete` is false. -/
def pass1JobsFrom (i : Nat) : List MoveAnalysis → List Job
  | [] => []
  | analysisEntry :: rest =>
    if !analysisEntry.pass1_complete then
      { analysisDataIndex := i, fen := analysisEntry.fen_after, depth := DEPTH_PASS_1,
        purpose := "eval_position", isPass1 := true } :: pass1JobsFrom (i + 1) rest
    else pass1JobsFrom (i + 1) rest

/-- Function `startFullGameAnalysis` (lines 1549-1582). When the engine is not
ready the function only re-schedules itself, which is a later call. -/
def startFullGameAnalysis (s : ReviewState) : ReviewState :=
  if !s.isStockfishReady then s
  else if s.isProcessingQueue || decide (s.stockfishQueue.length > 0) then s
  else
    if !s.isProcessingQueue then
      processStockfishQueue { s with stockfishQueue := pass1JobsFrom 0 s.moveAnalysisData }
    else
      { s with stockfishQueue := pass1JobsFrom 0 s.moveAnalysisData }

/-- Function `analyzeCurrentPosition` (lines 753-782). -/
def analyzeCurrentPosition (s : ReviewState) : ReviewState :=
  if !s.isStockfishReady then s
  else if s.isProcessingQueue then s
  else
    let analysisIndexToRun : Int := s.currentMoveIndex + 1
    if analysisIndexToRun < 0 ∨ analysisIndexToRun ≥ (s.moveAnalysisData.length : Int) then s
    else
      match s.moveAnalysisData[analysisIndexToRun.toNat]? with
      | none => s
      | some analysisEntry =>
        if analysisEntry.pass1_complete then s
        else
          let queued : ReviewState :=
            { s with stockfishQueue := s.stockfishQueue ++
                [{ analysisDataIndex := analysisIndexToRun.toNat, fen := analysisEntry.fen_after,
                   depth := DEPTH_PASS_1, purpose := "eval_position", isPass1 := true }] }
          if !queued.isProcessingQueue then processStockfishQueue queued else queued

/-- `xs.slice(0, stop)`: a negative `stop` counts from the end of the array. -/
def sliceTo {α : Type} (xs : List α) (stop : Int) : List α :=
  if stop < 0 then xs.take ((xs.length : Int) + stop).toNat else xs.take stop.toNat

/-- A verbose move object as chess.js returns it. -/
structure ChessMove where
  color : Color
  fromSq : String
  toSq : String
  promotion : Option String
  san : String
  deriving DecidableEq

/-- `{ ...move, fen_before, fen_after }` (lines 656, 729). -/
def historyEntry (move : ChessMove) (fen_before fen_after : String) : HistoryMove :=
  { color := move.color, fromSq := move.fromSq, toSq := move.toSq, promotion := move.promotion,
    san := move.san, fen_before := fen_before, fen_after := fen_after }

/-- Function `makeInteractiveMove` (lines 711-751). The chess rules engine is
outside the embedding: `fenBefore` is `reviewGame.fen()` before the move,
`moveResult` what `reviewGame.move(moveData)` returns (`none` for an illegal
move) and `fenAfter` is `reviewGame.fen()` after it. -/
def makeInteractiveMove (s : ReviewState) (fromAlg toAlg : String) (promotionChoice : Option String)
    (fenBefore : String) (moveResult : Option ChessMove) (fenAfter : String) : ReviewState :=
  match moveResult with
  | none => s
  | some moveResult =>
    let truncated : ReviewState :=
      if s.currentMoveIndex < (s.fullGameHistory.length : Int) - 1 then
        { s with
          fullGameHistory := sliceTo s.fullGameHistory (s.currentMoveIndex + 1)
          moveAnalysisData := sliceTo s.moveAnalysisData (s.currentMoveIndex + 2) }
      else s
    let history := truncated.fullGameHistory ++ [historyEntry moveResult fenBefore fenAfter]
    analyzeCurrentPosition
      { truncated with
        fullGameHistory := history
        moveAnalysisData := truncated.moveAnalysisData ++
          [freshRecord (some fenBefore) fenAfter
            (some { san := moveResult.san, uci := fromAlg ++ toAlg ++ promotionChoice.getD "" })]
        currentMoveIndex := (history.length : Int) - 1 }

/-- Function `goToMove` (lines 1086-1125): the index is clamped and stored; the
rest of the function redraws the board. -/
def goToMove (s : ReviewState) (index : Int) : ReviewState :=
  let clamped : Int := max (-1) (min index ((s.fullGameHistory.length : Int) - 1))
  if clamped = s.currentMoveIndex then s else { s with currentMoveIndex := clamped }

/-- The position `new Chess().fen()`. -/
def initialFen : String := "rnbqkbnr/pppppppp/8/8/8/8/PPPPPPPP/RNBQKBNR w KQkq - 0 1"

/-- Function `resetAnalysisState` (lines 1688-1726). -/
def resetAnalysisState (s : ReviewState) : ReviewState :=
  { s with
    posted := s.posted ++ [EngineCommand.stop]
    stockfishQueue := []
    currentAnalysisJob := none
    isProcessingQueue := false
    analysisComplete := false
    fullGameHistory := []
    moveAnalysisData := [freshRecord none initialFen none]
    currentMoveIndex := -1 }

/-- One iteration of the loop of lines 1647-1664 as the rules engine decides it:
the verbose move, the position before it, and the position after it when
`fenGame.move(move.san)` accepted the move (`none` when the move is skipped). -/
structure PgnStep where
  move : ChessMove
  fen_before : String
  fen_after : Option String
  deriving DecidableEq

/-- The history entries pushed by the loop of lines 1647-1664. -/
def pgnHistory : List PgnStep → List HistoryMove
  | [] => []
  | step :: rest =>
    match step.fen_after with
    | none => pgnHistory rest
    | some fen_after => historyEntry step.move step.fen_before fen_after :: pgnHistory rest

/-- The records pushed by the loop of lines 1647-1664. -/
def pgnRecords : List PgnStep → List MoveAnalysis
  | [] => []
  | step :: rest =>
    match step.fen_after with
    | none => pgnRecords rest
    | some fen_after =>
      freshRecord (some step.fen_before) fen_after
        (some { san := step.move.san,
                uci := step.move.fromSq ++ step.move.toSq ++ step.move.promotion.getD "" })
        :: pgnRecords rest

/-- Function `loadGameAndPrepareHistory` (lines 1611-1686) with its boolean
result. `parsed` is what the rules engine makes of the PGN text: `none` when
there is no text or `load_pgn` fails, otherwise the loop iterations. -/
def loadGameAndPrepareHistory (s : ReviewState) (parsed : Option (List PgnStep)) :
    ReviewState × Bool :=
  match parsed with
  | none => ({ s with fullGameHistory := [], moveAnalysisData := [] }, false)
  | some [] => ({ s with fullGameHistory := [], moveAnalysisData := [] }, false)
  | some (step :: rest) =>
    ({ s with
       fullGameHistory := pgnHistory (step :: rest)
       moveAnalysisData := freshRecord none initialFen none :: pgnRecords (step :: rest) }, true)

/-! ## The event loop -/

/-- What can happen to the page between two states: a call of one of the
functions above, a message of the worker, or a worker error (lines 1589-1594). -/
inductive Event
  | resetAnalysisState
  | loadGame (parsed : Option (List PgnStep))
  | startFullGameAnalysis
  | analyzeCurrentPosition
  | goToMove (index : Int)
  | makeInteractiveMove (fromAlg toAlg : String) (promotionChoice : Option String)
      (fenBefore : String) (moveResult : Option ChessMove) (fenAfter : String)
  | engineMessage (message : String)
  | engineError

/-- The state after an event. -/
def step (s : ReviewState) : Event → ReviewState
  | .resetAnalysisState => resetAnalysisState s
  | .loadGame parsed => (loadGameAndPrepareHistory s parsed).1
  | .startFullGameAnalysis => startFullGameAnalysis s
  | .analyzeCurrentPosition => analyzeCurrentPosition s
  | .goToMove index => goToMove s index
  | .makeInteractiveMove fromAlg toAlg promotionChoice fenBefore moveResult fenAfter =>
    makeInteractiveMove s fromAlg toAlg promotionChoice fenBefore moveResult fenAfter
  | .engineMessage message => handleStockfishMessage_Review s message
  | .engineError => { s with isStockfishReady := false }

/-- States the page can be in: the declared initial values, and whatever any
sequence of events makes of them. -/
inductive Reachable : ReviewState → Prop
  | initial : Reachable initialState
  | next {s : ReviewState} (e : Event) : Reachable s → Reachable (step s e)

/-- The state after a sequence of worker messages. -/
def runMessages (s : ReviewState) (messages : List String) : ReviewState :=
  messages.foldl handleStockfishMessage_Review s

/-- A message that takes the `bestmove` branch of the handler when a job is in
flight. -/
def isTerminalMessage (message : String) : Bool :=
  message != "uciok" && message != "readyok" && !startsWith message "info"
    && startsWith message "bestmove"

/-- The jobs completed by a sequence of worker messages, in order: for every
terminal message, the job that is in flight when it arrives. -/
def completedJobs (s : ReviewState) : List String → List Job
  | [] => []
  | message :: rest =>
    match isTerminalMessage message, s.currentAnalysisJob with
    | true, some job => job :: completedJobs (handleStockfishMessage_Review s message) rest
    | _, _ => completedJobs (handleStockfishMessage_Review s message) rest

/-- The positions sent to the worker, in order. -/
def dispatchedFens : List EngineCommand → List String
  | [] => []
  | EngineCommand.positionFen fen :: rest => fen :: dispatchedFens rest
  | _ :: rest => dispatchedFens rest

/-! ## The classification rule as the specification words it -/

/-- First-match evaluation of an ordered rule list: the label of the first rule
whose condition holds, `otherwise` when none does. -/
def firstMatch (rules : List (Bool × String)) (otherwise : String) : String :=
  match rules.find? (fun r => r.1) with
  | some r => r.2
  | none => otherwise

/-- The precedence list of the specification (section 4.3): Blunder, Mistake,
Inaccuracy, Best, Excellent, otherwise Good. -/
def specClassification (loss : Int) (playedIsBest : Bool) : String :=
  firstMatch
    [(decide (loss ≥ 200), "Gaffe"), (decide (loss ≥ 90), "Erreur"),
     (decide (loss ≥ 40), "Imprécision"), (playedIsBest, "Meilleur"),
     (decide (loss ≤ 5), "Excellent")]
    "Bon"

/-! ## Traces and invariants -/

/-- The last defined value of a list of optional values (for a list of parsed
lines: the value of the last line that carried one). -/
def lastDefined {α : Type} : List (Option α) → Option α
  | [] => none
  | x :: rest =>
    match lastDefined rest with
    | some v => some v
    | none => x

/-- The state after a sequence of events. -/
def runEvents (s : ReviewState) (events : List Event) : ReviewState :=
  events.foldl step s

/-- The jobs of the session in service order: the job in flight, then the queue. -/
def pipeline (s : ReviewState) : List Job :=
  s.currentAnalysisJob.toList ++ s.stockfishQueue

/-- A record that holds a provisional (`*_temp`) field. -/
def hasProvisional (r : MoveAnalysis) : Prop :=
  r.eval_before_temp ≠ none ∨ r.best_move_before_temp ≠ none ∨ r.pv_temp ≠ none

/-- The facts about the store and the jobs that every event preserves. -/
structure PipelineInvariant (s : ReviewState) : Prop where
  flag : s.isProcessingQueue = s.currentAnalysisJob.isSome
  nodup : ((pipeline s).map (fun j => j.analysisDataIndex)).Nodup
  target_pending : ∀ j ∈ pipeline s, ∀ r : MoveAnalysis,
    s.moveAnalysisData[j.analysisDataIndex]? = some r → r.pass1_complete = false
  pass1 : ∀ j ∈ pipeline s, j.isPass1 = true
  eval_done : ∀ (k : Nat) (r : MoveAnalysis),
    s.moveAnalysisData[k]? = some r → r.eval_before ≠ none → r.pass1_complete = true
  provisional : ∀ (k : Nat) (r : MoveAnalysis),
    s.moveAnalysisData[k]? = some r → hasProvisional r →
      ∃ j, s.currentAnalysisJob = some j ∧ j.analysisDataIndex = k
  classified : ∀ (k : Nat) (r : MoveAnalysis),
    s.moveAnalysisData[k + 1]? = some r → r.classification ≠ none →
      r.eval_before ≠ none ∧
        ∃ r0 : MoveAnalysis, s.moveAnalysisData[k]? = some r0 ∧ r0.eval_before ≠ none

/-- The invariant of the session: the pipeline facts, and an idle session has an
empty queue. -/
def SessionInvariant (s : ReviewState) : Prop :=
  PipelineInvariant s ∧ (s.currentAnalysisJob = none → s.stockfishQueue = [])

/-- The flags of a session agree and an idle session has nothing queued. -/
def Pumped (t : ReviewState) : Prop :=
  t.isProcessingQueue = t.currentAnalysisJob.isSome ∧
    (t.currentAnalysisJob = none → t.stockfishQueue = [])

/-! ## Sample data -/

/-- White plays e2-e4. -/
def sampleWhiteMove : HistoryMove :=
  { color := Color.w, fromSq := "e2", toSq := "e4", promotion := none, san := "e4",
    fen_before := "rnbqkbnr/pppppppp/8/8/8/8/PPPPPPPP/RNBQKBNR w KQkq - 0 1",
    fen_after := "rnbqkbnr/pppppppp/8/8/4P3/8/PPPP1PPP/RNBQKBNR b KQkq e3 0 1" }

/-- A record for the initial position holding the evaluation `e` and the best
move `bm`. -/
def sampleRecord0 (e : Option Score) (bm : Option String) : MoveAnalysis :=
  { freshRecord none sampleWhiteMove.fen_before none with
    eval_before := e, best_move_before := bm, pass1_complete := true, analysis_depth := 12 }

/-- A record for the position after `sampleWhiteMove` holding the evaluation `e`. -/
def sampleRecord1 (e : Option Score) : MoveAnalysis :=
  { freshRecord (some sampleWhiteMove.fen_before) sampleWhiteMove.fen_after
      (some { san := "e4", uci := "e2e4" }) with
    eval_before := e, pass1_complete := true, analysis_depth := 12 }

/-- The pass-1 job for the initial position. -/
def sampleJob : Job :=
  { analysisDataIndex := 0, fen := initialFen, depth := DEPTH_PASS_1,
    purpose := "eval_position", isPass1 := true }

/-- The page after a reset, the engine's `readyok` and a request for a full
analysis: the job for the initial position is in flight. -/
def sampleBusyState : ReviewState :=
  step (step (step initialState Event.resetAnalysisState) (Event.engineMessage "readyok"))
    Event.startFullGameAnalysis

/-- A short session: reset, engine ready, full analysis of the initial position
requested, the user plays e2-e4 while that job runs, the job completes, the new
position is analysed on request and completes. -/
def sampleSession : List Event :=
  [Event.resetAnalysisState,
   Event.engineMessage "readyok",
   Event.startFullGameAnalysis,
   Event.makeInteractiveMove "e2" "e4" none initialFen
     (some { color := Color.w, fromSq := "e2", toSq := "e4", promotion := none, san := "e4" })
     "rnbqkbnr/pppppppp/8/8/4P3/8/PPPP1PPP/RNBQKBNR b KQkq e3 0 1",
   Event.engineMessage "info depth 12 score cp 30 pv e2e4 e7e5",
   Event.engineMessage "bestmove e2e4 ponder e7e5",
   Event.analyzeCurrentPosition,
   Event.engineMessage "info depth 12 score cp 25 pv e7e5 g1f3",
   Event.engineMessage "bestmove e7e5 ponder g1f3"]

/-- A game of one move is loaded and its full analysis requested: the job for
the initial position is in flight, the job for the position after the move is
queued. -/
def sampleLoadedSession : List Event :=
  [Event.resetAnalysisState,
   Event.engineMessage "readyok",
   Event.loadGame (some
     [{ move := { color := Color.w, fromSq := "e2", toSq := "e4", promotion := none,
                  san := "e4" },
        fen_before := initialFen,
        fen_after := some "rnbqkbnr/pppppppp/8/8/4P3/8/PPPP1PPP/RNBQKBNR b KQkq e3 0 1" }]),
   Event.startFullGameAnalysis]

/-- The session inside `startFullGameAnalysis` for a loaded game of one move,
right before the pump is started: idle, with the two pass-1 jobs queued. -/
def sampleQueuedState : ReviewState :=
  { runEvents initialState (sampleLoadedSession.take 3) with
    stockfishQueue :=
      pass1JobsFrom 0 (runEvents initialState (sampleLoadedSession.take 3)).moveAnalysisData }

/-- A game of two moves (e4 e5) is loaded and analysed; after two completed jobs
the job for the last record is in flight, and the user plays d2-d4 from the
initial position, which truncates the history. -/
def sampleTruncatedSession : List Event :=
  [Event.resetAnalysisState,
   Event.engineMessage "readyok",
   Event.loadGame (some
     [{ move := { color := Color.w, fromSq := "e2", toSq := "e4", promotion := none,
                  san := "e4" },
        fen_before := initialFen,
        fen_after := some "rnbqkbnr/pppppppp/8/8/4P3/8/PPPP1PPP/RNBQKBNR b KQkq e3 0 1" },
      { move := { color := Color.b, fromSq := "e7", toSq := "e5", promotion := none,
                  san := "e5" },
        fen_before := "rnbqkbnr/pppppppp/8/8/4P3/8/PPPP1PPP/RNBQKBNR b KQkq e3 0 1",
        fen_after := some "rnbqkbnr/pppp1ppp/8/4p3/4P3/8/PPPP1PPP/RNBQKBNR w KQkq e6 0 2" }]),
   Event.goToMove (-1),
   Event.startFullGameAnalysis,
   Event.engineMessage "bestmove e2e4 ponder e7e5",
   Event.engineMessage "bestmove e7e5 ponder g1f3",
   Event.makeInteractiveMove "d2" "d4" none initialFen
     (some { color := Color.w, fromSq := "d2", toSq := "d4", promotion := none, san := "d4" })
     "rnbqkbnr/pppppppp/8/8/3P4/8/PPP1PPPP/RNBQKBNR b KQkq d3 0 1"]

/-- The user resets the page while the first search is running and a new
analysis is requested at once: the new job for the initial position is in
flight, the engine has been told to stop the old search. -/
def sampleRestartedSession : List Event :=
  [Event.resetAnalysisState,
   Event.engineMessage "readyok",
   Event.startFullGameAnalysis,
   Event.engineMessage "info depth 5 score cp 10 pv e2e4",
   Event.resetAnalysisState,
   Event.startFullGameAnalysis]

/-- The pass-1 job of the full-game pass for record `i`. -/
def fullGameJob (i : Nat) (record : MoveAnalysis) : Job :=
  { analysisDataIndex := i, fen := record.fen_after, depth := 12, purpose := "eval_position",
    isPass1 := true }

/-- The jobs of a full-game pass as the specification words them: in record
order, one pass-1 job for every record lacking `pass1_complete`. -/
def specFullGameJobs (data : List MoveAnalysis) : List Job :=
  (data.enum.filter (fun p => !p.2.pass1_complete)).map (fun p => fullGameJob p.1 p.2)

/-- An event that does not shrink the store while jobs are pending: every event
except a truncating interactive move or a game load made with a job queued or
in flight. -/
def keepsRecords (s : ReviewState) (e : Event) : Prop :=
  match e with
  | Event.makeInteractiveMove _ _ _ _ (some _) _ =>
    ¬ (s.currentMoveIndex < (s.fullGameHistory.length : Int) - 1) ∨ pipeline s = []
  | Event.loadGame _ => pipeline s = []
  | _ => True

/-- States reached through events that keep the records of pending jobs. -/
inductive ReachableKeepingRecords : ReviewState → Prop
  | initial : ReachableKeepingRecords initialState
  | next {s : ReviewState} (e : Event) :
      ReachableKeepingRecords s → keepsRecords s e → ReachableKeepingRecords (step s e)

/-- Every pending job targets an existing record, there is at most one record
more than moves, and the viewed index is at least `-1`. -/
def TargetsExist (s : ReviewState) : Prop :=
  (∀ j ∈ pipeline s, j.analysisDataIndex < s.moveAnalysisData.length) ∧
  s.moveAnalysisData.length ≤ s.fullGameHistory.length + 1 ∧
  -1 ≤ s.currentMoveIndex

/-- The worker's `readyok` message. -/
def isReadyOk : Event → Bool
  | Event.engineMessage message => message == "readyok"
  | _ => false

/-- States reached without a `readyok` message of the worker: the engine has
not started, or has not finished starting. -/
inductive ReachableWithoutReadyok : ReviewState → Prop
  | initial : ReachableWithoutReadyok initialState
  | next {s : ReviewState} (e : Event) :
      ReachableWithoutReadyok s → isReadyOk e = false → ReachableWithoutReadyok (step s e)

/-- A one-move game is loaded on a page whose engine has not answered. -/
def sampleUnreadySession : List Event :=
  [Event.resetAnalysisState,
   Event.engineMessage "uciok",
   Event.loadGame (some
     [{ move := { color := Color.w, fromSq := "e2", toSq := "e4", promotion := none,
                  san := "e4" },
        fen_before := initialFen,
        fen_after := some "rnbqkbnr/pppppppp/8/8/4P3/8/PPPP1PPP/RNBQKBNR b KQkq e3 0 1" }])]

/-- The session facts that hold as long as the engine is not ready. -/
def EngineUnavailable (s : ReviewState) : Prop :=
  s.isStockfishReady = false ∧ s.stockfishQueue = [] ∧ s.currentAnalysisJob = none ∧
    s.isProcessingQueue = false ∧
    ∀ c ∈ s.posted, c = EngineCommand.stop ∨ c = EngineCommand.isready

/-- Function `calculateSingleMoveAccuracy` (lines 1129-1138). Numbers are the
elements of an ordered field `α`; `exp` is the library function `Math.exp`,
taken as a parameter. `none` is a `null`, `undefined` or `NaN` loss, and the
`null` result. -/
def calculateSingleMoveAccuracy {α : Type} [LinearOrderedField α] (exp : α → α)
    (cpl : Option α) : Option α :=
  match cpl with
  | none => none
  | some cpl =>
    let loss := max 0 cpl
    let accuracy := 100 * exp (-loss / 300)
    some (max 0 (min 100 accuracy))

/-- The four accumulators of `updateAccuracyChartAndStats` (lines 1170-1173). -/
structure AccuracyTotals (α : Type) where
  whiteTotalAccuracy : α
  whiteMoveCount : Nat
  blackTotalAccuracy : α
  blackMoveCount : Nat

/-- One iteration of the loop of lines 1176-1199 for the move at index `i`:
`analysis?.cpl` is read from record `i + 1`. -/
def accuracyLoopBody {α : Type} [LinearOrderedField α] (exp : α → α)
    (moveAnalysisData : List MoveAnalysis) (totals : AccuracyTotals α) (i : Nat)
    (move : HistoryMove) : AccuracyTotals α :=
  let analysis := moveAnalysisData[i + 1]?
  let moveAccuracy :=
    calculateSingleMoveAccuracy exp ((analysis.bind (fun r => r.cpl)).map (fun (c : Int) => (c : α)))
  if move.color = Color.w then
    match moveAccuracy with
    | some a =>
      { totals with whiteTotalAccuracy := totals.whiteTotalAccuracy + a,
                    whiteMoveCount := totals.whiteMoveCount + 1 }
    | none => totals
  else
    match moveAccuracy with
    | some a =>
      { totals with blackTotalAccuracy := totals.blackTotalAccuracy + a,
                    blackMoveCount := totals.blackMoveCount + 1 }
    | none => totals

/-- The loop of lines 1176-1199 from index `i` on. -/
def accuracyLoop {α : Type} [LinearOrderedField α] (exp : α → α)
    (moveAnalysisData : List MoveAnalysis) :
    Nat → List HistoryMove → AccuracyTotals α → AccuracyTotals α
  | _, [], totals => totals
  | i, move :: rest, totals =>
    accuracyLoop exp moveAnalysisData (i + 1) rest
      (accuracyLoopBody exp moveAnalysisData totals i move)

/-- Function `updateAccuracyChartAndStats` (lines 1163-1217) with the chart
present: the pair `(avgWhiteAccuracy, avgBlackAccuracy)`, `none` for `null`
(shown as `N/A`). -/
def updateAccuracyChartAndStats {α : Type} [LinearOrderedField α] (exp : α → α)
    (fullGameHistory : List HistoryMove) (moveAnalysisData : List MoveAnalysis) :
    Option α × Option α :=
  let totals := accuracyLoop exp moveAnalysisData 0 fullGameHistory
    { whiteTotalAccuracy := 0, whiteMoveCount := 0, blackTotalAccuracy := 0, blackMoveCount := 0 }
  (if totals.whiteMoveCount > 0 then
     some (totals.whiteTotalAccuracy / (totals.whiteMoveCount : α)) else none,
   if totals.blackMoveCount > 0 then
     some (totals.blackTotalAccuracy / (totals.blackMoveCount : α)) else none)

/-- The centipawn losses of the moves of `side` whose record has one, in game
order; `moves` pairs every move with its index in the history. -/
def sideLosses (side : Color) (moveAnalysisData : List MoveAnalysis)
    (moves : List (Nat × HistoryMove)) : List Int :=
  (moves.filter (fun p => p.2.color = side)).filterMap
    (fun p => (moveAnalysisData[p.1 + 1]?).bind (fun r => r.cpl))

/-- The single-move accuracies of the moves of `side` that have a centipawn
loss. -/
def sideAccuracies {α : Type} [LinearOrderedField α] (exp : α → α) (side : Color)
    (moveAnalysisData : List MoveAnalysis) (moves : List (Nat × HistoryMove)) : List α :=
  (sideLosses side moveAnalysisData moves).filterMap
    (fun (c : Int) => calculateSingleMoveAccuracy exp (some (c : α)))

/-- The per-side average as the specification words it: the arithmetic mean of
the single-move accuracies of that side's moves that have a centipawn loss,
absent when there is no such move. -/
def specAverageAccuracy {α : Type} [LinearOrderedField α] (exp : α → α) (side : Color)
    (fullGameHistory : List HistoryMove) (moveAnalysisData : List MoveAnalysis) : Option α :=
  let accuracies := sideAccuracies exp side moveAnalysisData fullGameHistory.enum
  if accuracies.length = 0 then none
  else some (accuracies.sum / (accuracies.length : α))

/-- One record per ply, ply 0 included, and record `i + 1` holds the positions
before and after history move `i`. -/
def AlignedStore (hist : List HistoryMove) (data : List MoveAnalysis) : Prop :=
  data.length = hist.length + 1 ∧
  ∀ (i : Nat) (m : HistoryMove), hist[i]? = some m →
    ∃ r : MoveAnalysis, data[i + 1]? = some r ∧
      r.fen_before = some m.fen_before ∧ r.fen_after = m.fen_after

/-- The store of a state holds one record per ply of its history. -/
def OneRecordPerPly (s : ReviewState) : Prop :=
  AlignedStore s.fullGameHistory s.moveAnalysisData

/-- A game load that fails: there is no text, `load_pgn` rejects it, or the
game has no move. -/
def isFailedLoad : Event → Bool
  | Event.loadGame none => true
  | Event.loadGame (some []) => true
  | _ => false

/-- A PGN text that cannot be loaded arrives on the freshly reset page. -/
def sampleFailedLoad : ReviewState :=
  (loadGameAndPrepareHistory (resetAnalysisState initialState) none).1

/-- What the engine sends for one search: the streamed `info` lines and the
terminal `bestmove` line. -/
structure EngineAnswer where
  infoLines : List String
  bestmoveLine : String

/-- The messages of an answer in the order the worker posts them. -/
def EngineAnswer.messages (a : EngineAnswer) : List String :=
  a.infoLines ++ [a.bestmoveLine]

/-- An answer made of `info` lines, at least one of which carries a score,
followed by a `bestmove` line. -/
def EngineAnswer.scored (a : EngineAnswer) : Prop :=
  (∀ l ∈ a.infoLines, startsWith l "info" = true) ∧
  (∃ l ∈ a.infoLines, (parseInfo l).currentEval ≠ none) ∧
  startsWith a.bestmoveLine "bestmove" = true

/-- A freshly loaded game on a page whose engine is ready: nothing is queued or
in flight, there is one record per ply, and no record has been analysed. -/
def FreshlyLoaded (s : ReviewState) : Prop :=
  s.isStockfishReady = true ∧ s.currentAnalysisJob = none ∧ s.stockfishQueue = [] ∧
  s.isProcessingQueue = false ∧
  s.moveAnalysisData.length = s.fullGameHistory.length + 1 ∧
  ∀ r ∈ s.moveAnalysisData, r.pass1_complete = false

/-- The full-game pass over a game of `N` moves with the records below `k`
done: the jobs for the records `k..N` are pending in that order, and every
record below `k` is analysed and (from record 1 on) classified. -/
def PassProgress (N k : Nat) (t : ReviewState) : Prop :=
  t.fullGameHistory.length = N ∧ t.moveAnalysisData.length = N + 1 ∧ Pumped t ∧
  (pipeline t).map (fun j => j.analysisDataIndex) = List.range' k (N + 1 - k) ∧
  (∀ j ∈ pipeline t, j.isPass1 = true) ∧
  ∀ (i : Nat) (r : MoveAnalysis), i < k → t.moveAnalysisData[i]? = some r →
    r.pass1_complete = true ∧ r.eval_before ≠ none ∧
      (1 ≤ i → r.cpl ≠ none ∧ r.classification ≠ none)

/-- A one-move game has been loaded on a reset page whose engine is ready. -/
def sampleLoadedState : ReviewState :=
  runEvents initialState (sampleLoadedSession.take 3)

/-- The engine's answers to a loaded one-move game. -/
def sampleAnswers : List EngineAnswer :=
  [{ infoLines := ["info depth 12 score cp 30 pv e2e4 e7e5"],
     bestmoveLine := "bestmove e2e4 ponder e7e5" },
   { infoLines := ["info depth 11 score cp 20 pv e7e5", "info depth 12 score cp 25 pv e7e5 g1f3"],
     bestmoveLine := "bestmove e7e5 ponder g1f3" }]

/-- The property read `currentAnalysisJob.moveIndex` of line 352. Job objects
are built at lines 771-777 and 1567-1573 with the properties
`analysisDataIndex`, `fen`, `depth`, `purpose` and `isPass1`; none has a
property `moveIndex`, so the read yields `undefined` (`none`). -/
def Job.moveIndex (_job : Job) : Option Int := none

/-- A number spliced into a template literal; `none` is `NaN` (such as
`undefined + 1`). -/
def numberText : Option Int → String
  | some n => toString n
  | none => "NaN"

/-- Function `getOverallAnalysisProgress` (lines 337-357). -/
def getOverallAnalysisProgress (s : ReviewState) : String :=
  let totalMoves := s.fullGameHistory.length
  if totalMoves = 0 then ""
  else
    let analysisEntries := s.moveAnalysisData.drop 1
    let pass1DoneCount := (analysisEntries.filter (fun d => d.pass1_complete)).length
    let pass2DoneCount := (analysisEntries.filter (fun d => d.pass2_complete)).length
    if pass2DoneCount = totalMoves then "Analyse Profonde Terminée"
    else if pass1DoneCount = totalMoves then
      "Analyse Rapide Terminée, Profonde: " ++ toString pass2DoneCount ++ "/" ++
        toString totalMoves
    else
      match s.isProcessingQueue, s.currentAnalysisJob with
      | true, some currentAnalysisJob =>
        let currentJobDisplayIndex := currentAnalysisJob.moveIndex.map (fun i => i + 1)
        let passNum : Nat := if currentAnalysisJob.isPass1 then 1 else 2
        "Analyse (P" ++ toString passNum ++ "): " ++ numberText currentJobDisplayIndex ++ "/" ++
          toString totalMoves ++ "..."
      | _, _ => "Analyse Rapide: " ++ toString pass1DoneCount ++ "/" ++ toString totalMoves

/-- The full-game pass over a loaded two-move game after its first answer: the
job for record 1 is in flight, record 0 is done, records 1 and 2 are not. -/
def sampleProgressState : ReviewState :=
  runEvents initialState (sampleTruncatedSession.take 6)

end Review

/-! # The puzzle module (`src/puzzle.js`)

The solving state machine of the puzzle page: `startPuzzle`, `makePlayerMove`,
`makeOpponentMove` and `stopPuzzle` on the module variables. The rules engine
and the replay of the PGN text are parameters. -/

namespace Puzzle

/-- `text.toLowerCase()` on the basic Latin letters, which are the only letters
of a UCI move. -/
def toLowerCase (text : String) : String :=
  ⟨text.data.map Char.toLower⟩

/-- A move object `{ from, to, promotion }` as chess.js takes it. -/
structure MoveObject where
  fromSq : String
  toSq : String
  promotion : Option String
  deriving DecidableEq

/-- Function `_uciToMoveObject` (lines 31-38); `none` is `null`. -/
def _uciToMoveObject (uciMove : String) : Option MoveObject :=
  if uciMove.data.length < 4 then none
  else
    some { fromSq := ⟨uciMove.data.take 2⟩,
           toSq := ⟨(uciMove.data.drop 2).take 2⟩,
           promotion :=
             if uciMove.data.length = 5 then some (toLowerCase ⟨uciMove.data.drop 4⟩) else none }

/-- The chess rules engine (chess.js), which is not part of the module. A board
is identified with its FEN text; `move board m` is the board after
`puzzleGame.move(m)`, `none` when the call returns `null` or throws. -/
structure Rules where
  move : String → MoveObject → Option String

/-- The object `currentPuzzle` (lines 168-177) without the display fields
`rating` and `themes`. -/
structure PuzzleData where
  id : String
  fen : String
  solution : List String
  playerColor : Review.Color
  initialPly : Nat
  pgn : String
  deriving DecidableEq

/-- The module state of `puzzle.js` that the solving functions read or write
(lines 14-18). -/
structure PuzzleState where
  currentPuzzle : Option PuzzleData
  puzzleGame : Option String
  currentSolutionMoveIndex : Nat
  playerColor : Review.Color
  isPlayerTurnInPuzzle : Bool
  deriving DecidableEq

/-- The declared initial values (lines 14-18). -/
def initialState : PuzzleState :=
  { currentPuzzle := none, puzzleGame := none, currentSolutionMoveIndex := 0,
    playerColor := Review.Color.b, isPlayerTurnInPuzzle := false }

/-- What a call hands back: the new module state, the returned value, and the
text given to `onPuzzleLoadErrorCallback` when the call reports an error. The
callbacks are notifications of the page and do not call back into the module. -/
structure Outcome (α : Type) where
  state : PuzzleState
  value : α
  loadError : Option String

/-- Function `stopPuzzle` (lines 395-401). -/
def stopPuzzle (s : PuzzleState) : PuzzleState :=
  { s with currentPuzzle := none, puzzleGame := none, isPlayerTurnInPuzzle := false,
           currentSolutionMoveIndex := 0 }

/-- The fields of the argument of `startPuzzle` that the function reads;
`none` is a missing (or, for the texts, empty) value. -/
structure LichessPuzzleData where
  pgn : Option String
  solution : Option (List String)
  initialPly : Option Nat
  id : Option String

/-- What lines 114-148 make of the PGN text with the rules engine: the starting
position and the side to move there, or `none` when one of the steps throws
(the text does not load, it has fewer moves than `initialPly`, a move cannot be
replayed, the position is invalid). -/
structure Replay where
  startFen : String
  turn : Review.Color

/-- A JavaScript text that is truthy: present and not empty. -/
def truthyText : Option String → Option String
  | some t => if t = "" then none else some t
  | none => none

/-- Function `startPuzzle` (lines 97-192). The text handed to the error callback
in the `catch` block is cut after its fixed part. -/
def startPuzzle (rules : Rules) (s : PuzzleState) (lichessPuzzleData : LichessPuzzleData)
    (replayed : Option Replay) : Outcome Bool :=
  match truthyText lichessPuzzleData.pgn, lichessPuzzleData.solution,
      lichessPuzzleData.initialPly, truthyText lichessPuzzleData.id with
  | some pgn, some solutionUCI, some initialPly, some puzzleId =>
    match replayed with
    | none =>
      { state := { s with puzzleGame := none, currentPuzzle := none }, value := false,
        loadError := some "Error processing puzzle" }
    | some replay =>
      let failed : Outcome Bool :=
        { state := { s with puzzleGame := none, currentPuzzle := none,
                            playerColor := replay.turn },
          value := false, loadError := some "Error processing puzzle" }
      match solutionUCI with
      | [] => failed
      | firstMoveUCI :: _ =>
        match _uciToMoveObject firstMoveUCI with
        | none => failed
        | some firstMoveObject =>
          match rules.move replay.startFen firstMoveObject with
          | none => failed
          | some _ =>
            { state :=
                { currentPuzzle :=
                    some { id := puzzleId, fen := replay.startFen, solution := solutionUCI,
                           playerColor := replay.turn, initialPly := initialPly, pgn := pgn },
                  puzzleGame := some replay.startFen,
                  currentSolutionMoveIndex := 0,
                  playerColor := replay.turn,
                  isPlayerTurnInPuzzle := true },
              value := true, loadError := none }
  | _, _, _, _ =>
    { state := { s with currentPuzzle := none, puzzleGame := none }, value := false,
      loadError := some "Invalid puzzle data format." }

/-- Line 214: `fromAlg + toAlg + (promotionPiece ? promotionPiece.toLowerCase() : '')`. -/
def playerMoveUCI (fromAlg toAlg : String) (promotionPiece : Option String) : String :=
  fromAlg ++ toAlg ++
    (match truthyText promotionPiece with
     | some p => toLowerCase p
     | none => "")

/-- Function `makePlayerMove` (lines 207-297); the value is the returned code. -/
def makePlayerMove (rules : Rules) (s : PuzzleState) (fromAlg toAlg : String)
    (promotionPiece : Option String) : Outcome String :=
  match s.currentPuzzle, s.puzzleGame, s.isPlayerTurnInPuzzle with
  | some currentPuzzle, some puzzleGame, true =>
    if h : s.currentSolutionMoveIndex ≥ currentPuzzle.solution.length then
      { state := stopPuzzle s, value := "error",
        loadError := some "Internal puzzle error: solution index invalid." }
    else
      let expectedSolutionMoveUCI :=
        toLowerCase (currentPuzzle.solution.get ⟨s.currentSolutionMoveIndex, Nat.lt_of_not_ge h⟩)
      if toLowerCase (playerMoveUCI fromAlg toAlg promotionPiece) ≠ expectedSolutionMoveUCI then
        { state := s, value := "incorrect", loadError := none }
      else
        match _uciToMoveObject (playerMoveUCI fromAlg toAlg promotionPiece) with
        | none =>
          { state := stopPuzzle s, value := "error",
            loadError := some "Internal puzzle error: cannot parse move." }
        | some moveObject =>
          match rules.move puzzleGame moveObject with
          | none =>
            { state := stopPuzzle s, value := "error",
              loadError := some "Internal puzzle error: correct move was illegal." }
          | some board =>
            let moved : PuzzleState :=
              { s with puzzleGame := some board,
                       currentSolutionMoveIndex := s.currentSolutionMoveIndex + 1,
                       isPlayerTurnInPuzzle := false }
            if moved.currentSolutionMoveIndex ≥ currentPuzzle.solution.length then
              { state := moved, value := "complete", loadError := none }
            else
              { state := moved, value := "correct_continue", loadError := none }
  | _, _, _ => { state := s, value := "invalid_state", loadError := none }

/-- Function `makeOpponentMove` (lines 299-377). -/
def makeOpponentMove (rules : Rules) (s : PuzzleState) (puzzleIdCheck : String) : Outcome Bool :=
  match s.currentPuzzle with
  | none => { state := s, value := false, loadError := none }
  | some currentPuzzle =>
    if currentPuzzle.id ≠ puzzleIdCheck then { state := s, value := false, loadError := none }
    else if s.isPlayerTurnInPuzzle then { state := s, value := false, loadError := none }
    else
      match s.puzzleGame with
      | none =>
        { state := stopPuzzle s, value := false,
          loadError := some "Internal puzzle error: game instance missing." }
      | some puzzleGame =>
        if h : s.currentSolutionMoveIndex ≥ currentPuzzle.solution.length then
          { state := { s with isPlayerTurnInPuzzle := false }, value := false, loadError := none }
        else
          let opponentMoveUCI :=
            currentPuzzle.solution.get ⟨s.currentSolutionMoveIndex, Nat.lt_of_not_ge h⟩
          match _uciToMoveObject opponentMoveUCI with
          | none =>
            { state := stopPuzzle s, value := false,
              loadError := some "Error processing opponent move." }
          | some moveObject =>
            match rules.move puzzleGame moveObject with
            | none =>
              { state := { stopPuzzle s with isPlayerTurnInPuzzle := false }, value := false,
                loadError := some "Puzzle data error: illegal opponent move." }
            | some board =>
              let index := s.currentSolutionMoveIndex + 1
              { state :=
                  { s with puzzleGame := some board,
                           currentSolutionMoveIndex := index,
                           isPlayerTurnInPuzzle :=
                             if index ≥ currentPuzzle.solution.length then false else true },
                value := true, loadError := none }

/-- A call of one of the functions that change the solving state. -/
inductive Event
  | startPuzzle (lichessPuzzleData : LichessPuzzleData) (replayed : Option Replay)
  | makePlayerMove (fromAlg toAlg : String) (promotionPiece : Option String)
  | makeOpponentMove (puzzleIdCheck : String)
  | stopPuzzle

/-- The module state after a call. -/
def step (rules : Rules) (s : PuzzleState) : Event → PuzzleState
  | .startPuzzle lichessPuzzleData replayed =>
    (startPuzzle rules s lichessPuzzleData replayed).state
  | .makePlayerMove fromAlg toAlg promotionPiece =>
    (makePlayerMove rules s fromAlg toAlg promotionPiece).state
  | .makeOpponentMove puzzleIdCheck => (makeOpponentMove rules s puzzleIdCheck).state
  | .stopPuzzle => stopPuzzle s

/-- The states the module can be in with a given rules engine. -/
inductive Reachable (rules : Rules) : PuzzleState → Prop
  | initial : Reachable rules initialState
  | next {s : PuzzleState} (e : Event) : Reachable rules s → Reachable rules (step rules s e)

/-- The solving state is consistent: the index does not pass the end of the
solution; on the player's turn it is an even index inside the solution; off
the player's turn it is odd, or the solution is exhausted. -/
def SolvingInvariant (s : PuzzleState) : Prop :=
  ∀ p : PuzzleData, s.currentPuzzle = some p →
    s.currentSolutionMoveIndex ≤ p.solution.length ∧
    (s.isPlayerTurnInPuzzle = true →
      s.currentSolutionMoveIndex < p.solution.length ∧ s.currentSolutionMoveIndex % 2 = 0) ∧
    (s.isPlayerTurnInPuzzle = false →
      s.currentSolutionMoveIndex % 2 = 1 ∨ s.currentSolutionMoveIndex = p.solution.length)

/-- The state after a sequence of calls. -/
def runEvents (rules : Rules) (s : PuzzleState) (events : List Event) : PuzzleState :=
  events.foldl (step rules) s

/-- A rules engine that knows three moves: e2-e4 from the initial position, the
reply e7-e5 and then g1-f3. -/
def sampleRules : Rules :=
  { move := fun board m =>
      if board = "rnbqkbnr/pppppppp/8/8/8/8/PPPPPPPP/RNBQKBNR w KQkq - 0 1" ∧
          m = { fromSq := "e2", toSq := "e4", promotion := none } then
        some "rnbqkbnr/pppppppp/8/8/4P3/8/PPPP1PPP/RNBQKBNR b KQkq e3 0 1"
      else if board = "rnbqkbnr/pppppppp/8/8/4P3/8/PPPP1PPP/RNBQKBNR b KQkq e3 0 1" ∧
          m = { fromSq := "e7", toSq := "e5", promotion := none } then
        some "rnbqkbnr/pppp1ppp/8/4p3/4P3/8/PPPP1PPP/RNBQKBNR w KQkq e6 0 2"
      else if board = "rnbqkbnr/pppp1ppp/8/4p3/4P3/8/PPPP1PPP/RNBQKBNR w KQkq e6 0 2" ∧
          m = { fromSq := "g1", toSq := "f3", promotion := none } then
        some "rnbqkbnr/pppp1ppp/8/4p3/4P3/5N2/PPPP1PPP/RNBQKB1R b KQkq - 1 2"
      else none }

/-- A puzzle that starts from the initial position with the three-move solution
e2e4, e7e5, g1f3. -/
def samplePuzzle : LichessPuzzleData :=
  { pgn := some "*", solution := some ["e2e4", "e7e5", "g1f3"], initialPly := some 0,
    id := some "sample" }

/-- The module right after `startPuzzle(samplePuzzle)`. -/
def sampleStarted : PuzzleState :=
  (startPuzzle sampleRules initialState samplePuzzle
    (some { startFen := "rnbqkbnr/pppppppp/8/8/8/8/PPPPPPPP/RNBQKBNR w KQkq - 0 1",
            turn := Review.Color.w })).state

/-- The sample puzzle is started, the player finds e2-e4 and the opponent
replies. -/
def sampleSolving : List Event :=
  [Event.startPuzzle samplePuzzle
     (some { startFen := "rnbqkbnr/pppppppp/8/8/8/8/PPPPPPPP/RNBQKBNR w KQkq - 0 1",
             turn := Review.Color.w }),
   Event.makePlayerMove "e2" "e4" none,
   Event.makeOpponentMove "sample"]

end Puzzle

namespace Review

/-! # Theorems -/

/-! ## The classifier -/

theorem classifyMove_of_records {hist : List HistoryMove} {data : List MoveAnalysis} {i : Nat}
    {m : HistoryMove} {b a : MoveAnalysis}
    (hm : hist[i]? = some m) (hb : data[i]? = some b) (ha : data[i + 1]? = some a) :
    classifyMove hist data (i : Int) =
      some (data.set (i + 1)
        (match b.eval_before, a.eval_before with
         | some eb, some ea =>
           { a with cpl := some (centipawnLoss m.color eb ea),
                    classification := some (classificationLabel (centipawnLoss m.color eb ea)
                      b.best_move_before (playedMoveUCI m)) }
         | _, _ => { a with classification := none, cpl := none })) := by
  have hlt : i < hist.length := by
    rcases List.getElem?_eq_some_iff.1 hm with ⟨h, _⟩
    exact h
  have hcond : ¬ ((i : Int) < 0 ∨ (i : Int) ≥ (hist.length : Int)) := by
    omega
  unfold classifyMove
  rw [if_neg hcond]
  simp only [Int.toNat_ofNat, hm, hb, ha]
  cases hbe : b.eval_before <;> cases hae : a.eval_before <;> rfl

theorem classificationLabel_eq_spec (loss : Int) (bm : Option String) (uci : String) :
    classificationLabel loss bm uci = specClassification loss (bestMoveMatches bm uci) := by
  unfold classificationLabel specClassification firstMatch THRESHOLD_BLUNDER THRESHOLD_MISTAKE
    THRESHOLD_INACCURACY
  by_cases h1 : loss ≥ 200
  · simp [h1]
  by_cases h2 : loss ≥ 90
  · simp [h1, h2]
  by_cases h3 : loss ≥ 40
  · simp [h1, h2, h3]
  by_cases h4 : bestMoveMatches bm uci = true
  · simp [h1, h2, h3, h4]
  by_cases h5 : loss ≤ 5
  · simp [h1, h2, h3, h4, h5]
  · simp [h1, h2, h3, h4, h5]


theorem bestMoveMatches_iff (bm : Option String) (uci : String) (hne : uci ≠ "") :
    bestMoveMatches bm uci = true ↔ bm = some uci := by
  cases bm with
  | none => simp [bestMoveMatches]
  | some s =>
    simp only [bestMoveMatches, Bool.and_eq_true, bne_iff_ne, ne_eq, beq_iff_eq, Option.some.injEq]
    constructor
    · rintro ⟨_, h⟩; exact h.symm
    · intro h; subst h; exact ⟨hne, rfl⟩

theorem classificationLabel_best_iff (loss : Int) (bm : Option String) (uci : String)
    (h : bestMoveMatches bm uci = true) :
    classificationLabel loss bm uci = "Meilleur" ↔ loss < 40 := by
  unfold classificationLabel THRESHOLD_BLUNDER THRESHOLD_MISTAKE THRESHOLD_INACCURACY
  by_cases h1 : loss ≥ 200
  · simp [h1]
    omega
  by_cases h2 : loss ≥ 90
  · simp [h1, h2]
    omega
  by_cases h3 : loss ≥ 40
  · simp [h1, h2, h3]
  · simp [h1, h2, h3, h]
    omega

theorem classificationLabel_not_best (loss : Int) (bm : Option String) (uci : String)
    (h : loss ≥ 40) : classificationLabel loss bm uci ≠ "Meilleur" := by
  unfold classificationLabel THRESHOLD_BLUNDER THRESHOLD_MISTAKE THRESHOLD_INACCURACY
  by_cases h1 : loss ≥ 200
  · simp [h1]
  by_cases h2 : loss ≥ 90
  · simp [h1, h2]
  · have h3 : loss ≥ 40 := h
    simp [h1, h2, h3]

theorem classifyMove_classified {hist : List HistoryMove} {data : List MoveAnalysis} {i : Nat}
    {m : HistoryMove} {b a : MoveAnalysis} {eb ea : Score}
    (hm : hist[i]? = some m) (hb : data[i]? = some b) (ha : data[i + 1]? = some a)
    (heb : b.eval_before = some eb) (hea : a.eval_before = some ea) :
    classifyMove hist data (i : Int) =
      some (data.set (i + 1)
        { a with cpl := some (centipawnLoss m.color eb ea),
                 classification := some (classificationLabel (centipawnLoss m.color eb ea)
                   b.best_move_before (playedMoveUCI m)) }) := by
  rw [classifyMove_of_records hm hb ha, heb, hea]

theorem classifyMove_deferred {hist : List HistoryMove} {data : List MoveAnalysis} {i : Nat}
    {m : HistoryMove} {b a : MoveAnalysis}
    (hm : hist[i]? = some m) (hb : data[i]? = some b) (ha : data[i + 1]? = some a)
    (hnone : b.eval_before = none ∨ a.eval_before = none) :
    classifyMove hist data (i : Int) =
      some (data.set (i + 1) { a with classification := none, cpl := none }) := by
  rw [classifyMove_of_records hm hb ha]
  rcases hnone with h | h
  · rw [h]
  · rw [h]; cases b.eval_before <;> rfl

/-- C1. When records `i` and `i + 1` both hold an evaluation, `classifyMove(i)`
stores in record `i + 1` a loss and the label that the specification's ordered
rule list (Blunder at 200, Mistake at 90, Inaccuracy at 40, Best on a best-move
match, Excellent up to 5, otherwise Good) selects for that loss by first match.
For a played move with a non-empty UCI text the best-move condition is equality
with record `i`'s best move; such a move is labelled Best exactly when the loss
is below 40, and no move with a loss of 40 or more is labelled Best. -/
theorem classifyMove_label_first_match (hist : List HistoryMove) (data : List MoveAnalysis)
    (i : Nat) (m : HistoryMove) (b a : MoveAnalysis) (eb ea : Score)
    (hm : hist[i]? = some m) (hb : data[i]? = some b) (ha : data[i + 1]? = some a)
    (heb : b.eval_before = some eb) (hea : a.eval_before = some ea) :
    ∃ data' a' loss,
      classifyMove hist data (i : Int) = some data' ∧
      data'[i + 1]? = some a' ∧ a'.cpl = some loss ∧
      a'.classification =
        some (specClassification loss (bestMoveMatches b.best_move_before (playedMoveUCI m))) ∧
      (playedMoveUCI m ≠ "" →
        (bestMoveMatches b.best_move_before (playedMoveUCI m) = true ↔
          b.best_move_before = some (playedMoveUCI m))) ∧
      (playedMoveUCI m ≠ "" → b.best_move_before = some (playedMoveUCI m) →
        (a'.classification = some "Meilleur" ↔ loss < 40)) ∧
      (loss ≥ 40 → a'.classification ≠ some "Meilleur") := by
  have hlen : i + 1 < data.length := (List.getElem?_eq_some_iff.1 ha).1
  refine ⟨_, _, _, classifyMove_classified hm hb ha heb hea, List.getElem?_set_self hlen, rfl,
    ?_, ?_, ?_, ?_⟩
  · simp only [classificationLabel_eq_spec]
  · exact bestMoveMatches_iff _ _
  · intro hne hbest
    have hmatch := (bestMoveMatches_iff b.best_move_before _ hne).2 hbest
    simp only [Option.some.injEq]
    exact classificationLabel_best_iff _ _ _ hmatch
  · intro hge
    simp only [ne_eq, Option.some.injEq]
    exact classificationLabel_not_best _ _ _ hge


theorem mathRound_intCast (z : Int) : mathRound (z : ℚ) = z := by
  unfold mathRound
  rw [Int.floor_eq_iff]
  constructor <;> norm_num

theorem mathRound_neg_of_lt (x : ℚ) (h : x < -(1 / 2)) : mathRound x < 0 := by
  unfold mathRound
  rw [Int.floor_lt]
  norm_num
  linarith

theorem centipawnLoss_cp (color : Color) (pb pa : ℚ) :
    centipawnLoss color (Score.cp pb) (Score.cp pa) =
      mathRound (if color = Color.w then 100 * pb - 100 * pa else 100 * pa - 100 * pb) := by
  unfold centipawnLoss scoreToCp turnMultiplier
  cases color
  · simp only [if_true]
    congr 1
    ring
  · simp only [reduceCtorEq, if_false]
    congr 1
    ring

/-- C2. When both evaluations are centipawn values `pb` and `pa` (in pawn
units), the loss stored by `classifyMove` is `round(100 * pb - 100 * pa)` for a
White move and `round(100 * pa - 100 * pb)` for a Black move; it is not clamped:
a difference below `-1/2` is stored as a negative loss. -/
theorem classifyMove_cpl_formula (hist : List HistoryMove) (data : List MoveAnalysis)
    (i : Nat) (m : HistoryMove) (b a : MoveAnalysis) (pb pa : ℚ)
    (hm : hist[i]? = some m) (hb : data[i]? = some b) (ha : data[i + 1]? = some a)
    (heb : b.eval_before = some (Score.cp pb)) (hea : a.eval_before = some (Score.cp pa)) :
    ∃ data' a',
      classifyMove hist data (i : Int) = some data' ∧ data'[i + 1]? = some a' ∧
      a'.cpl = some (mathRound
        (if m.color = Color.w then 100 * pb - 100 * pa else 100 * pa - 100 * pb)) ∧
      ((if m.color = Color.w then 100 * pb - 100 * pa else 100 * pa - 100 * pb) < -(1 / 2) →
        ∃ loss : Int, a'.cpl = some loss ∧ loss < 0) := by
  have hlen : i + 1 < data.length := (List.getElem?_eq_some_iff.1 ha).1
  refine ⟨_, _, classifyMove_classified hm hb ha heb hea, List.getElem?_set_self hlen, ?_, ?_⟩
  · simp only [centipawnLoss_cp]
  · intro hneg
    refine ⟨_, rfl, ?_⟩
    rw [centipawnLoss_cp]
    exact mathRound_neg_of_lt _ hneg


theorem scoreToCp_mate_pos (n : Int) (h : 0 < n) : scoreToCp (Score.mate n) = 10000 := by
  simp [scoreToCp, cpEquivalentMate, h]

theorem scoreToCp_mate_nonpos (n : Int) (h : n ≤ 0) : scoreToCp (Score.mate n) = -10000 := by
  have h' : ¬ n > 0 := by omega
  simp [scoreToCp, cpEquivalentMate, h']

/-- C3, counterexample. The mate evaluation `"M0"` (the engine's score for a
side to move that is checkmated) is normalised to `-10000`, which is not
`10000` times the sign of `0`; a White move from `"M1"` to `"M0"` therefore
gets the loss `20000`. -/
theorem scoreToCp_mate_zero_is_negative :
    scoreToCp (Score.mate 0) = -10000 ∧
    scoreToCp (Score.mate 0) ≠ 10000 * ((Int.sign 0 : Int) : ℚ) ∧
    centipawnLoss Color.w (Score.mate 1) (Score.mate 0) = 20000 := by
  refine ⟨scoreToCp_mate_nonpos 0 (le_refl 0), ?_, ?_⟩
  · rw [scoreToCp_mate_nonpos 0 (le_refl 0)]
    norm_num
  · unfold centipawnLoss
    rw [scoreToCp_mate_nonpos 0 (le_refl 0), scoreToCp_mate_pos 1 (by decide)]
    have h : ((10000 : ℚ) * turnMultiplier Color.w - -10000 * turnMultiplier Color.w)
        = ((20000 : Int) : ℚ) := by
      simp [turnMultiplier]
      norm_num
    rw [h, mathRound_intCast]

/-- C3, amended. A mate evaluation `"M n"` is normalised to `+10000` when
`n > 0` and to `-10000` when `n ≤ 0`, whatever `|n|`; a centipawn evaluation `p`
(pawn units) to `100 * p`. Hence a move between two mate evaluations that are
both positive or both non-positive has loss `0`, and a move from a mate for the
mover to a mate against the mover has loss `20000` (White: positive to
non-positive; Black: non-positive to positive). -/
theorem scoreToCp_normalization :
    (∀ n : Int, 0 < n → scoreToCp (Score.mate n) = 10000) ∧
    (∀ n : Int, n ≤ 0 → scoreToCp (Score.mate n) = -10000) ∧
    (∀ p : ℚ, scoreToCp (Score.cp p) = 100 * p) ∧
    (∀ (color : Color) (n₁ n₂ : Int), (0 < n₁ ↔ 0 < n₂) →
      centipawnLoss color (Score.mate n₁) (Score.mate n₂) = 0) ∧
    (∀ n₁ n₂ : Int, 0 < n₁ → n₂ ≤ 0 →
      centipawnLoss Color.w (Score.mate n₁) (Score.mate n₂) = 20000) ∧
    (∀ n₁ n₂ : Int, n₁ ≤ 0 → 0 < n₂ →
      centipawnLoss Color.b (Score.mate n₁) (Score.mate n₂) = 20000) := by
  refine ⟨scoreToCp_mate_pos, scoreToCp_mate_nonpos, ?_, ?_, ?_, ?_⟩
  · intro p
    simp [scoreToCp, mul_comm]
  · intro color n₁ n₂ hiff
    unfold centipawnLoss
    have hsame : scoreToCp (Score.mate n₁) = scoreToCp (Score.mate n₂) := by
      by_cases h1 : 0 < n₁
      · rw [scoreToCp_mate_pos n₁ h1, scoreToCp_mate_pos n₂ (hiff.1 h1)]
      · have h2 : ¬ 0 < n₂ := fun h => h1 (hiff.2 h)
        rw [scoreToCp_mate_nonpos n₁ (by omega), scoreToCp_mate_nonpos n₂ (by omega)]
    rw [hsame, sub_self]
    exact mathRound_intCast 0
  · intro n₁ n₂ h1 h2
    unfold centipawnLoss
    rw [scoreToCp_mate_pos n₁ h1, scoreToCp_mate_nonpos n₂ h2]
    have h : ((10000 : ℚ) * turnMultiplier Color.w - -10000 * turnMultiplier Color.w)
        = ((20000 : Int) : ℚ) := by
      simp [turnMultiplier]
      norm_num
    rw [h, mathRound_intCast]
  · intro n₁ n₂ h1 h2
    unfold centipawnLoss
    rw [scoreToCp_mate_nonpos n₁ h1, scoreToCp_mate_pos n₂ h2]
    have h : ((-10000 : ℚ) * turnMultiplier Color.b - 10000 * turnMultiplier Color.b)
        = ((20000 : Int) : ℚ) := by
      simp [turnMultiplier]
      norm_num
    rw [h, mathRound_intCast]

theorem scoreToCp_normalization_witness :
    centipawnLoss Color.w (Score.mate 3) (Score.mate (-2)) = 20000 :=
  scoreToCp_normalization.2.2.2.2.1 3 (-2) (by decide) (by decide)


theorem classifyMove_no_after {hist : List HistoryMove} {data : List MoveAnalysis} {i : Nat}
    {m : HistoryMove} {b : MoveAnalysis}
    (hm : hist[i]? = some m) (hb : data[i]? = some b) (ha : data[i + 1]? = none) :
    classifyMove hist data (i : Int) = some data := by
  have hlt : i < hist.length := (List.getElem?_eq_some_iff.1 hm).1
  have hcond : ¬ ((i : Int) < 0 ∨ (i : Int) ≥ (hist.length : Int)) := by omega
  unfold classifyMove
  rw [if_neg hcond]
  simp only [Int.toNat_ofNat, hm, hb, ha]

theorem classifyMove_no_before {hist : List HistoryMove} {data : List MoveAnalysis} {i : Nat}
    {m : HistoryMove} (hm : hist[i]? = some m) (hb : data[i]? = none) :
    classifyMove hist data (i : Int) = none := by
  have hlt : i < hist.length := (List.getElem?_eq_some_iff.1 hm).1
  have hcond : ¬ ((i : Int) < 0 ∨ (i : Int) ≥ (hist.length : Int)) := by omega
  unfold classifyMove
  rw [if_neg hcond]
  simp only [Int.toNat_ofNat, hm, hb]

theorem classifyMove_out_of_range {hist : List HistoryMove} {data : List MoveAnalysis} {i : Int}
    (h : i < 0 ∨ i ≥ (hist.length : Int)) : classifyMove hist data i = some data := by
  unfold classifyMove
  rw [if_pos h]

theorem getElem?_pred_of_some {α : Type} {l : List α} {i : Nat} {a : α}
    (h : l[i + 1]? = some a) : ∃ b, l[i]? = some b := by
  have hlen : i + 1 < l.length := (List.getElem?_eq_some_iff.1 h).1
  have hi : i < l.length := by omega
  exact ⟨l[i], List.getElem?_eq_getElem hi⟩

/-- C4. For a move index `i` in range, when the evaluation of record `i` or of
record `i + 1` is `none`, `classifyMove(i)` returns normally, keeps the number of
records, leaves every record other than `i + 1` as it was, and record `i + 1`
(when there is one) becomes the old record with `classification` and `cpl`
cleared and every other field unchanged. -/
theorem classifyMove_defers (hist : List HistoryMove) (data : List MoveAnalysis)
    (i : Nat) (hi : i < hist.length)
    (hnone : (∃ b, data[i]? = some b ∧ b.eval_before = none) ∨
             (∃ a, data[i + 1]? = some a ∧ a.eval_before = none)) :
    ∃ data',
      classifyMove hist data (i : Int) = some data' ∧
      data'.length = data.length ∧
      (∀ j, j ≠ i + 1 → data'[j]? = data[j]?) ∧
      (∀ a, data[i + 1]? = some a →
        data'[i + 1]? = some { a with classification := none, cpl := none }) := by
  have hm : hist[i]? = some hist[i] := List.getElem?_eq_getElem hi
  cases ha : data[i + 1]? with
  | none =>
    rcases hnone with ⟨b, hb, _⟩ | ⟨a, ha', _⟩
    · refine ⟨data, classifyMove_no_after hm hb ha, rfl, fun _ _ => rfl, ?_⟩
      intro a h
      exact absurd h (by simp)
    · rw [ha] at ha'
      exact absurd ha' (by simp)
  | some a =>
    obtain ⟨b, hb⟩ := getElem?_pred_of_some ha
    have hlen : i + 1 < data.length := (List.getElem?_eq_some_iff.1 ha).1
    have hdef : b.eval_before = none ∨ a.eval_before = none := by
      rcases hnone with ⟨b', hb', h⟩ | ⟨a', ha', h⟩
      · rw [hb] at hb'
        left
        rw [Option.some.inj hb']
        exact h
      · rw [ha] at ha'
        right
        rw [Option.some.inj ha']
        exact h
    refine ⟨_, classifyMove_deferred hm hb ha hdef, List.length_set _ _ _, ?_, ?_⟩
    · intro j hj
      exact List.getElem?_set_ne (Ne.symm hj)
    · intro a' h
      rw [Option.some.inj h, List.getElem?_set_self hlen]

/-- C6. `classifyMove` is idempotent on the evaluation store: for every
history, store and index, running `classifyMove(i)` again on the store the first
call produced gives that same store (and when the first call raises, no second
call takes place and nothing was written). -/
theorem classifyMove_idempotent (hist : List HistoryMove) (data : List MoveAnalysis) (i : Int) :
    (classifyMove hist data i).bind (fun once => classifyMove hist once i) =
      classifyMove hist data i := by
  by_cases hrange : i < 0 ∨ i ≥ (hist.length : Int)
  · rw [classifyMove_out_of_range hrange, Option.some_bind, classifyMove_out_of_range hrange]
  · obtain ⟨n, rfl⟩ : ∃ n : Nat, i = (n : Int) := ⟨i.toNat, by omega⟩
    have hn : n < hist.length := by omega
    have hm : hist[n]? = some hist[n] := List.getElem?_eq_getElem hn
    cases hb : data[n]? with
    | none => rw [classifyMove_no_before hm hb, Option.none_bind]
    | some b =>
      cases ha : data[n + 1]? with
      | none =>
        rw [classifyMove_no_after hm hb ha, Option.some_bind, classifyMove_no_after hm hb ha]
      | some a =>
        have hlen : n + 1 < data.length := (List.getElem?_eq_some_iff.1 ha).1
        rw [classifyMove_of_records hm hb ha, Option.some_bind]
        have hb' : ∀ r, (data.set (n + 1) r)[n]? = some b := by
          intro r
          rw [List.getElem?_set_ne (by omega)]
          exact hb
        have ha' : ∀ r, (data.set (n + 1) r)[n + 1]? = some r := fun r =>
          List.getElem?_set_self hlen
        rw [classifyMove_of_records hm (hb' _) (ha' _), List.set_set]
        cases b.eval_before <;> cases a.eval_before <;> rfl


theorem classifyMove_label_first_match_witness :
    playedMoveUCI sampleWhiteMove = "e2e4" ∧
    ∃ data' a' loss,
      classifyMove [sampleWhiteMove]
        [sampleRecord0 (some (Score.cp (3 / 10))) (some "e2e4"),
         sampleRecord1 (some (Score.cp (1 / 5)))] 0 = some data' ∧
      data'[1]? = some a' ∧ a'.cpl = some loss ∧ loss = 10 ∧
      a'.classification = some "Meilleur" := by
  obtain ⟨data', a', loss, h1, h2, h3, _, _, h6, _⟩ :=
    classifyMove_label_first_match [sampleWhiteMove]
      [sampleRecord0 (some (Score.cp (3 / 10))) (some "e2e4"),
       sampleRecord1 (some (Score.cp (1 / 5)))] 0 sampleWhiteMove
      (sampleRecord0 (some (Score.cp (3 / 10))) (some "e2e4"))
      (sampleRecord1 (some (Score.cp (1 / 5)))) (Score.cp (3 / 10)) (Score.cp (1 / 5))
      rfl rfl rfl rfl rfl
  have hc : classifyMove [sampleWhiteMove]
      [sampleRecord0 (some (Score.cp (3 / 10))) (some "e2e4"),
       sampleRecord1 (some (Score.cp (1 / 5)))] 0 =
      some [sampleRecord0 (some (Score.cp (3 / 10))) (some "e2e4"),
        { sampleRecord1 (some (Score.cp (1 / 5))) with
          cpl := some 10, classification := some "Meilleur" }] := by decide!
  have hd : data' = _ := Option.some.inj (h1.symm.trans hc)
  subst hd
  have ha : a' = _ := (Option.some.inj h2).symm
  subst ha
  have hl : loss = 10 := (Option.some.inj h3).symm
  have huci : playedMoveUCI sampleWhiteMove = "e2e4" := by decide
  refine ⟨huci, _, _, loss, h1, h2, h3, hl, ?_⟩
  exact (h6 (by decide) rfl).2 (by omega)

theorem classifyMove_cpl_formula_witness :
    ∃ data' a',
      classifyMove [sampleWhiteMove]
        [sampleRecord0 (some (Score.cp 1)) none, sampleRecord1 (some (Score.cp (-3 / 2)))] 0
        = some data' ∧
      data'[1]? = some a' ∧ a'.cpl = some 250 ∧ a'.classification = some "Gaffe" := by
  obtain ⟨data', a', h1, h2, h3, _⟩ :=
    classifyMove_cpl_formula [sampleWhiteMove]
      [sampleRecord0 (some (Score.cp 1)) none, sampleRecord1 (some (Score.cp (-3 / 2)))] 0
      sampleWhiteMove (sampleRecord0 (some (Score.cp 1)) none)
      (sampleRecord1 (some (Score.cp (-3 / 2)))) 1 (-3 / 2) rfl rfl rfl rfl rfl
  have hc : classifyMove [sampleWhiteMove]
      [sampleRecord0 (some (Score.cp 1)) none, sampleRecord1 (some (Score.cp (-3 / 2)))] 0 =
      some [sampleRecord0 (some (Score.cp 1)) none,
        { sampleRecord1 (some (Score.cp (-3 / 2))) with
          cpl := some 250, classification := some "Gaffe" }] := by decide!
  have hd : data' = _ := Option.some.inj (h1.symm.trans hc)
  subst hd
  have ha : a' = _ := (Option.some.inj h2).symm
  subst ha
  exact ⟨_, _, h1, h2, rfl, rfl⟩

theorem classifyMove_defers_witness :
    ∃ data',
      classifyMove [sampleWhiteMove]
        [sampleRecord0 none none,
         { sampleRecord1 (some (Score.cp (1 / 5))) with
           cpl := some 10, classification := some "Bon" }] 0 = some data' ∧
      data'[1]? = some (sampleRecord1 (some (Score.cp (1 / 5)))) := by
  obtain ⟨data', h1, _, _, h4⟩ :=
    classifyMove_defers [sampleWhiteMove]
      [sampleRecord0 none none,
       { sampleRecord1 (some (Score.cp (1 / 5))) with
         cpl := some 10, classification := some "Bon" }] 0 (by decide)
      (Or.inl ⟨sampleRecord0 none none, rfl, rfl⟩)
  exact ⟨data', h1, h4 _ rfl⟩

/-! ## The message handler: commit of streamed results -/

theorem startsWith_info_not_control {m : String} (h : startsWith m "info" = true) :
    m ≠ "uciok" ∧ m ≠ "readyok" := by
  constructor
  · intro hm
    subst hm
    revert h
    decide
  · intro hm
    subst hm
    revert h
    decide

theorem startsWith_bestmove_not_control {m : String} (h : startsWith m "bestmove" = true) :
    m ≠ "uciok" ∧ m ≠ "readyok" := by
  constructor
  · intro hm
    subst hm
    revert h
    decide
  · intro hm
    subst hm
    revert h
    decide

theorem startsWith_bestmove_not_info {m : String} (h : startsWith m "bestmove" = true) :
    startsWith m "info" = false := by
  unfold startsWith at *
  have hb : "bestmove".data = 'b' :: "estmove".data := rfl
  have hi : "info".data = 'i' :: "nfo".data := rfl
  rw [hb] at h
  rw [hi]
  cases hm : m.data with
  | nil => rfl
  | cons c cs =>
    rw [hm] at h
    simp only [List.isPrefixOf_cons₂, Bool.and_eq_true, beq_iff_eq] at h
    simp only [List.isPrefixOf_cons₂, Bool.and_eq_false_imp, beq_iff_eq]
    intro hc
    rw [← h.1] at hc
    exact absurd hc (by decide)

theorem handle_info_some {s : ReviewState} {job : Job} {m : String} {dataEntry : MoveAnalysis}
    (hjob : s.currentAnalysisJob = some job) (hinfo : startsWith m "info" = true)
    (hrec : s.moveAnalysisData[job.analysisDataIndex]? = some dataEntry) :
    handleStockfishMessage_Review s m =
      { s with moveAnalysisData :=
          s.moveAnalysisData.set job.analysisDataIndex (applyInfo dataEntry (parseInfo m)) } := by
  obtain ⟨h1, h2⟩ := startsWith_info_not_control hinfo
  unfold handleStockfishMessage_Review
  rw [if_neg h1, if_neg h2, hjob]
  simp only [hinfo, if_true, hrec]

theorem handle_info_none {s : ReviewState} {job : Job} {m : String}
    (hjob : s.currentAnalysisJob = some job) (hinfo : startsWith m "info" = true)
    (hrec : s.moveAnalysisData[job.analysisDataIndex]? = none) :
    handleStockfishMessage_Review s m = s := by
  obtain ⟨h1, h2⟩ := startsWith_info_not_control hinfo
  unfold handleStockfishMessage_Review
  rw [if_neg h1, if_neg h2, hjob]
  simp only [hinfo, if_true, hrec]

theorem processStockfishQueue_data (s : ReviewState) :
    (processStockfishQueue s).moveAnalysisData = s.moveAnalysisData := by
  unfold processStockfishQueue
  cases s.stockfishQueue with
  | nil =>
    simp only []
    split <;> rfl
  | cons job rest =>
    simp only []
    split <;> rfl

theorem processStockfishQueue_history (s : ReviewState) :
    (processStockfishQueue s).fullGameHistory = s.fullGameHistory := by
  unfold processStockfishQueue
  cases s.stockfishQueue with
  | nil =>
    simp only []
    split <;> rfl
  | cons job rest =>
    simp only []
    split <;> rfl

/-- The store right after the commit and the classification of the `bestmove`
branch, before the pump runs. -/
theorem handle_bestmove_data {s : ReviewState} {job : Job} {m : String} {dataEntry : MoveAnalysis}
    (hjob : s.currentAnalysisJob = some job) (hbm : startsWith m "bestmove" = true)
    (hrec : s.moveAnalysisData[job.analysisDataIndex]? = some dataEntry) :
    (handleStockfishMessage_Review s m).moveAnalysisData =
      if (job.analysisDataIndex : Int) - 1 ≥ 0 then
        (classifyMove s.fullGameHistory
          (s.moveAnalysisData.set job.analysisDataIndex
            (commitRecord dataEntry job none (parseFinalBestMove m)))
          ((job.analysisDataIndex : Int) - 1)).getD
          (s.moveAnalysisData.set job.analysisDataIndex
            (commitRecord dataEntry job none (parseFinalBestMove m)))
      else
        s.moveAnalysisData.set job.analysisDataIndex
          (commitRecord dataEntry job none (parseFinalBestMove m)) := by
  obtain ⟨h1, h2⟩ := startsWith_bestmove_not_control hbm
  have h3 := startsWith_bestmove_not_info hbm
  unfold handleStockfishMessage_Review
  rw [if_neg h1, if_neg h2, hjob]
  simp only [h3, hbm, if_true, hrec, Bool.false_eq_true, if_false]
  split
  · cases hc : classifyMove s.fullGameHistory
      (s.moveAnalysisData.set job.analysisDataIndex
        (commitRecord dataEntry job none (parseFinalBestMove m)))
      ((job.analysisDataIndex : Int) - 1) with
    | none => rfl
    | some classified => simp only [processStockfishQueue_data, Option.getD_some]
  · simp only [processStockfishQueue_data]


theorem classifyMove_frame {hist : List HistoryMove} {data data' : List MoveAnalysis} {i : Int}
    (h : classifyMove hist data i = some data') :
    data'.length = data.length ∧
    ∀ (j : Nat) (r : MoveAnalysis), data[j]? = some r →
      ∃ r' : MoveAnalysis, data'[j]? = some r' ∧
        r' = { r with cpl := r'.cpl, classification := r'.classification } := by
  by_cases hrange : i < 0 ∨ i ≥ (hist.length : Int)
  · rw [classifyMove_out_of_range hrange] at h
    cases h
    exact ⟨rfl, fun j r hr => ⟨r, hr, rfl⟩⟩
  · obtain ⟨n, rfl⟩ : ∃ n : Nat, i = (n : Int) := ⟨i.toNat, by omega⟩
    have hn : n < hist.length := by omega
    have hm : hist[n]? = some hist[n] := List.getElem?_eq_getElem hn
    cases hb : data[n]? with
    | none =>
      rw [classifyMove_no_before hm hb] at h
      cases h
    | some b =>
      cases ha : data[n + 1]? with
      | none =>
        rw [classifyMove_no_after hm hb ha] at h
        cases h
        exact ⟨rfl, fun j r hr => ⟨r, hr, rfl⟩⟩
      | some a =>
        have hlen : n + 1 < data.length := (List.getElem?_eq_some_iff.1 ha).1
        rw [classifyMove_of_records hm hb ha] at h
        cases h
        refine ⟨List.length_set _ _ _, ?_⟩
        intro j r hr
        by_cases hj : j = n + 1
        · subst hj
          rw [ha] at hr
          cases hr
          refine ⟨_, List.getElem?_set_self hlen, ?_⟩
          cases b.eval_before <;> cases a.eval_before <;> rfl
        · refine ⟨r, ?_, rfl⟩
          rw [List.getElem?_set_ne (Ne.symm hj)]
          exact hr

theorem classifyMove_total_of_after (hist : List HistoryMove) {data : List MoveAnalysis}
    {n : Nat} {a : MoveAnalysis} (ha : data[n + 1]? = some a) (i : Int) (hi : i = (n : Int)) :
    ∃ data', classifyMove hist data i = some data' := by
  subst hi
  obtain ⟨b, hb⟩ := getElem?_pred_of_some ha
  by_cases hrange : (n : Int) < 0 ∨ (n : Int) ≥ (hist.length : Int)
  · exact ⟨data, classifyMove_out_of_range hrange⟩
  · have hn : n < hist.length := by omega
    have hm : hist[n]? = some hist[n] := List.getElem?_eq_getElem hn
    exact ⟨_, classifyMove_of_records hm hb ha⟩

theorem handle_bestmove_record {s : ReviewState} {job : Job} {m : String}
    {dataEntry : MoveAnalysis}
    (hjob : s.currentAnalysisJob = some job) (hbm : startsWith m "bestmove" = true)
    (hrec : s.moveAnalysisData[job.analysisDataIndex]? = some dataEntry) :
    ∃ r' : MoveAnalysis,
      (handleStockfishMessage_Review s m).moveAnalysisData[job.analysisDataIndex]? = some r' ∧
      r' = { commitRecord dataEntry job none (parseFinalBestMove m) with
             cpl := r'.cpl, classification := r'.classification } := by
  have hlen : job.analysisDataIndex < s.moveAnalysisData.length :=
    (List.getElem?_eq_some_iff.1 hrec).1
  have hset : (s.moveAnalysisData.set job.analysisDataIndex
      (commitRecord dataEntry job none (parseFinalBestMove m)))[job.analysisDataIndex]? =
      some (commitRecord dataEntry job none (parseFinalBestMove m)) :=
    List.getElem?_set_self hlen
  rw [handle_bestmove_data hjob hbm hrec]
  split
  · rename_i hge
    obtain ⟨n, hn⟩ : ∃ n : Nat, job.analysisDataIndex = n + 1 :=
      ⟨job.analysisDataIndex - 1, by omega⟩
    have hset' := hset
    rw [hn] at hset'
    obtain ⟨data', hc⟩ := classifyMove_total_of_after s.fullGameHistory hset'
      ((job.analysisDataIndex : Int) - 1) (by omega)
    rw [← hn] at hc
    rw [hc, Option.getD_some]
    exact (classifyMove_frame hc).2 _ _ hset
  · exact ⟨_, hset, rfl⟩

theorem lastDefined_cons_orElse {α : Type} (x : Option α) (rest : List (Option α)) (t : Option α) :
    (lastDefined (x :: rest) <|> t) = (lastDefined rest <|> (x <|> t)) := by
  have h : lastDefined (x :: rest) =
      (match lastDefined rest with
       | some v => some v
       | none => x) := rfl
  rw [h]
  cases lastDefined rest <;> cases x <;> rfl

theorem applyInfo_eval (d : MoveAnalysis) (info : InfoLine) :
    (applyInfo d info).eval_before_temp = (info.currentEval <|> d.eval_before_temp) := by
  unfold applyInfo
  cases info.currentEval <;> rfl

theorem applyInfo_pv (d : MoveAnalysis) (info : InfoLine) :
    (applyInfo d info).pv_temp = (info.currentPv <|> d.pv_temp) := by
  unfold applyInfo
  cases info.currentPv <;> rfl

theorem runMessages_info (lines : List String) :
    ∀ (s : ReviewState) (job : Job) (dataEntry : MoveAnalysis),
      s.currentAnalysisJob = some job →
      s.moveAnalysisData[job.analysisDataIndex]? = some dataEntry →
      (∀ l ∈ lines, startsWith l "info" = true) →
      (runMessages s lines).currentAnalysisJob = some job ∧
      ∃ d', (runMessages s lines).moveAnalysisData[job.analysisDataIndex]? = some d' ∧
        d'.eval_before_temp =
          (lastDefined (lines.map (fun l => (parseInfo l).currentEval)) <|>
            dataEntry.eval_before_temp) ∧
        d'.pv_temp =
          (lastDefined (lines.map (fun l => (parseInfo l).currentPv)) <|> dataEntry.pv_temp) := by
  induction lines with
  | nil =>
    intro s job dataEntry hjob hrec _
    exact ⟨hjob, dataEntry, hrec, rfl, rfl⟩
  | cons l ls ih =>
    intro s job dataEntry hjob hrec hlines
    have hl : startsWith l "info" = true := hlines l (List.mem_cons_self _ _)
    have hls : ∀ l' ∈ ls, startsWith l' "info" = true := fun l' h' =>
      hlines l' (List.mem_cons_of_mem _ h')
    have hlen : job.analysisDataIndex < s.moveAnalysisData.length :=
      (List.getElem?_eq_some_iff.1 hrec).1
    have hstep : runMessages s (l :: ls) = runMessages (handleStockfishMessage_Review s l) ls := rfl
    rw [hstep, handle_info_some hjob hl hrec]
    obtain ⟨hj, d', hd', he, hp⟩ := ih
      { s with moveAnalysisData :=
          s.moveAnalysisData.set job.analysisDataIndex (applyInfo dataEntry (parseInfo l)) }
      job (applyInfo dataEntry (parseInfo l)) hjob (List.getElem?_set_self hlen) hls
    refine ⟨hj, d', hd', ?_, ?_⟩
    · rw [he, applyInfo_eval, List.map_cons, lastDefined_cons_orElse]
    · rw [hp, applyInfo_pv, List.map_cons, lastDefined_cons_orElse]


theorem lastDefined_eq_none {α : Type} (xs : List (Option α)) (h : ∀ x ∈ xs, x = none) :
    lastDefined xs = none := by
  induction xs with
  | nil => rfl
  | cons x rest ih =>
    have hx : x = none := h x (List.mem_cons_self _ _)
    have hrest : lastDefined rest = none := ih (fun y hy => h y (List.mem_cons_of_mem _ hy))
    have hd : lastDefined (x :: rest) =
        (match lastDefined rest with
         | some v => some v
         | none => x) := rfl
    rw [hd, hrest, hx]

theorem runMessages_append_one (s : ReviewState) (lines : List String) (final : String) :
    runMessages s (lines ++ [final]) =
      handleStockfishMessage_Review (runMessages s lines) final := by
  unfold runMessages
  rw [List.foldl_append]
  rfl

/-- The record committed by a stream of `info` lines closed by a `bestmove` line. -/
theorem runMessages_commit {s : ReviewState} {job : Job} {dataEntry : MoveAnalysis}
    {lines : List String} {final : String}
    (hjob : s.currentAnalysisJob = some job)
    (hrec : s.moveAnalysisData[job.analysisDataIndex]? = some dataEntry)
    (hlines : ∀ l ∈ lines, startsWith l "info" = true)
    (hfinal : startsWith final "bestmove" = true) :
    ∃ committed : MoveAnalysis,
      (runMessages s (lines ++ [final])).moveAnalysisData[job.analysisDataIndex]? =
        some committed ∧
      committed.eval_before =
        (lastDefined (lines.map (fun l => (parseInfo l).currentEval)) <|>
          dataEntry.eval_before_temp) ∧
      committed.pv =
        ((lastDefined (lines.map (fun l => (parseInfo l).currentPv)) <|> dataEntry.pv_temp) <|>
          fallbackPv (parseFinalBestMove final)) := by
  obtain ⟨hj, d', hd', he, hp⟩ := runMessages_info lines s job dataEntry hjob hrec hlines
  obtain ⟨r', hr', hshape⟩ := handle_bestmove_record (m := final) hj hfinal hd'
  rw [runMessages_append_one]
  refine ⟨r', hr', ?_, ?_⟩
  · rw [hshape]
    show (d'.eval_before_temp <|> none) = _
    rw [he]
    cases (lastDefined (lines.map (fun l => (parseInfo l).currentEval)) <|>
      dataEntry.eval_before_temp) <;> rfl
  · rw [hshape]
    show (d'.pv_temp <|> fallbackPv (parseFinalBestMove final)) = _
    rw [hp]

/-- C9. Last write wins. For a job in flight whose target record exists and
holds no provisional evaluation, after any sequence of `info` lines followed by
a `bestmove` line the committed evaluation is the score of the last line that
carried one (`none` when no line did) and, when some line carried a `pv`, the
committed principal variation is the move list of the last such line. The score
of a line is `mate n` when it matches `score mate n`, otherwise `n / 100` pawns
when it matches `score cp n`, otherwise absent. -/
theorem commit_last_write_wins (s : ReviewState) (job : Job) (dataEntry : MoveAnalysis)
    (lines : List String) (final : String)
    (hjob : s.currentAnalysisJob = some job)
    (hrec : s.moveAnalysisData[job.analysisDataIndex]? = some dataEntry)
    (heval : dataEntry.eval_before_temp = none)
    (hlines : ∀ l ∈ lines, startsWith l "info" = true)
    (hfinal : startsWith final "bestmove" = true) :
    ∃ committed : MoveAnalysis,
      (runMessages s (lines ++ [final])).moveAnalysisData[job.analysisDataIndex]? =
        some committed ∧
      committed.eval_before = lastDefined (lines.map (fun l => (parseInfo l).currentEval)) ∧
      (∀ pv, lastDefined (lines.map (fun l => (parseInfo l).currentPv)) = some pv →
        committed.pv = some pv) ∧
      (∀ l : String, (parseInfo l).currentEval =
        match regexSearch "score mate ".data matchSignedDigits l.data with
        | some n => some (Score.mate (parseInt n))
        | none =>
          match regexSearch "score cp ".data matchSignedDigits l.data with
          | some n => some (Score.cp ((parseInt n : ℚ) / 100))
          | none => none) ∧
      (∀ l : String, (parseInfo l).currentPv =
        (regexSearch " pv ".data matchRestOfLine l.data).map
          (fun t => (splitOnSpace t).map String.mk)) := by
  obtain ⟨committed, hc, he, hp⟩ := runMessages_commit hjob hrec hlines hfinal
  refine ⟨committed, hc, ?_, ?_, fun _ => rfl, fun _ => rfl⟩
  · rw [he, heval]
    cases lastDefined (lines.map (fun l => (parseInfo l).currentEval)) <;> rfl
  · intro pv hlast
    rw [hp, hlast]
    rfl

/-- C10, amended. For a job in flight whose target record exists and holds no
provisional `pv`, when no `info` line before the `bestmove` line carried a `pv`,
the committed principal variation is the one-element list of the finalized best
move when that move is a non-empty text other than `(none)`, and it is `null`
when the `bestmove` line has no move, an empty one, or `(none)`. -/
theorem commit_pv_fallback (s : ReviewState) (job : Job) (dataEntry : MoveAnalysis)
    (lines : List String) (final : String)
    (hjob : s.currentAnalysisJob = some job)
    (hrec : s.moveAnalysisData[job.analysisDataIndex]? = some dataEntry)
    (hpv : dataEntry.pv_temp = none)
    (hlines : ∀ l ∈ lines, startsWith l "info" = true)
    (hnopv : ∀ l ∈ lines, (parseInfo l).currentPv = none)
    (hfinal : startsWith final "bestmove" = true) :
    ∃ committed : MoveAnalysis,
      (runMessages s (lines ++ [final])).moveAnalysisData[job.analysisDataIndex]? =
        some committed ∧
      (∀ bm, parseFinalBestMove final = some bm → bm ≠ "" → bm ≠ "(none)" →
        committed.pv = some [bm]) ∧
      (parseFinalBestMove final = none ∨ parseFinalBestMove final = some "" ∨
        parseFinalBestMove final = some "(none)" → committed.pv = none) := by
  obtain ⟨committed, hc, _, hp⟩ := runMessages_commit hjob hrec hlines hfinal
  have hnone : lastDefined (lines.map (fun l => (parseInfo l).currentPv)) = none := by
    apply lastDefined_eq_none
    intro x hx
    obtain ⟨l, hl, rfl⟩ := List.mem_map.1 hx
    exact hnopv l hl
  have hp' : committed.pv = fallbackPv (parseFinalBestMove final) := by
    rw [hp, hnone, hpv]
    rfl
  refine ⟨committed, hc, ?_, ?_⟩
  · intro bm hbm h1 h2
    rw [hp', hbm]
    simp [fallbackPv, h1, h2]
  · intro h
    rw [hp']
    rcases h with h | h | h <;> rw [h] <;> simp [fallbackPv]

/-- C10, counterexample. With the job for the initial position in flight and no
`info` line received, the line `bestmove (none)` commits the principal variation
`null`, not the one-element list of the finalized best move `(none)`. -/
theorem bestmove_none_commits_no_pv :
    sampleBusyState.currentAnalysisJob = some sampleJob ∧
    sampleBusyState.moveAnalysisData[0]? = some (freshRecord none initialFen none) ∧
    parseFinalBestMove "bestmove (none)" = some "(none)" ∧
    ((runMessages sampleBusyState ["bestmove (none)"]).moveAnalysisData[0]?).map
      (fun r => r.pv) = some none := by
  decide


theorem commit_last_write_wins_witness :
    ∃ committed : MoveAnalysis,
      (runMessages sampleBusyState
        ["info depth 1 score cp 20 pv e2e4", "info depth 2 nodes 90",
         "info depth 12 score cp 35 nodes 1000 pv d2d4 d7d5",
         "bestmove d2d4 ponder d7d5"]).moveAnalysisData[0]? = some committed ∧
      committed.eval_before = some (Score.cp (35 / 100)) ∧
      committed.pv = some ["d2d4", "d7d5"] := by
  obtain ⟨committed, hc, he, hp, _, _⟩ :=
    commit_last_write_wins sampleBusyState sampleJob (freshRecord none initialFen none)
      ["info depth 1 score cp 20 pv e2e4", "info depth 2 nodes 90",
       "info depth 12 score cp 35 nodes 1000 pv d2d4 d7d5"]
      "bestmove d2d4 ponder d7d5" (by decide) (by decide) rfl (by decide) (by decide)
  refine ⟨committed, hc, ?_, hp _ (by decide)⟩
  rw [he]
  decide!

theorem commit_pv_fallback_witness :
    ∃ committed : MoveAnalysis,
      (runMessages sampleBusyState
        ["info depth 1 score cp 20", "bestmove e2e4"]).moveAnalysisData[0]? = some committed ∧
      committed.pv = some ["e2e4"] := by
  obtain ⟨committed, hc, hp, _⟩ :=
    commit_pv_fallback sampleBusyState sampleJob (freshRecord none initialFen none)
      ["info depth 1 score cp 20"] "bestmove e2e4"
      (by decide) (by decide) rfl (by decide) (by decide) (by decide)
  exact ⟨committed, hc, hp "e2e4" (by decide) (by decide) (by decide)⟩

/-! ## The session invariant -/

theorem pipelineInvariant_congr {s t : ReviewState} (h : PipelineInvariant s)
    (hd : t.moveAnalysisData = s.moveAnalysisData)
    (hj : t.currentAnalysisJob = s.currentAnalysisJob)
    (hq : t.stockfishQueue = s.stockfishQueue)
    (hp : t.isProcessingQueue = s.isProcessingQueue) : PipelineInvariant t := by
  have hpipe : pipeline t = pipeline s := by unfold pipeline; rw [hj, hq]
  constructor
  · rw [hp, hj]; exact h.flag
  · rw [hpipe]; exact h.nodup
  · rw [hpipe, hd]; exact h.target_pending
  · rw [hpipe]; exact h.pass1
  · rw [hd]; exact h.eval_done
  · rw [hd, hj]; exact h.provisional
  · rw [hd]; exact h.classified

theorem sessionInvariant_congr {s t : ReviewState} (h : SessionInvariant s)
    (hd : t.moveAnalysisData = s.moveAnalysisData)
    (hj : t.currentAnalysisJob = s.currentAnalysisJob)
    (hq : t.stockfishQueue = s.stockfishQueue)
    (hp : t.isProcessingQueue = s.isProcessingQueue) : SessionInvariant t := by
  refine ⟨pipelineInvariant_congr h.1 hd hj hq hp, ?_⟩
  rw [hj, hq]
  exact h.2

theorem no_provisional_of_idle {s : ReviewState} (h : PipelineInvariant s)
    (hidle : s.currentAnalysisJob = none) (k : Nat) (r : MoveAnalysis)
    (hr : s.moveAnalysisData[k]? = some r) : ¬ hasProvisional r := by
  intro hp
  obtain ⟨j, hj, _⟩ := h.provisional k r hr hp
  rw [hidle] at hj
  cases hj

/-- The pump, started on an idle session, establishes the session invariant. -/
theorem sessionInvariant_processStockfishQueue {s : ReviewState} (h : PipelineInvariant s)
    (hidle : s.currentAnalysisJob = none) : SessionInvariant (processStockfishQueue s) := by
  have hflag : s.isProcessingQueue = false := by rw [h.flag, hidle]; rfl
  unfold processStockfishQueue
  cases hq : s.stockfishQueue with
  | nil =>
    simp only []
    have key : ∀ t : ReviewState, t.moveAnalysisData = s.moveAnalysisData →
        t.currentAnalysisJob = s.currentAnalysisJob → t.stockfishQueue = s.stockfishQueue →
        t.isProcessingQueue = false → SessionInvariant t := by
      intro t hd hj hq' hp
      refine ⟨pipelineInvariant_congr h hd hj hq' (hp.trans hflag.symm), ?_⟩
      intro _
      rw [hq', hq]
    split
    · exact key _ rfl rfl hq.symm rfl
    · exact key _ rfl rfl hq.symm rfl
  | cons job rest =>
    simp only [hflag, Bool.false_eq_true, if_false]
    have hpipe : pipeline s = job :: rest := by unfold pipeline; rw [hidle, hq]; rfl
    refine ⟨?_, ?_⟩
    · constructor
      · rfl
      · show ((job :: rest).map (fun j => j.analysisDataIndex)).Nodup
        rw [← hpipe]; exact h.nodup
      · show ∀ j ∈ job :: rest, _
        rw [← hpipe]; exact h.target_pending
      · show ∀ j ∈ job :: rest, _
        rw [← hpipe]; exact h.pass1
      · exact h.eval_done
      · intro k r hr hp
        exact absurd hp (no_provisional_of_idle h hidle k r hr)
      · exact h.classified
    · intro hnone
      cases hnone


/-- Replacing records by records with the same completion flag, evaluation and
label, and no new provisional field outside the target of the job in flight,
preserves the pipeline facts. -/
theorem PipelineInvariant.of_related {s t : ReviewState} (h : PipelineInvariant s)
    (hj : t.currentAnalysisJob = s.currentAnalysisJob)
    (hq : t.stockfishQueue = s.stockfishQueue)
    (hp : t.isProcessingQueue = s.isProcessingQueue)
    (hrel : ∀ (k : Nat) (r' : MoveAnalysis), t.moveAnalysisData[k]? = some r' →
      ∃ r : MoveAnalysis, s.moveAnalysisData[k]? = some r ∧
        r'.pass1_complete = r.pass1_complete ∧ r'.eval_before = r.eval_before ∧
        r'.classification = r.classification ∧
        (hasProvisional r' →
          hasProvisional r ∨ ∃ j, s.currentAnalysisJob = some j ∧ j.analysisDataIndex = k)) :
    PipelineInvariant t := by
  have hpipe : pipeline t = pipeline s := by unfold pipeline; rw [hj, hq]
  constructor
  · rw [hp, hj]; exact h.flag
  · rw [hpipe]; exact h.nodup
  · rw [hpipe]
    intro j hjm r' hr'
    obtain ⟨r, hr, h1, _, _, _⟩ := hrel _ r' hr'
    rw [h1]
    exact h.target_pending j hjm r hr
  · rw [hpipe]; exact h.pass1
  · intro k r' hr' he
    obtain ⟨r, hr, h1, h2, _, _⟩ := hrel k r' hr'
    rw [h1]
    exact h.eval_done k r hr (by rw [← h2]; exact he)
  · intro k r' hr' hprov
    obtain ⟨r, hr, _, _, _, h4⟩ := hrel k r' hr'
    rw [hj]
    rcases h4 hprov with h5 | h5
    · exact h.provisional k r hr h5
    · exact h5
  · intro k r' hr' hc
    obtain ⟨r, hr, _, h2, h3, _⟩ := hrel (k + 1) r' hr'
    obtain ⟨he, r0, hr0, he0⟩ := h.classified k r hr (by rw [← h3]; exact hc)
    refine ⟨by rw [h2]; exact he, ?_⟩
    obtain ⟨r0', hr0'⟩ := getElem?_pred_of_some hr'
    obtain ⟨r0'', hr0'', _, h2', _, _⟩ := hrel k r0' hr0'
    rw [hr0] at hr0''
    cases hr0''
    exact ⟨r0', hr0', by rw [h2']; exact he0⟩

theorem freshRecord_not_provisional (a : Option String) (b : String) (c : Option PlayedMove) :
    ¬ hasProvisional (freshRecord a b c) := by
  intro h
  rcases h with h | h | h <;> exact h rfl

/-- Pushing a fresh record preserves the pipeline facts. -/
theorem PipelineInvariant.push_fresh {s t : ReviewState} (h : PipelineInvariant s)
    (hj : t.currentAnalysisJob = s.currentAnalysisJob)
    (hq : t.stockfishQueue = s.stockfishQueue)
    (hp : t.isProcessingQueue = s.isProcessingQueue)
    (a : Option String) (b : String) (c : Option PlayedMove)
    (hd : t.moveAnalysisData = s.moveAnalysisData ++ [freshRecord a b c]) :
    PipelineInvariant t := by
  have hpipe : pipeline t = pipeline s := by unfold pipeline; rw [hj, hq]
  have hget : ∀ (k : Nat) (r : MoveAnalysis), t.moveAnalysisData[k]? = some r →
      s.moveAnalysisData[k]? = some r ∨
        (k = s.moveAnalysisData.length ∧ r = freshRecord a b c) := by
    intro k r hr
    rw [hd] at hr
    by_cases hk : k < s.moveAnalysisData.length
    · left
      rw [List.getElem?_append_left hk] at hr
      exact hr
    · right
      rw [List.getElem?_append_right (by omega)] at hr
      have hlen : k - s.moveAnalysisData.length < [freshRecord a b c].length :=
        (List.getElem?_eq_some_iff.1 hr).1
      simp only [List.length_singleton, Nat.lt_one_iff] at hlen
      rw [hlen] at hr
      simp only [List.getElem?_cons_zero, Option.some.injEq] at hr
      exact ⟨by omega, hr.symm⟩
  constructor
  · rw [hp, hj]; exact h.flag
  · rw [hpipe]; exact h.nodup
  · rw [hpipe]
    intro j hjm r hr
    rcases hget _ r hr with h1 | ⟨_, h1⟩
    · exact h.target_pending j hjm r h1
    · rw [h1]; rfl
  · rw [hpipe]; exact h.pass1
  · intro k r hr he
    rcases hget k r hr with h1 | ⟨_, h1⟩
    · exact h.eval_done k r h1 he
    · rw [h1] at he; exact absurd rfl he
  · intro k r hr hprov
    rw [hj]
    rcases hget k r hr with h1 | ⟨_, h1⟩
    · exact h.provisional k r h1 hprov
    · rw [h1] at hprov; exact absurd hprov (freshRecord_not_provisional a b c)
  · intro k r hr hc
    rcases hget (k + 1) r hr with h1 | ⟨_, h1⟩
    · obtain ⟨he, r0, hr0, he0⟩ := h.classified k r h1 hc
      refine ⟨he, r0, ?_, he0⟩
      rw [hd, List.getElem?_append_left (List.getElem?_eq_some_iff.1 hr0).1]
      exact hr0
    · rw [h1] at hc; exact absurd rfl hc


theorem getElem?_of_take {α : Type} {l : List α} {n k : Nat} {a : α}
    (h : (l.take n)[k]? = some a) : l[k]? = some a := by
  rw [List.getElem?_take] at h
  split at h
  · exact h
  · cases h

theorem getElem?_of_sliceTo {α : Type} {l : List α} {stop : Int} {k : Nat} {a : α}
    (h : (sliceTo l stop)[k]? = some a) : l[k]? = some a := by
  unfold sliceTo at h
  split at h <;> exact getElem?_of_take h

/-- Enqueueing one pass-1 job for a pending record on an idle session and pumping. -/
theorem sessionInvariant_analyzeCurrentPosition {s : ReviewState} (h : SessionInvariant s) :
    SessionInvariant (analyzeCurrentPosition s) := by
  unfold analyzeCurrentPosition
  split
  · exact h
  split
  · exact h
  rename_i hbusy
  simp only []
  split
  · exact h
  split
  · exact h
  rename_i analysisEntry hrec
  split
  · exact h
  rename_i hpending
  have hflag : s.isProcessingQueue = false := by
    cases hb : s.isProcessingQueue
    · rfl
    · exact absurd hb hbusy
  have hidle : s.currentAnalysisJob = none := by
    have := h.1.flag
    rw [hflag] at this
    cases hj : s.currentAnalysisJob
    · rfl
    · rw [hj] at this; cases this
  have hq : s.stockfishQueue = [] := h.2 hidle
  have hpend : analysisEntry.pass1_complete = false := by
    cases hb : analysisEntry.pass1_complete
    · rfl
    · exact absurd hb hpending
  simp only [hflag, Bool.not_false, if_true]
  refine sessionInvariant_processStockfishQueue ?_ hidle
  constructor
  · show false = s.currentAnalysisJob.isSome
    rw [hidle]
    rfl
  · simp [pipeline, hidle, hq]
  · intro j hj r hr
    simp only [pipeline, hidle, hq, Option.toList_none, List.nil_append, List.mem_singleton] at hj
    subst hj
    simp only at hr
    rw [hrec] at hr
    cases hr
    exact hpend
  · intro j hj
    simp only [pipeline, hidle, hq, Option.toList_none, List.nil_append, List.mem_singleton] at hj
    subst hj
    rfl
  · exact h.1.eval_done
  · exact h.1.provisional
  · exact h.1.classified


theorem mem_pass1JobsFrom {data : List MoveAnalysis} :
    ∀ {i : Nat} {j : Job}, j ∈ pass1JobsFrom i data →
      j.isPass1 = true ∧ i ≤ j.analysisDataIndex ∧
        ∃ r : MoveAnalysis, data[j.analysisDataIndex - i]? = some r ∧
          r.pass1_complete = false ∧ j.fen = r.fen_after ∧ j.depth = DEPTH_PASS_1 := by
  induction data with
  | nil =>
    intro i j hj
    cases hj
  | cons e rest ih =>
    intro i j hj
    unfold pass1JobsFrom at hj
    have htail : j ∈ pass1JobsFrom (i + 1) rest →
        j.isPass1 = true ∧ i ≤ j.analysisDataIndex ∧
        ∃ r : MoveAnalysis, (e :: rest)[j.analysisDataIndex - i]? = some r ∧
          r.pass1_complete = false ∧ j.fen = r.fen_after ∧ j.depth = DEPTH_PASS_1 := by
      intro hmem
      obtain ⟨h1, h2, r, h3, h4⟩ := ih hmem
      refine ⟨h1, by omega, r, ?_, h4⟩
      have hidx : j.analysisDataIndex - i = (j.analysisDataIndex - (i + 1)) + 1 := by omega
      rw [hidx, List.getElem?_cons_succ]
      exact h3
    split at hj
    · rename_i hpend
      rcases List.mem_cons.1 hj with hhead | hmem
      · subst hhead
        refine ⟨rfl, Nat.le_refl _, e, ?_, ?_, rfl, rfl⟩
        · simp
        · cases hb : e.pass1_complete
          · rfl
          · rw [hb] at hpend; cases hpend
      · exact htail hmem
    · exact htail hj

theorem nodup_pass1JobsFrom (data : List MoveAnalysis) :
    ∀ i : Nat, ((pass1JobsFrom i data).map (fun j => j.analysisDataIndex)).Nodup := by
  induction data with
  | nil =>
    intro i
    exact List.nodup_nil
  | cons e rest ih =>
    intro i
    unfold pass1JobsFrom
    split
    · rw [List.map_cons, List.nodup_cons]
      refine ⟨?_, ih (i + 1)⟩
      intro hmem
      obtain ⟨j, hj, hidx⟩ := List.mem_map.1 hmem
      have := (mem_pass1JobsFrom hj).2.1
      simp only at hidx
      omega
    · exact ih (i + 1)

theorem idle_of_not_processing {s : ReviewState} (h : PipelineInvariant s)
    (hflag : s.isProcessingQueue = false) : s.currentAnalysisJob = none := by
  have := h.flag
  rw [hflag] at this
  cases hj : s.currentAnalysisJob
  · rfl
  · rw [hj] at this; cases this

theorem sessionInvariant_startFullGameAnalysis {s : ReviewState} (h : SessionInvariant s) :
    SessionInvariant (startFullGameAnalysis s) := by
  unfold startFullGameAnalysis
  split
  · exact h
  split
  · exact h
  rename_i hguard
  have hflag : s.isProcessingQueue = false := by
    cases hb : s.isProcessingQueue
    · rfl
    · rw [hb] at hguard; simp at hguard
  have hidle := idle_of_not_processing h.1 hflag
  simp only [hflag, Bool.not_false, if_true]
  refine sessionInvariant_processStockfishQueue ?_ hidle
  constructor
  · show false = s.currentAnalysisJob.isSome
    rw [hidle]
    rfl
  · simp only [pipeline, hidle, Option.toList_none, List.nil_append]
    exact nodup_pass1JobsFrom _ 0
  · intro j hj r hr
    simp only [pipeline, hidle, Option.toList_none, List.nil_append] at hj
    obtain ⟨_, _, r', hr', hp, _⟩ := mem_pass1JobsFrom hj
    simp only [Nat.sub_zero] at hr'
    simp only at hr
    rw [hr'] at hr
    cases hr
    exact hp
  · intro j hj
    simp only [pipeline, hidle, Option.toList_none, List.nil_append] at hj
    exact (mem_pass1JobsFrom hj).1
  · exact h.1.eval_done
  · exact h.1.provisional
  · exact h.1.classified

theorem sessionInvariant_makeInteractiveMove {s : ReviewState} (h : SessionInvariant s)
    (fromAlg toAlg : String) (promotionChoice : Option String) (fenBefore : String)
    (moveResult : Option ChessMove) (fenAfter : String) :
    SessionInvariant
      (makeInteractiveMove s fromAlg toAlg promotionChoice fenBefore moveResult fenAfter) := by
  unfold makeInteractiveMove
  cases moveResult with
  | none => exact h
  | some moveResult =>
    simp only []
    apply sessionInvariant_analyzeCurrentPosition
    split
    · refine ⟨PipelineInvariant.push_fresh (s := { s with
          fullGameHistory := sliceTo s.fullGameHistory (s.currentMoveIndex + 1)
          moveAnalysisData := sliceTo s.moveAnalysisData (s.currentMoveIndex + 2) })
        ?_ rfl rfl rfl _ _ _ rfl, h.2⟩
      refine h.1.of_related rfl rfl rfl ?_
      intro k r' hr'
      exact ⟨r', getElem?_of_sliceTo hr', rfl, rfl, rfl, fun hp => Or.inl hp⟩
    · exact ⟨PipelineInvariant.push_fresh h.1 rfl rfl rfl _ _ _ rfl, h.2⟩

theorem sessionInvariant_resetAnalysisState (s : ReviewState) :
    SessionInvariant (resetAnalysisState s) := by
  refine ⟨?_, fun _ => rfl⟩
  constructor
  · rfl
  · exact List.nodup_nil
  · intro j hj
    cases hj
  · intro j hj
    cases hj
  · intro k r hr he
    cases k with
    | zero =>
      simp only [resetAnalysisState, List.getElem?_cons_zero, Option.some.injEq] at hr
      rw [← hr] at he
      exact absurd rfl he
    | succ k => simp [resetAnalysisState] at hr
  · intro k r hr hp
    cases k with
    | zero =>
      simp only [resetAnalysisState, List.getElem?_cons_zero, Option.some.injEq] at hr
      rw [← hr] at hp
      exact absurd hp (freshRecord_not_provisional _ _ _)
    | succ k => simp [resetAnalysisState] at hr
  · intro k r hr _
    simp [resetAnalysisState] at hr


theorem pgnRecords_fresh (steps : List PgnStep) :
    ∀ r ∈ pgnRecords steps, ∃ a b c, r = freshRecord a b c := by
  induction steps with
  | nil =>
    intro r hr
    cases hr
  | cons step rest ih =>
    intro r hr
    unfold pgnRecords at hr
    split at hr
    · exact ih r hr
    · rcases List.mem_cons.1 hr with h | h
      · exact ⟨_, _, _, h⟩
      · exact ih r h

/-- Replacing the store by fresh records preserves the pipeline facts. -/
theorem PipelineInvariant.all_fresh {s t : ReviewState} (h : PipelineInvariant s)
    (hj : t.currentAnalysisJob = s.currentAnalysisJob)
    (hq : t.stockfishQueue = s.stockfishQueue)
    (hp : t.isProcessingQueue = s.isProcessingQueue)
    (hall : ∀ r ∈ t.moveAnalysisData, ∃ a b c, r = freshRecord a b c) :
    PipelineInvariant t := by
  have hpipe : pipeline t = pipeline s := by unfold pipeline; rw [hj, hq]
  have hget : ∀ (k : Nat) (r : MoveAnalysis), t.moveAnalysisData[k]? = some r →
      ∃ a b c, r = freshRecord a b c := fun k r hr => hall r (List.getElem?_mem hr)
  constructor
  · rw [hp, hj]; exact h.flag
  · rw [hpipe]; exact h.nodup
  · intro j _ r hr
    obtain ⟨a, b, c, rfl⟩ := hget _ r hr
    rfl
  · rw [hpipe]; exact h.pass1
  · intro k r hr he
    obtain ⟨a, b, c, rfl⟩ := hget _ r hr
    exact absurd rfl he
  · intro k r hr hprov
    obtain ⟨a, b, c, rfl⟩ := hget _ r hr
    exact absurd hprov (freshRecord_not_provisional a b c)
  · intro k r hr hc
    obtain ⟨a, b, c, rfl⟩ := hget _ r hr
    exact absurd rfl hc

theorem sessionInvariant_loadGame {s : ReviewState} (h : SessionInvariant s)
    (parsed : Option (List PgnStep)) :
    SessionInvariant (loadGameAndPrepareHistory s parsed).1 := by
  have hempty : SessionInvariant { s with fullGameHistory := [], moveAnalysisData := [] } := by
    refine ⟨h.1.all_fresh rfl rfl rfl ?_, h.2⟩
    intro r hr
    cases hr
  unfold loadGameAndPrepareHistory
  cases parsed with
  | none => exact hempty
  | some steps =>
    cases steps with
    | nil => exact hempty
    | cons step rest =>
      refine ⟨h.1.all_fresh rfl rfl rfl ?_, h.2⟩
      intro r hr
      rcases List.mem_cons.1 hr with h1 | h1
      · exact ⟨_, _, _, h1⟩
      · exact pgnRecords_fresh _ r h1

theorem sessionInvariant_info {s : ReviewState} (h : SessionInvariant s) {job : Job}
    (hjob : s.currentAnalysisJob = some job) (dataEntry : MoveAnalysis)
    (hrec : s.moveAnalysisData[job.analysisDataIndex]? = some dataEntry) (info : InfoLine) :
    SessionInvariant
      { s with
        moveAnalysisData :=
          s.moveAnalysisData.set job.analysisDataIndex (applyInfo dataEntry info) } := by
  refine ⟨h.1.of_related rfl rfl rfl ?_, h.2⟩
  intro k r' hr'
  simp only at hr'
  by_cases hk : job.analysisDataIndex = k
  · subst hk
    rw [List.getElem?_set_self (List.getElem?_eq_some_iff.1 hrec).1] at hr'
    cases hr'
    exact ⟨dataEntry, hrec, rfl, rfl, rfl, fun _ => Or.inr ⟨job, hjob, rfl⟩⟩
  · rw [List.getElem?_set_ne hk] at hr'
    exact ⟨r', hr', rfl, rfl, rfl, fun hp => Or.inl hp⟩

theorem classifyMove_effect {hist : List HistoryMove} {data data' : List MoveAnalysis}
    {n : Nat} {a : MoveAnalysis} (ha : data[n + 1]? = some a)
    (h : classifyMove hist data (n : Int) = some data') :
    (∀ k : Nat, k ≠ n + 1 → data'[k]? = data[k]?) ∧
    ∃ a' : MoveAnalysis, data'[n + 1]? = some a' ∧
      a' = { a with cpl := a'.cpl, classification := a'.classification } ∧
      (a'.classification ≠ none →
        a'.classification = a.classification ∨
          (a.eval_before ≠ none ∧
            ∃ b : MoveAnalysis, data[n]? = some b ∧ b.eval_before ≠ none)) := by
  obtain ⟨b, hb⟩ := getElem?_pred_of_some ha
  have hlen : n + 1 < data.length := (List.getElem?_eq_some_iff.1 ha).1
  by_cases hrange : (n : Int) < 0 ∨ (n : Int) ≥ (hist.length : Int)
  · rw [classifyMove_out_of_range hrange] at h
    cases h
    exact ⟨fun _ _ => rfl, a, ha, rfl, fun _ => Or.inl rfl⟩
  · have hn : n < hist.length := by omega
    have hm : hist[n]? = some hist[n] := List.getElem?_eq_getElem hn
    rw [classifyMove_of_records hm hb ha] at h
    cases h
    refine ⟨fun k hk => List.getElem?_set_ne (Ne.symm hk), _, List.getElem?_set_self hlen, ?_, ?_⟩
    · cases b.eval_before <;> cases a.eval_before <;> rfl
    · intro hc
      right
      cases hbe : b.eval_before with
      | none => rw [hbe] at hc; exact absurd rfl hc
      | some eb =>
        cases hae : a.eval_before with
        | none => rw [hbe, hae] at hc; exact absurd rfl hc
        | some ea => exact ⟨by simp, b, hb, by rw [hbe]; simp⟩


theorem handle_bestmove_none {s : ReviewState} {job : Job} {m : String}
    (hjob : s.currentAnalysisJob = some job) (hbm : startsWith m "bestmove" = true)
    (hrec : s.moveAnalysisData[job.analysisDataIndex]? = none) :
    handleStockfishMessage_Review s m =
      processStockfishQueue { s with currentAnalysisJob := none, isProcessingQueue := false } := by
  obtain ⟨h1, h2⟩ := startsWith_bestmove_not_control hbm
  have h3 := startsWith_bestmove_not_info hbm
  unfold handleStockfishMessage_Review
  rw [if_neg h1, if_neg h2, hjob]
  simp only [h3, hbm, if_true, hrec, Bool.false_eq_true, if_false]

/-- The state in which the pump is started after a completed job, and what the
commit and the classification have made of the store. -/
theorem handle_bestmove_some {s : ReviewState} {job : Job} {m : String}
    {dataEntry : MoveAnalysis}
    (hjob : s.currentAnalysisJob = some job) (hbm : startsWith m "bestmove" = true)
    (hrec : s.moveAnalysisData[job.analysisDataIndex]? = some dataEntry) :
    ∃ D : List MoveAnalysis,
      handleStockfishMessage_Review s m =
        processStockfishQueue
          { s with moveAnalysisData := D, currentAnalysisJob := none,
                   isProcessingQueue := false } ∧
      (∀ k : Nat, k ≠ job.analysisDataIndex → D[k]? = s.moveAnalysisData[k]?) ∧
      ∃ c' : MoveAnalysis, D[job.analysisDataIndex]? = some c' ∧
        c' = { commitRecord dataEntry job none (parseFinalBestMove m) with
               cpl := c'.cpl, classification := c'.classification } ∧
        (c'.classification ≠ none →
          c'.classification = dataEntry.classification ∨
            (c'.eval_before ≠ none ∧
              ∃ (n : Nat) (b : MoveAnalysis), job.analysisDataIndex = n + 1 ∧
                s.moveAnalysisData[n]? = some b ∧ b.eval_before ≠ none)) := by
  obtain ⟨h1, h2⟩ := startsWith_bestmove_not_control hbm
  have h3 := startsWith_bestmove_not_info hbm
  have hlen : job.analysisDataIndex < s.moveAnalysisData.length :=
    (List.getElem?_eq_some_iff.1 hrec).1
  have hset : (s.moveAnalysisData.set job.analysisDataIndex
      (commitRecord dataEntry job none (parseFinalBestMove m)))[job.analysisDataIndex]? =
      some (commitRecord dataEntry job none (parseFinalBestMove m)) :=
    List.getElem?_set_self hlen
  have hother : ∀ k : Nat, k ≠ job.analysisDataIndex →
      (s.moveAnalysisData.set job.analysisDataIndex
        (commitRecord dataEntry job none (parseFinalBestMove m)))[k]? =
      s.moveAnalysisData[k]? := fun k hk => List.getElem?_set_ne (Ne.symm hk)
  unfold handleStockfishMessage_Review
  rw [if_neg h1, if_neg h2, hjob]
  simp only [h3, hbm, if_true, hrec, Bool.false_eq_true, if_false]
  by_cases hge : (job.analysisDataIndex : Int) - 1 ≥ 0
  · rw [if_pos hge]
    obtain ⟨n, hn⟩ : ∃ n : Nat, job.analysisDataIndex = n + 1 :=
      ⟨job.analysisDataIndex - 1, by omega⟩
    have hidx : (job.analysisDataIndex : Int) - 1 = (n : Int) := by omega
    have hset' := hset
    rw [hn] at hset'
    obtain ⟨data', hc⟩ := classifyMove_total_of_after s.fullGameHistory hset'
      ((job.analysisDataIndex : Int) - 1) hidx
    rw [← hn] at hc
    rw [hc]
    simp only []
    rw [hidx, hn] at hc
    obtain ⟨hframe, c', hc', hshape, hlabel⟩ := classifyMove_effect hset' hc
    refine ⟨data', rfl, ?_, c', ?_, hshape, ?_⟩
    · intro k hk
      rw [hframe k (by omega), ← hn]
      exact hother k hk
    · rw [hn]; exact hc'
    · intro hne
      rcases hlabel hne with h | ⟨he, b, hb, hbe⟩
      · left; exact h
      · right
        refine ⟨by rw [hshape]; exact he, n, b, hn, ?_, hbe⟩
        rw [← hn] at hb
        rw [← hother n (by omega)]
        exact hb
  · rw [if_neg hge]
    exact ⟨_, rfl, hother, _, hset, rfl, fun _ => Or.inl rfl⟩


/-- A completed job whose record exists leaves an idle session that satisfies the
pipeline facts, on which the pump is started. -/
theorem pump_input_bestmove_some {s : ReviewState} (h : SessionInvariant s) {job : Job}
    {m : String} {dataEntry : MoveAnalysis}
    (hjob : s.currentAnalysisJob = some job) (hbm : startsWith m "bestmove" = true)
    (hrec : s.moveAnalysisData[job.analysisDataIndex]? = some dataEntry) :
    ∃ u : ReviewState, handleStockfishMessage_Review s m = processStockfishQueue u ∧
      u.currentAnalysisJob = none ∧ PipelineInvariant u := by
  obtain ⟨D, hstate, hother, c', hc', hshape, hlabel⟩ := handle_bestmove_some hjob hbm hrec
  refine ⟨_, hstate, rfl, ?_⟩
  have hpipe : pipeline s = job :: s.stockfishQueue := by unfold pipeline; rw [hjob]; rfl
  have hnd := h.1.nodup
  rw [hpipe, List.map_cons, List.nodup_cons] at hnd
  have hjmem : job ∈ pipeline s := by rw [hpipe]; exact List.mem_cons_self _ _
  have hpend : dataEntry.pass1_complete = false := h.1.target_pending job hjmem dataEntry hrec
  have heval : dataEntry.eval_before = none := by
    cases he : dataEntry.eval_before with
    | none => rfl
    | some e =>
      have := h.1.eval_done _ dataEntry hrec (by rw [he]; simp)
      rw [hpend] at this
      cases this
  have hqueue : ∀ j ∈ s.stockfishQueue, j.analysisDataIndex ≠ job.analysisDataIndex := by
    intro j hj heq
    exact hnd.1 (List.mem_map.2 ⟨j, hj, heq⟩)
  have hcpass : c'.pass1_complete = true := by
    rw [hshape]
    show (if job.isPass1 = true then true else dataEntry.pass1_complete) = true
    rw [h.1.pass1 job hjmem]
    rfl
  have hcprov : ¬ hasProvisional c' := by
    rw [hshape]
    intro hp
    rcases hp with hp | hp | hp <;> exact hp rfl
  constructor
  · rfl
  · show (([] ++ s.stockfishQueue).map (fun j : Job => j.analysisDataIndex)).Nodup
    exact hnd.2
  · intro j hj r hr
    have hj' : j ∈ s.stockfishQueue := hj
    have hne := hqueue j hj'
    have hr' : D[j.analysisDataIndex]? = some r := hr
    rw [hother _ hne] at hr'
    exact h.1.target_pending j (by rw [hpipe]; exact List.mem_cons_of_mem _ hj') r hr'
  · intro j hj
    have hj' : j ∈ s.stockfishQueue := hj
    exact h.1.pass1 j (by rw [hpipe]; exact List.mem_cons_of_mem _ hj')
  · intro k r hr he
    have hr' : D[k]? = some r := hr
    by_cases hk : k = job.analysisDataIndex
    · subst hk
      rw [hc'] at hr'
      cases hr'
      exact hcpass
    · rw [hother k hk] at hr'
      exact h.1.eval_done k r hr' he
  · intro k r hr hp
    have hr' : D[k]? = some r := hr
    by_cases hk : k = job.analysisDataIndex
    · subst hk
      rw [hc'] at hr'
      cases hr'
      exact absurd hp hcprov
    · rw [hother k hk] at hr'
      obtain ⟨j, hj, hidx⟩ := h.1.provisional k r hr' hp
      rw [hjob] at hj
      cases hj
      exact absurd hidx.symm hk
  · intro k r hr hc
    have hr' : D[k + 1]? = some r := hr
    show r.eval_before ≠ none ∧ ∃ r0 : MoveAnalysis, D[k]? = some r0 ∧ r0.eval_before ≠ none
    by_cases hk : k + 1 = job.analysisDataIndex
    · rw [hk, hc'] at hr'
      cases hr'
      rcases hlabel hc with hsame | ⟨he, n, b, hn, hb, hbe⟩
      · exfalso
        rw [hsame] at hc
        rw [← hk] at hrec
        have := (h.1.classified k dataEntry hrec hc).1
        exact this heval
      · have hnk : n = k := by omega
        subst hnk
        refine ⟨he, b, ?_, hbe⟩
        rw [hother n (by omega)]
        exact hb
    · rw [hother (k + 1) hk] at hr'
      obtain ⟨he, r0, hr0, he0⟩ := h.1.classified k r hr' hc
      refine ⟨he, r0, ?_, he0⟩
      by_cases hk0 : k = job.analysisDataIndex
      · exfalso
        rw [hk0, hrec] at hr0
        cases hr0
        exact he0 heval
      · rw [hother k hk0]
        exact hr0

/-- A completed job whose record is gone leaves an idle session that satisfies
the pipeline facts, on which the pump is started. -/
theorem pump_input_bestmove_none {s : ReviewState} (h : SessionInvariant s) {job : Job}
    {m : String}
    (hjob : s.currentAnalysisJob = some job) (hbm : startsWith m "bestmove" = true)
    (hrec : s.moveAnalysisData[job.analysisDataIndex]? = none) :
    ∃ u : ReviewState, handleStockfishMessage_Review s m = processStockfishQueue u ∧
      u.currentAnalysisJob = none ∧ PipelineInvariant u := by
  refine ⟨_, handle_bestmove_none hjob hbm hrec, rfl, ?_⟩
  have hpipe : pipeline s = job :: s.stockfishQueue := by unfold pipeline; rw [hjob]; rfl
  have hnd := h.1.nodup
  rw [hpipe, List.map_cons, List.nodup_cons] at hnd
  constructor
  · rfl
  · show (([] ++ s.stockfishQueue).map (fun j : Job => j.analysisDataIndex)).Nodup
    exact hnd.2
  · intro j hj r hr
    have hj' : j ∈ s.stockfishQueue := hj
    exact h.1.target_pending j (by rw [hpipe]; exact List.mem_cons_of_mem _ hj') r hr
  · intro j hj
    have hj' : j ∈ s.stockfishQueue := hj
    exact h.1.pass1 j (by rw [hpipe]; exact List.mem_cons_of_mem _ hj')
  · exact h.1.eval_done
  · intro k r hr hp
    have hr' : s.moveAnalysisData[k]? = some r := hr
    obtain ⟨j, hj, hidx⟩ := h.1.provisional k r hr' hp
    rw [hjob] at hj
    cases hj
    rw [hidx, hr'] at hrec
    cases hrec
  · exact h.1.classified

theorem sessionInvariant_handleStockfishMessage {s : ReviewState} (h : SessionInvariant s)
    (m : String) : SessionInvariant (handleStockfishMessage_Review s m) := by
  by_cases h1 : m = "uciok"
  · unfold handleStockfishMessage_Review
    rw [if_pos h1]
    exact sessionInvariant_congr h rfl rfl rfl rfl
  by_cases h2 : m = "readyok"
  · unfold handleStockfishMessage_Review
    rw [if_neg h1, if_pos h2]
    split
    · rename_i hguard
      have hflag : s.isProcessingQueue = false := by
        cases hb : s.isProcessingQueue
        · rfl
        · rw [hb] at hguard; simp at hguard
      have hidle : s.currentAnalysisJob = none := idle_of_not_processing h.1 hflag
      exact sessionInvariant_processStockfishQueue (pipelineInvariant_congr h.1 rfl rfl rfl rfl) hidle
    · exact sessionInvariant_congr h rfl rfl rfl rfl
  cases hjob : s.currentAnalysisJob with
  | none =>
    unfold handleStockfishMessage_Review
    rw [if_neg h1, if_neg h2, hjob]
    exact h
  | some job =>
    by_cases hinfo : startsWith m "info" = true
    · cases hrec : s.moveAnalysisData[job.analysisDataIndex]? with
      | none =>
        rw [handle_info_none hjob hinfo hrec]
        exact h
      | some dataEntry =>
        rw [handle_info_some hjob hinfo hrec]
        exact sessionInvariant_info h hjob dataEntry hrec _
    by_cases hbm : startsWith m "bestmove" = true
    · cases hrec : s.moveAnalysisData[job.analysisDataIndex]? with
      | none =>
        obtain ⟨u, hu, hidle, hinv⟩ := pump_input_bestmove_none h hjob hbm hrec
        rw [hu]
        exact sessionInvariant_processStockfishQueue hinv hidle
      | some dataEntry =>
        obtain ⟨u, hu, hidle, hinv⟩ := pump_input_bestmove_some h hjob hbm hrec
        rw [hu]
        exact sessionInvariant_processStockfishQueue hinv hidle
    · unfold handleStockfishMessage_Review
      rw [if_neg h1, if_neg h2, hjob]
      simp only [hinfo, hbm, Bool.false_eq_true, if_false]
      exact h

theorem sessionInvariant_initial : SessionInvariant initialState := by
  refine ⟨?_, fun _ => rfl⟩
  constructor
  · rfl
  · exact List.nodup_nil
  · intro j hj
    cases hj
  · intro j hj
    cases hj
  · intro k r hr
    simp [initialState] at hr
  · intro k r hr
    simp [initialState] at hr
  · intro k r hr
    simp [initialState] at hr

theorem sessionInvariant_step {s : ReviewState} (h : SessionInvariant s) (e : Event) :
    SessionInvariant (step s e) := by
  cases e with
  | resetAnalysisState => exact sessionInvariant_resetAnalysisState s
  | loadGame parsed => exact sessionInvariant_loadGame h parsed
  | startFullGameAnalysis => exact sessionInvariant_startFullGameAnalysis h
  | analyzeCurrentPosition => exact sessionInvariant_analyzeCurrentPosition h
  | goToMove index =>
    show SessionInvariant (goToMove s index)
    unfold goToMove
    simp only []
    split
    · exact h
    · exact sessionInvariant_congr h rfl rfl rfl rfl
  | makeInteractiveMove fromAlg toAlg promotionChoice fenBefore moveResult fenAfter =>
    exact sessionInvariant_makeInteractiveMove h _ _ _ _ _ _
  | engineMessage message => exact sessionInvariant_handleStockfishMessage h message
  | engineError => exact sessionInvariant_congr h rfl rfl rfl rfl

theorem sessionInvariant_of_reachable {s : ReviewState} (h : Reachable s) :
    SessionInvariant s := by
  induction h with
  | initial => exact sessionInvariant_initial
  | next e _ ih => exact sessionInvariant_step ih e

/-! ## Reachable states: classification, single flight, FIFO -/

theorem reachable_runEvents (events : List Event) :
    ∀ s : ReviewState, Reachable s → Reachable (runEvents s events) := by
  induction events with
  | nil => intro s h; exact h
  | cons e rest ih => intro s h; exact ih (step s e) (Reachable.next e h)

/-- C5. In every reachable state (from the declared initial values through any
sequence of resets, game loads, analysis requests, navigation, interactive
moves, engine messages and engine errors), a record `i ≥ 1` that holds a
non-null classification has a non-null evaluation, and so has record `i - 1`. -/
theorem classification_requires_evaluations (s : ReviewState) (hreach : Reachable s)
    (i : Nat) (r : MoveAnalysis) (hi : 1 ≤ i)
    (hr : s.moveAnalysisData[i]? = some r) (hc : r.classification ≠ none) :
    r.eval_before ≠ none ∧
      ∃ r0 : MoveAnalysis, s.moveAnalysisData[i - 1]? = some r0 ∧ r0.eval_before ≠ none := by
  obtain ⟨k, rfl⟩ : ∃ k, i = k + 1 := ⟨i - 1, by omega⟩
  exact (sessionInvariant_of_reachable hreach).1.classified k r hr hc

theorem classification_requires_evaluations_witness :
    ∃ r : MoveAnalysis,
      (runEvents initialState sampleSession).moveAnalysisData[1]? = some r ∧
      r.classification = some "Meilleur" ∧
      r.eval_before ≠ none ∧
      ∃ r0 : MoveAnalysis,
        (runEvents initialState sampleSession).moveAnalysisData[1 - 1]? = some r0 ∧
          r0.eval_before ≠ none := by
  have hr : (runEvents initialState sampleSession).moveAnalysisData[1]? =
      some ((runEvents initialState sampleSession).moveAnalysisData[1]?.get (by decide!)) := by
    simp
  have hc : ((runEvents initialState sampleSession).moveAnalysisData[1]?.get
      (by decide!)).classification = some "Meilleur" := by decide!
  obtain ⟨h1, h2⟩ := classification_requires_evaluations
    (runEvents initialState sampleSession)
    (reachable_runEvents sampleSession initialState Reachable.initial) 1 _ (le_refl 1) hr
    (by rw [hc]; simp)
  exact ⟨_, hr, hc, h1, h2⟩


theorem dispatchedFens_append (xs ys : List EngineCommand) :
    dispatchedFens (xs ++ ys) = dispatchedFens xs ++ dispatchedFens ys := by
  induction xs with
  | nil => rfl
  | cons c rest ih =>
    cases c <;> simp [dispatchedFens, ih]

theorem processing_iff_job {s : ReviewState} (h : PipelineInvariant s) :
    s.isProcessingQueue = true ↔ s.currentAnalysisJob ≠ none := by
  rw [h.flag]
  cases s.currentAnalysisJob <;> simp

theorem analyzeCurrentPosition_busy {s : ReviewState} (hflag : s.isProcessingQueue = true) :
    analyzeCurrentPosition s = s := by
  unfold analyzeCurrentPosition
  simp [hflag]

theorem startFullGameAnalysis_busy {s : ReviewState} (hflag : s.isProcessingQueue = true) :
    startFullGameAnalysis s = s := by
  unfold startFullGameAnalysis
  simp [hflag]

theorem loadGame_session (s : ReviewState) (parsed : Option (List PgnStep)) :
    (loadGameAndPrepareHistory s parsed).1.currentAnalysisJob = s.currentAnalysisJob ∧
    (loadGameAndPrepareHistory s parsed).1.stockfishQueue = s.stockfishQueue ∧
    (loadGameAndPrepareHistory s parsed).1.posted = s.posted := by
  unfold loadGameAndPrepareHistory
  cases parsed with
  | none => exact ⟨rfl, rfl, rfl⟩
  | some steps =>
    cases steps with
    | nil => exact ⟨rfl, rfl, rfl⟩
    | cons _ _ => exact ⟨rfl, rfl, rfl⟩

theorem goToMove_session (s : ReviewState) (index : Int) :
    (goToMove s index).currentAnalysisJob = s.currentAnalysisJob ∧
    (goToMove s index).stockfishQueue = s.stockfishQueue ∧
    (goToMove s index).posted = s.posted := by
  unfold goToMove
  simp only []
  split
  · exact ⟨rfl, rfl, rfl⟩
  · exact ⟨rfl, rfl, rfl⟩

theorem makeInteractiveMove_busy {s : ReviewState} (hflag : s.isProcessingQueue = true)
    (fromAlg toAlg : String) (promotionChoice : Option String) (fenBefore : String)
    (moveResult : Option ChessMove) (fenAfter : String) :
    (makeInteractiveMove s fromAlg toAlg promotionChoice fenBefore moveResult
      fenAfter).currentAnalysisJob = s.currentAnalysisJob ∧
    (makeInteractiveMove s fromAlg toAlg promotionChoice fenBefore moveResult
      fenAfter).stockfishQueue = s.stockfishQueue ∧
    (makeInteractiveMove s fromAlg toAlg promotionChoice fenBefore moveResult
      fenAfter).posted = s.posted := by
  unfold makeInteractiveMove
  cases moveResult with
  | none => exact ⟨rfl, rfl, rfl⟩
  | some moveResult =>
    simp only []
    split
    · rw [analyzeCurrentPosition_busy (by exact hflag)]
      exact ⟨rfl, rfl, rfl⟩
    · rw [analyzeCurrentPosition_busy (by exact hflag)]
      exact ⟨rfl, rfl, rfl⟩

theorem handle_nonterminal_busy {s : ReviewState} (hflag : s.isProcessingQueue = true)
    (m : String) (hnb : startsWith m "bestmove" = false) :
    (handleStockfishMessage_Review s m).currentAnalysisJob = s.currentAnalysisJob ∧
    (handleStockfishMessage_Review s m).stockfishQueue = s.stockfishQueue ∧
    (handleStockfishMessage_Review s m).isProcessingQueue = s.isProcessingQueue ∧
    dispatchedFens (handleStockfishMessage_Review s m).posted = dispatchedFens s.posted := by
  unfold handleStockfishMessage_Review
  split
  · refine ⟨rfl, rfl, rfl, ?_⟩
    simp [dispatchedFens_append, dispatchedFens]
  split
  · simp [hflag]
  cases hjob : s.currentAnalysisJob with
  | none => exact ⟨hjob.symm ▸ rfl, rfl, rfl, rfl⟩
  | some job =>
    simp only [hnb, Bool.false_eq_true, if_false]
    split
    · split
      · exact ⟨hjob.symm ▸ rfl, rfl, rfl, rfl⟩
      · exact ⟨hjob.symm ▸ rfl, rfl, rfl, rfl⟩
    · exact ⟨hjob.symm ▸ rfl, rfl, rfl, rfl⟩

/-- While a job is in flight, no event other than a reset or a `bestmove` line
replaces it, dequeues a job or sends a position to the engine. -/
theorem step_keeps_job {s : ReviewState} (hflag : s.isProcessingQueue = true) (e : Event)
    (hreset : e ≠ Event.resetAnalysisState)
    (hbm : ∀ m, e = Event.engineMessage m → startsWith m "bestmove" = false) :
    (step s e).currentAnalysisJob = s.currentAnalysisJob ∧
    (step s e).stockfishQueue = s.stockfishQueue ∧
    dispatchedFens (step s e).posted = dispatchedFens s.posted := by
  cases e with
  | resetAnalysisState => exact absurd rfl hreset
  | loadGame parsed =>
    obtain ⟨h1, h2, h3⟩ := loadGame_session s parsed
    exact ⟨h1, h2, congrArg dispatchedFens h3⟩
  | startFullGameAnalysis =>
    have h : step s Event.startFullGameAnalysis = s := startFullGameAnalysis_busy hflag
    rw [h]
    exact ⟨rfl, rfl, rfl⟩
  | analyzeCurrentPosition =>
    have h : step s Event.analyzeCurrentPosition = s := analyzeCurrentPosition_busy hflag
    rw [h]
    exact ⟨rfl, rfl, rfl⟩
  | goToMove index =>
    obtain ⟨h1, h2, h3⟩ := goToMove_session s index
    exact ⟨h1, h2, congrArg dispatchedFens h3⟩
  | makeInteractiveMove fromAlg toAlg promotionChoice fenBefore moveResult fenAfter =>
    obtain ⟨h1, h2, h3⟩ := makeInteractiveMove_busy hflag fromAlg toAlg promotionChoice
      fenBefore moveResult fenAfter
    exact ⟨h1, h2, congrArg dispatchedFens h3⟩
  | engineMessage m =>
    obtain ⟨h1, h2, _, h4⟩ := handle_nonterminal_busy hflag m (hbm m rfl)
    exact ⟨h1, h2, h4⟩
  | engineError => exact ⟨rfl, rfl, rfl⟩

/-- C7. At most one job is in flight. In every reachable state
`isProcessingQueue` is true exactly when `currentAnalysisJob` is non-null;
`processStockfishQueue` called while a job is in flight and the queue is
non-empty changes nothing; while a job is in flight no event other than a reset
or that job's `bestmove` line replaces the job in flight, dequeues a job or
sends a position to the engine; the pump, when it does dispatch (flag false,
queue `job :: rest`), puts the queue head in flight, removes it from the queue
and sends `stop`, `ucinewgame`, `position fen`, `go depth` for it; and a
`bestmove` line clears the slot and the flag before it starts the pump. -/
theorem single_job_in_flight :
    (∀ s : ReviewState, Reachable s →
      (s.isProcessingQueue = true ↔ s.currentAnalysisJob ≠ none)) ∧
    (∀ s : ReviewState, Reachable s → s.currentAnalysisJob ≠ none → s.stockfishQueue ≠ [] →
      processStockfishQueue s = s) ∧
    (∀ (s : ReviewState) (job : Job) (e : Event), Reachable s →
      s.currentAnalysisJob = some job → e ≠ Event.resetAnalysisState →
      (∀ m, e = Event.engineMessage m → startsWith m "bestmove" = false) →
      (step s e).currentAnalysisJob = some job ∧
      (step s e).stockfishQueue = s.stockfishQueue ∧
      dispatchedFens (step s e).posted = dispatchedFens s.posted) ∧
    (∀ (s : ReviewState) (job : Job) (rest : List Job), s.isProcessingQueue = false →
      s.stockfishQueue = job :: rest →
      (processStockfishQueue s).currentAnalysisJob = some job ∧
      (processStockfishQueue s).stockfishQueue = rest ∧
      (processStockfishQueue s).isProcessingQueue = true ∧
      (processStockfishQueue s).posted = s.posted ++
        [EngineCommand.stop, EngineCommand.ucinewgame, EngineCommand.positionFen job.fen,
         EngineCommand.goDepth job.depth]) ∧
    (∀ (s : ReviewState) (job : Job) (m : String), s.currentAnalysisJob = some job →
      startsWith m "bestmove" = true →
      ∃ u : ReviewState, handleStockfishMessage_Review s m = processStockfishQueue u ∧
        u.currentAnalysisJob = none ∧ u.isProcessingQueue = false ∧
        u.stockfishQueue = s.stockfishQueue ∧ u.posted = s.posted) := by
  refine ⟨?_, ?_, ?_, ?_, ?_⟩
  · intro s hreach
    exact processing_iff_job (sessionInvariant_of_reachable hreach).1
  · intro s hreach hjob hq
    have hflag := (processing_iff_job (sessionInvariant_of_reachable hreach).1).2 hjob
    unfold processStockfishQueue
    cases hqueue : s.stockfishQueue with
    | nil => exact absurd hqueue hq
    | cons job rest =>
      simp only [hflag, if_true]
  · intro s job e hreach hjob hreset hbm
    have hflag := (processing_iff_job (sessionInvariant_of_reachable hreach).1).2
      (by rw [hjob]; simp)
    obtain ⟨h1, h2, h3⟩ := step_keeps_job hflag e hreset hbm
    exact ⟨h1.trans hjob, h2, h3⟩
  · intro s job rest hflag hq
    unfold processStockfishQueue
    rw [hq]
    simp only [hflag, Bool.false_eq_true, if_false, and_self]
  · intro s job m hjob hbm
    cases hrec : s.moveAnalysisData[job.analysisDataIndex]? with
    | none => exact ⟨_, handle_bestmove_none hjob hbm hrec, rfl, rfl, rfl, rfl⟩
    | some dataEntry =>
      obtain ⟨D, hstate, _⟩ := handle_bestmove_some hjob hbm hrec
      exact ⟨_, hstate, rfl, rfl, rfl, rfl⟩

theorem single_job_in_flight_witness :
    (runEvents initialState sampleLoadedSession).currentAnalysisJob = some sampleJob ∧
    (runEvents initialState sampleLoadedSession).stockfishQueue.length = 1 ∧
    processStockfishQueue (runEvents initialState sampleLoadedSession) =
      runEvents initialState sampleLoadedSession :=
  ⟨by decide, by decide,
    single_job_in_flight.2.1 (runEvents initialState sampleLoadedSession)
      (reachable_runEvents sampleLoadedSession initialState Reachable.initial)
      (by decide) (by decide)⟩


theorem isTerminalMessage_eq (m : String) :
    isTerminalMessage m = startsWith m "bestmove" := by
  unfold isTerminalMessage
  cases hb : startsWith m "bestmove" with
  | false => simp
  | true =>
    obtain ⟨h1, h2⟩ := startsWith_bestmove_not_control hb
    have h3 := startsWith_bestmove_not_info hb
    simp [h1, h2, h3]

theorem pump_from_idle {u : ReviewState} (hidle : u.currentAnalysisJob = none)
    (hflag : u.isProcessingQueue = false) :
    pipeline (processStockfishQueue u) = u.stockfishQueue ∧
    Pumped (processStockfishQueue u) ∧
    dispatchedFens (processStockfishQueue u).posted =
      dispatchedFens u.posted ++ (u.stockfishQueue.take 1).map (fun j => j.fen) := by
  unfold processStockfishQueue
  cases hq : u.stockfishQueue with
  | nil =>
    simp only []
    split
    · refine ⟨?_, ⟨?_, fun _ => rfl⟩, ?_⟩
      · simp [pipeline, hidle, hq]
      · simp [hidle]
      · simp
    · refine ⟨?_, ⟨?_, fun _ => rfl⟩, ?_⟩
      · simp [pipeline, hidle, hq]
      · simp [hidle]
      · simp
  | cons job rest =>
    simp only [hflag, Bool.false_eq_true, if_false]
    refine ⟨?_, ⟨rfl, ?_⟩, ?_⟩
    · simp [pipeline]
    · intro h
      cases h
    · simp [dispatchedFens_append, dispatchedFens]

theorem handle_terminal_busy {t : ReviewState} {job : Job} {m : String}
    (hjob : t.currentAnalysisJob = some job) (hbm : startsWith m "bestmove" = true) :
    pipeline (handleStockfishMessage_Review t m) = t.stockfishQueue ∧
    Pumped (handleStockfishMessage_Review t m) ∧
    dispatchedFens (handleStockfishMessage_Review t m).posted =
      dispatchedFens t.posted ++ (t.stockfishQueue.take 1).map (fun j => j.fen) := by
  cases hrec : t.moveAnalysisData[job.analysisDataIndex]? with
  | none =>
    rw [handle_bestmove_none hjob hbm hrec]
    exact pump_from_idle rfl rfl
  | some dataEntry =>
    obtain ⟨D, hstate, _⟩ := handle_bestmove_some hjob hbm hrec
    rw [hstate]
    exact pump_from_idle rfl rfl

theorem handle_idle {t : ReviewState} (hp : Pumped t) (hidle : t.currentAnalysisJob = none)
    (m : String) :
    (handleStockfishMessage_Review t m).currentAnalysisJob = none ∧
    (handleStockfishMessage_Review t m).stockfishQueue = [] ∧
    (handleStockfishMessage_Review t m).isProcessingQueue = t.isProcessingQueue ∧
    dispatchedFens (handleStockfishMessage_Review t m).posted = dispatchedFens t.posted := by
  have hq := hp.2 hidle
  unfold handleStockfishMessage_Review
  split
  · refine ⟨hidle, hq, rfl, ?_⟩
    simp [dispatchedFens_append, dispatchedFens]
  split
  · simp [hq, hidle]
  · rw [hidle]
    exact ⟨hidle, hq, rfl, rfl⟩

theorem handle_nonterminal_pumped {t : ReviewState} (hp : Pumped t) (m : String)
    (hnb : startsWith m "bestmove" = false) :
    pipeline (handleStockfishMessage_Review t m) = pipeline t ∧
    Pumped (handleStockfishMessage_Review t m) ∧
    (handleStockfishMessage_Review t m).currentAnalysisJob = t.currentAnalysisJob ∧
    dispatchedFens (handleStockfishMessage_Review t m).posted = dispatchedFens t.posted := by
  cases hjob : t.currentAnalysisJob with
  | none =>
    obtain ⟨h1, h2, h3, h4⟩ := handle_idle hp hjob m
    refine ⟨?_, ⟨?_, fun _ => h2⟩, h1, h4⟩
    · simp [pipeline, h1, h2, hjob, hp.2 hjob]
    · rw [h3, h1, hp.1, hjob]
  | some job =>
    have hflag : t.isProcessingQueue = true := by rw [hp.1, hjob]; rfl
    obtain ⟨h1, h2, h3, h4⟩ := handle_nonterminal_busy hflag m hnb
    refine ⟨?_, ⟨?_, ?_⟩, h1.trans hjob, h4⟩
    · simp [pipeline, h1, h2]
    · rw [h3, h1]; exact hp.1
    · intro hnone
      rw [h1, hjob] at hnone
      cases hnone

theorem completedJobs_cons (t : ReviewState) (m : String) (ms : List String) :
    completedJobs t (m :: ms) =
      (if isTerminalMessage m = true then t.currentAnalysisJob.toList else []) ++
        completedJobs (handleStockfishMessage_Review t m) ms := by
  cases hterm : isTerminalMessage m <;> cases hjob : t.currentAnalysisJob <;>
    simp [completedJobs, hterm, hjob]

/-- The pump serves the pipeline in order: from a pumped session, the jobs
completed by a message stream are an initial segment of the pipeline, and the
positions sent meanwhile are those of the next jobs of the queue. -/
theorem fifo_from_pumped (ms : List String) :
    ∀ t : ReviewState, Pumped t →
      completedJobs t ms = (pipeline t).take (ms.countP isTerminalMessage) ∧
      dispatchedFens (runMessages t ms).posted =
        dispatchedFens t.posted ++
          (((pipeline t).drop 1).take (ms.countP isTerminalMessage)).map (fun j => j.fen) := by
  induction ms with
  | nil =>
    intro t _
    simp [completedJobs, runMessages]
  | cons m rest ih =>
    intro t hp
    have hrun : runMessages t (m :: rest) =
        runMessages (handleStockfishMessage_Review t m) rest := rfl
    rw [completedJobs_cons, hrun]
    cases hterm : isTerminalMessage m with
    | false =>
      have hnb : startsWith m "bestmove" = false := by rw [← isTerminalMessage_eq]; exact hterm
      obtain ⟨h1, h2, _, h4⟩ := handle_nonterminal_pumped hp m hnb
      obtain ⟨ih1, ih2⟩ := ih _ h2
      rw [ih1, ih2, h1, h4]
      simp [List.countP_cons, hterm]
    | true =>
      have hbm : startsWith m "bestmove" = true := by rw [← isTerminalMessage_eq]; exact hterm
      cases hjob : t.currentAnalysisJob with
      | none =>
        obtain ⟨h1, h2, h3, h4⟩ := handle_idle hp hjob m
        have hp' : Pumped (handleStockfishMessage_Review t m) :=
          ⟨by rw [h3, h1, hp.1, hjob], fun _ => h2⟩
        obtain ⟨ih1, ih2⟩ := ih _ hp'
        have hpipe : pipeline t = [] := by simp [pipeline, hjob, hp.2 hjob]
        have hpipe' : pipeline (handleStockfishMessage_Review t m) = [] := by
          simp [pipeline, h1, h2]
        rw [ih1, ih2, hpipe, hpipe', h4]
        simp
      | some job =>
        obtain ⟨h1, h2, h3⟩ := handle_terminal_busy hjob hbm
        obtain ⟨ih1, ih2⟩ := ih _ h2
        have hpipe : pipeline t = job :: t.stockfishQueue := by simp [pipeline, hjob]
        rw [ih1, ih2, h1, h3, hpipe]
        simp only [if_true, Option.toList_some, List.countP_cons, hterm, List.drop_succ_cons,
          List.drop_zero, List.singleton_append, List.take_succ_cons, List.append_assoc]
        refine ⟨trivial, ?_⟩
        congr 1
        cases t.stockfishQueue with
        | nil => simp
        | cons j js => simp


/-- C8. FIFO. For an idle session whose queue holds `jobs` in enqueue order,
once the pump is started and whatever messages the engine then sends: the jobs
in flight at the successive `bestmove` lines are `jobs` in order (the `k`-th
`bestmove` line completes the `k`-th enqueued job), the positions sent to the
engine are those of `jobs` in the same order, and a `bestmove` line handled
with `job` in flight commits into the record at `job.analysisDataIndex` (the
provisional evaluation and the job's depth) and into no other record. -/
theorem fifo_commit_order (s : ReviewState) (jobs : List Job) (messages : List String)
    (hidle : s.currentAnalysisJob = none) (hflag : s.isProcessingQueue = false)
    (hq : s.stockfishQueue = jobs) :
    completedJobs (processStockfishQueue s) messages =
      jobs.take (messages.countP isTerminalMessage) ∧
    dispatchedFens (runMessages (processStockfishQueue s) messages).posted =
      dispatchedFens s.posted ++
        (jobs.take (messages.countP isTerminalMessage + 1)).map (fun j => j.fen) ∧
    (∀ (t : ReviewState) (job : Job) (m : String) (r : MoveAnalysis),
      t.currentAnalysisJob = some job → isTerminalMessage m = true →
      t.moveAnalysisData[job.analysisDataIndex]? = some r →
      (∃ r' : MoveAnalysis,
        (handleStockfishMessage_Review t m).moveAnalysisData[job.analysisDataIndex]? = some r' ∧
        r'.eval_before = r.eval_before_temp ∧ r'.analysis_depth = job.depth) ∧
      ∀ k : Nat, k ≠ job.analysisDataIndex →
        (handleStockfishMessage_Review t m).moveAnalysisData[k]? = t.moveAnalysisData[k]?) := by
  obtain ⟨h1, h2, h3⟩ := pump_from_idle hidle hflag
  obtain ⟨h4, h5⟩ := fifo_from_pumped messages (processStockfishQueue s) h2
  refine ⟨?_, ?_, ?_⟩
  · rw [h4, h1, hq]
  · rw [h5, h3, h1, hq, List.append_assoc]
    congr 1
    cases jobs with
    | nil => simp
    | cons j js => simp
  · intro t job m r hjob hterm hrec
    have hbm : startsWith m "bestmove" = true := by rw [← isTerminalMessage_eq]; exact hterm
    obtain ⟨D, hstate, hother, c', hc', hshape, _⟩ := handle_bestmove_some hjob hbm hrec
    rw [hstate, processStockfishQueue_data]
    refine ⟨⟨c', hc', ?_, ?_⟩, hother⟩
    · rw [hshape]
      show (r.eval_before_temp <|> none) = r.eval_before_temp
      cases r.eval_before_temp <;> rfl
    · rw [hshape]
      rfl

theorem fifo_commit_order_witness :
    completedJobs (processStockfishQueue sampleQueuedState)
      ["info depth 12 score cp 30 pv e2e4 e7e5", "bestmove e2e4 ponder e7e5",
       "info depth 12 score cp 25 pv e7e5 g1f3", "bestmove e7e5 ponder g1f3"] =
      [sampleJob,
       { analysisDataIndex := 1,
         fen := "rnbqkbnr/pppppppp/8/8/4P3/8/PPPP1PPP/RNBQKBNR b KQkq e3 0 1",
         depth := 12, purpose := "eval_position", isPass1 := true }] := by
  have h := (fifo_commit_order sampleQueuedState sampleQueuedState.stockfishQueue
    ["info depth 12 score cp 30 pv e2e4 e7e5", "bestmove e2e4 ponder e7e5",
     "info depth 12 score cp 25 pv e7e5 g1f3", "bestmove e7e5 ponder g1f3"]
    (by decide) (by decide) rfl).1
  rw [h]
  decide

/-! ## Every search starts on a clean record -/

theorem startFullGameAnalysis_data (s : ReviewState) :
    (startFullGameAnalysis s).moveAnalysisData = s.moveAnalysisData := by
  unfold startFullGameAnalysis
  split
  · rfl
  split
  · rfl
  split
  · rw [processStockfishQueue_data]
  · rfl

theorem analyzeCurrentPosition_data (s : ReviewState) :
    (analyzeCurrentPosition s).moveAnalysisData = s.moveAnalysisData := by
  unfold analyzeCurrentPosition
  split
  · rfl
  split
  · rfl
  simp only []
  split
  · rfl
  split
  · rfl
  split
  · rfl
  split
  · rw [processStockfishQueue_data]
  · rfl

theorem pumped_of_sessionInvariant {s : ReviewState} (h : SessionInvariant s) : Pumped s :=
  ⟨h.1.flag, h.2⟩

/-- Whenever an event of a reachable session puts a new job in flight (or clears
the slot), no record of the store holds a provisional field afterwards: every
search starts on a clean target. -/
theorem no_provisional_after_dispatch {s : ReviewState} (hreach : Reachable s) (e : Event)
    (hchange : (step s e).currentAnalysisJob ≠ s.currentAnalysisJob) :
    ∀ (k : Nat) (r : MoveAnalysis), (step s e).moveAnalysisData[k]? = some r →
      ¬ hasProvisional r := by
  have hinv := sessionInvariant_of_reachable hreach
  have hafter := sessionInvariant_step hinv e
  cases hflag : s.isProcessingQueue with
  | false =>
    have hidle := idle_of_not_processing hinv.1 hflag
    intro k r hr hp
    obtain ⟨j, hj, hidx⟩ := hafter.1.provisional k r hr hp
    -- the record is the target of the job now in flight; it was clean before the event
    cases e with
    | resetAnalysisState =>
      have : (resetAnalysisState s).currentAnalysisJob = some j := hj
      cases this
    | loadGame parsed => exact hchange (loadGame_session s parsed).1
    | startFullGameAnalysis =>
      have hr' : (startFullGameAnalysis s).moveAnalysisData[k]? = some r := hr
      rw [startFullGameAnalysis_data] at hr'
      exact no_provisional_of_idle hinv.1 hidle k r hr' hp
    | analyzeCurrentPosition =>
      have hr' : (analyzeCurrentPosition s).moveAnalysisData[k]? = some r := hr
      rw [analyzeCurrentPosition_data] at hr'
      exact no_provisional_of_idle hinv.1 hidle k r hr' hp
    | goToMove index => exact hchange (goToMove_session s index).1
    | makeInteractiveMove fromAlg toAlg promotionChoice fenBefore moveResult fenAfter =>
      have hr' : (makeInteractiveMove s fromAlg toAlg promotionChoice fenBefore moveResult
        fenAfter).moveAnalysisData[k]? = some r := hr
      unfold makeInteractiveMove at hr'
      cases moveResult with
      | none => exact no_provisional_of_idle hinv.1 hidle k r hr' hp
      | some moveResult =>
        simp only [] at hr'
        rw [analyzeCurrentPosition_data] at hr'
        have hclean : ∀ (l : List MoveAnalysis),
            (∀ (k' : Nat) (r' : MoveAnalysis), l[k']? = some r' →
              s.moveAnalysisData[k']? = some r') →
            ∀ a b c, (l ++ [freshRecord a b c])[k]? = some r → False := by
          intro l hl a b c hget
          by_cases hk : k < l.length
          · rw [List.getElem?_append_left hk] at hget
            exact no_provisional_of_idle hinv.1 hidle k r (hl k r hget) hp
          · rw [List.getElem?_append_right (by omega)] at hget
            have hlen : k - l.length < [freshRecord a b c].length :=
              (List.getElem?_eq_some_iff.1 hget).1
            simp only [List.length_singleton, Nat.lt_one_iff] at hlen
            rw [hlen] at hget
            simp only [List.getElem?_cons_zero, Option.some.injEq] at hget
            rw [← hget] at hp
            exact freshRecord_not_provisional a b c hp
        split at hr'
        · exact hclean _ (fun k' r' h' => getElem?_of_sliceTo h') _ _ _ hr'
        · exact hclean _ (fun k' r' h' => h') _ _ _ hr'
    | engineMessage m =>
      exact hchange ((handle_idle (pumped_of_sessionInvariant hinv) hidle m).1.trans hidle.symm)
    | engineError => exact hchange rfl
  | true =>
    obtain ⟨job, hjob⟩ : ∃ job, s.currentAnalysisJob = some job := by
      have := hinv.1.flag
      rw [hflag] at this
      cases hj : s.currentAnalysisJob with
      | none => rw [hj] at this; cases this
      | some job => exact ⟨job, rfl⟩
    cases e with
    | resetAnalysisState =>
      intro k r hr hp
      obtain ⟨j, hj, _⟩ := hafter.1.provisional k r hr hp
      have : (resetAnalysisState s).currentAnalysisJob = some j := hj
      cases this
    | engineMessage m =>
      cases hbm : startsWith m "bestmove" with
      | false => exact absurd (handle_nonterminal_busy hflag m hbm).1 hchange
      | true =>
        have hpump : ∃ u : ReviewState,
            handleStockfishMessage_Review s m = processStockfishQueue u ∧
            u.currentAnalysisJob = none ∧ PipelineInvariant u := by
          cases hrec : s.moveAnalysisData[job.analysisDataIndex]? with
          | none => exact pump_input_bestmove_none hinv hjob hbm hrec
          | some dataEntry => exact pump_input_bestmove_some hinv hjob hbm hrec
        obtain ⟨u, hu, hidle, hpi⟩ := hpump
        intro k r hr
        have hr' : (handleStockfishMessage_Review s m).moveAnalysisData[k]? = some r := hr
        rw [hu, processStockfishQueue_data] at hr'
        exact no_provisional_of_idle hpi hidle k r hr'
    | loadGame parsed => exact absurd (loadGame_session s parsed).1 hchange
    | startFullGameAnalysis =>
      exact absurd (congrArg ReviewState.currentAnalysisJob (startFullGameAnalysis_busy hflag))
        hchange
    | analyzeCurrentPosition =>
      exact absurd (congrArg ReviewState.currentAnalysisJob (analyzeCurrentPosition_busy hflag))
        hchange
    | goToMove index => exact absurd (goToMove_session s index).1 hchange
    | makeInteractiveMove fromAlg toAlg promotionChoice fenBefore moveResult fenAfter =>
      exact absurd (makeInteractiveMove_busy hflag fromAlg toAlg promotionChoice fenBefore
        moveResult fenAfter).1 hchange
    | engineError => exact absurd rfl hchange

/-! ## The message handler: frame, pump, stale and unparseable lines -/

/-- A `bestmove` line handled with a job in flight hands an idle session with
the same queue, history and command log to the pump. -/
theorem handle_bestmove_pump {s : ReviewState} {job : Job} {m : String}
    (hjob : s.currentAnalysisJob = some job) (hbm : startsWith m "bestmove" = true) :
    ∃ u : ReviewState, handleStockfishMessage_Review s m = processStockfishQueue u ∧
      u.currentAnalysisJob = none ∧ u.isProcessingQueue = false ∧
      u.stockfishQueue = s.stockfishQueue ∧ u.posted = s.posted := by
  cases hrec : s.moveAnalysisData[job.analysisDataIndex]? with
  | none => exact ⟨_, handle_bestmove_none hjob hbm hrec, rfl, rfl, rfl, rfl⟩
  | some dataEntry =>
    obtain ⟨D, hstate, _⟩ := handle_bestmove_some hjob hbm hrec
    exact ⟨_, hstate, rfl, rfl, rfl, rfl⟩

theorem processStockfishQueue_dispatch {u : ReviewState} {next : Job} {rest : List Job}
    (hflag : u.isProcessingQueue = false) (hq : u.stockfishQueue = next :: rest) :
    (processStockfishQueue u).currentAnalysisJob = some next ∧
    (processStockfishQueue u).stockfishQueue = rest ∧
    (processStockfishQueue u).isProcessingQueue = true ∧
    (processStockfishQueue u).posted = u.posted ++
      [EngineCommand.stop, EngineCommand.ucinewgame, EngineCommand.positionFen next.fen,
       EngineCommand.goDepth next.depth] := by
  unfold processStockfishQueue
  rw [hq]
  simp only [hflag, Bool.false_eq_true, if_false, and_self]

theorem processStockfishQueue_empty {u : ReviewState} (hq : u.stockfishQueue = []) :
    (processStockfishQueue u).currentAnalysisJob = u.currentAnalysisJob ∧
    (processStockfishQueue u).stockfishQueue = [] ∧
    (processStockfishQueue u).isProcessingQueue = false ∧
    (processStockfishQueue u).posted = u.posted := by
  unfold processStockfishQueue
  rw [hq]
  simp only []
  split <;> exact ⟨rfl, rfl, rfl, rfl⟩

/-- C12. The pump always advances: for every state with a job in flight and
every `bestmove` line (whether or not the target record exists), the handler
ends with the queue head in flight, removed from the queue and sent to the
engine when the queue is non-empty, and with an idle session when the queue is
empty. -/
theorem pump_always_advances (s : ReviewState) (job : Job) (m : String)
    (hjob : s.currentAnalysisJob = some job) (hbm : startsWith m "bestmove" = true) :
    (∀ (next : Job) (rest : List Job), s.stockfishQueue = next :: rest →
      (handleStockfishMessage_Review s m).currentAnalysisJob = some next ∧
      (handleStockfishMessage_Review s m).stockfishQueue = rest ∧
      (handleStockfishMessage_Review s m).isProcessingQueue = true ∧
      (handleStockfishMessage_Review s m).posted = s.posted ++
        [EngineCommand.stop, EngineCommand.ucinewgame, EngineCommand.positionFen next.fen,
         EngineCommand.goDepth next.depth]) ∧
    (s.stockfishQueue = [] →
      (handleStockfishMessage_Review s m).currentAnalysisJob = none ∧
      (handleStockfishMessage_Review s m).stockfishQueue = [] ∧
      (handleStockfishMessage_Review s m).isProcessingQueue = false ∧
      (handleStockfishMessage_Review s m).posted = s.posted) := by
  obtain ⟨u, hu, hidle, hflag, hq, hp⟩ := handle_bestmove_pump hjob hbm
  rw [hu]
  constructor
  · intro next rest hqueue
    obtain ⟨h1, h2, h3, h4⟩ := processStockfishQueue_dispatch hflag (hq.trans hqueue)
    exact ⟨h1, h2, h3, by rw [h4, hp]⟩
  · intro hqueue
    obtain ⟨h1, h2, h3, h4⟩ := processStockfishQueue_empty (hq.trans hqueue)
    exact ⟨h1.trans hidle, h2, h3, h4.trans hp⟩

/-- C13. When the record index of the job in flight is at or beyond the number
of records, its `bestmove` line leaves the evaluation store (and the history)
exactly as it was. -/
theorem discarded_index_is_noop (s : ReviewState) (job : Job) (m : String)
    (hjob : s.currentAnalysisJob = some job) (hbm : startsWith m "bestmove" = true)
    (hgone : s.moveAnalysisData.length ≤ job.analysisDataIndex) :
    (handleStockfishMessage_Review s m).moveAnalysisData = s.moveAnalysisData ∧
    (handleStockfishMessage_Review s m).fullGameHistory = s.fullGameHistory := by
  have hrec : s.moveAnalysisData[job.analysisDataIndex]? = none :=
    List.getElem?_eq_none hgone
  rw [handle_bestmove_none hjob hbm hrec, processStockfishQueue_data,
    processStockfishQueue_history]
  exact ⟨rfl, rfl⟩


theorem set_same {α : Type} : ∀ (l : List α) (i : Nat) (a : α), l[i]? = some a → l.set i a = l := by
  intro l
  induction l with
  | nil => intro i a h; rfl
  | cons x xs ih =>
    intro i a h
    cases i with
    | zero =>
      simp only [List.getElem?_cons_zero, Option.some.injEq] at h
      rw [List.set_cons_zero, h]
    | succ i =>
      rw [List.getElem?_cons_succ] at h
      rw [List.set_cons_succ, ih i a h]

/-- C11. A `bestmove` line handled for a job in flight whose record exists:
the record at the job's index gets `pass1_complete` true for a pass-1 job and
`pass2_complete` true otherwise, the other flag unchanged, `analysis_depth` the
job's depth, no provisional field, and the same positions and played move; the
number of records is kept and no record at another index changes. For index 0
the record's classification and loss are left as they were; for index `n + 1`
the store is the one `classifyMove(n)` produces from the committed store, which
writes only into that same record. -/
theorem bestmove_commit_frame (s : ReviewState) (job : Job) (m : String)
    (dataEntry : MoveAnalysis)
    (hjob : s.currentAnalysisJob = some job) (hbm : startsWith m "bestmove" = true)
    (hrec : s.moveAnalysisData[job.analysisDataIndex]? = some dataEntry) :
    ∃ r' : MoveAnalysis,
      (handleStockfishMessage_Review s m).moveAnalysisData[job.analysisDataIndex]? = some r' ∧
      (job.isPass1 = true →
        r'.pass1_complete = true ∧ r'.pass2_complete = dataEntry.pass2_complete) ∧
      (job.isPass1 = false →
        r'.pass2_complete = true ∧ r'.pass1_complete = dataEntry.pass1_complete) ∧
      r'.analysis_depth = job.depth ∧
      r'.eval_before_temp = none ∧ r'.best_move_before_temp = none ∧ r'.pv_temp = none ∧
      r'.fen_before = dataEntry.fen_before ∧ r'.fen_after = dataEntry.fen_after ∧
      r'.played_move = dataEntry.played_move ∧
      (handleStockfishMessage_Review s m).moveAnalysisData.length = s.moveAnalysisData.length ∧
      (∀ k : Nat, k ≠ job.analysisDataIndex →
        (handleStockfishMessage_Review s m).moveAnalysisData[k]? = s.moveAnalysisData[k]?) ∧
      (job.analysisDataIndex = 0 →
        r'.classification = dataEntry.classification ∧ r'.cpl = dataEntry.cpl) ∧
      (∀ n : Nat, job.analysisDataIndex = n + 1 →
        classifyMove s.fullGameHistory
          (s.moveAnalysisData.set job.analysisDataIndex
            (commitRecord dataEntry job none (parseFinalBestMove m))) (n : Int) =
          some (handleStockfishMessage_Review s m).moveAnalysisData) := by
  have hlen : job.analysisDataIndex < s.moveAnalysisData.length :=
    (List.getElem?_eq_some_iff.1 hrec).1
  have hset : (s.moveAnalysisData.set job.analysisDataIndex
      (commitRecord dataEntry job none (parseFinalBestMove m)))[job.analysisDataIndex]? =
      some (commitRecord dataEntry job none (parseFinalBestMove m)) :=
    List.getElem?_set_self hlen
  have hflag1 : job.isPass1 = true →
      (commitRecord dataEntry job none (parseFinalBestMove m)).pass1_complete = true ∧
      (commitRecord dataEntry job none (parseFinalBestMove m)).pass2_complete =
        dataEntry.pass2_complete := by
    intro h
    simp [commitRecord, h]
  have hflag2 : job.isPass1 = false →
      (commitRecord dataEntry job none (parseFinalBestMove m)).pass2_complete = true ∧
      (commitRecord dataEntry job none (parseFinalBestMove m)).pass1_complete =
        dataEntry.pass1_complete := by
    intro h
    simp [commitRecord, h]
  rw [handle_bestmove_data hjob hbm hrec]
  by_cases hge : (job.analysisDataIndex : Int) - 1 ≥ 0
  · rw [if_pos hge]
    obtain ⟨n, hn⟩ : ∃ n : Nat, job.analysisDataIndex = n + 1 :=
      ⟨job.analysisDataIndex - 1, by omega⟩
    have hidx : (job.analysisDataIndex : Int) - 1 = (n : Int) := by omega
    have hset' := hset
    rw [hn] at hset'
    obtain ⟨data', hc⟩ := classifyMove_total_of_after s.fullGameHistory hset'
      ((job.analysisDataIndex : Int) - 1) hidx
    rw [← hn] at hc
    rw [hc, Option.getD_some]
    have hc' := hc
    rw [hidx, hn] at hc'
    obtain ⟨hframe, c', hget, hshape, _⟩ := classifyMove_effect hset' hc'
    have hlength := (classifyMove_frame hc).1
    refine ⟨c', by rw [hn]; exact hget, ?_, ?_, ?_, ?_, ?_, ?_, ?_, ?_, ?_, ?_, ?_, ?_, ?_⟩
    · intro h; rw [hshape]; exact hflag1 h
    · intro h; rw [hshape]; exact hflag2 h
    · rw [hshape]; rfl
    · rw [hshape]; rfl
    · rw [hshape]; rfl
    · rw [hshape]; rfl
    · rw [hshape]; rfl
    · rw [hshape]; rfl
    · rw [hshape]; rfl
    · rw [hlength, List.length_set]
    · intro k hk
      rw [hframe k (by omega), ← hn]
      exact List.getElem?_set_ne (Ne.symm hk)
    · intro h0
      omega
    · intro n' hn'
      have : n' = n := by omega
      subst this
      rw [← hidx]
      exact hc
  · rw [if_neg hge]
    have h0 : job.analysisDataIndex = 0 := by omega
    refine ⟨_, hset, hflag1, hflag2, rfl, rfl, rfl, rfl, rfl, rfl, rfl, List.length_set _ _ _,
      ?_, fun _ => ⟨rfl, rfl⟩, ?_⟩
    · intro k hk
      exact List.getElem?_set_ne (Ne.symm hk)
    · intro n hn
      omega

theorem handle_no_job {s : ReviewState} {m : String} (hidle : s.currentAnalysisJob = none)
    (h1 : m ≠ "uciok") (h2 : m ≠ "readyok") : handleStockfishMessage_Review s m = s := by
  unfold handleStockfishMessage_Review
  rw [if_neg h1, if_neg h2, hidle]

theorem handle_other {s : ReviewState} {m : String} (h1 : m ≠ "uciok") (h2 : m ≠ "readyok")
    (h3 : startsWith m "info" = false) (h4 : startsWith m "bestmove" = false) :
    handleStockfishMessage_Review s m = s := by
  unfold handleStockfishMessage_Review
  rw [if_neg h1, if_neg h2]
  cases s.currentAnalysisJob with
  | none => rfl
  | some job => simp only [h3, h4, Bool.false_eq_true, if_false]

theorem applyInfo_empty (d : MoveAnalysis) (info : InfoLine) (he : info.currentEval = none)
    (hb : info.currentBestMove = none) (hp : info.currentPv = none) : applyInfo d info = d := by
  unfold applyInfo
  rw [he, hb, hp]

theorem parseInfo_bestMove_none (m : String) (hp : (parseInfo m).currentPv = none) :
    (parseInfo m).currentBestMove = none := by
  have h : (parseInfo m).currentBestMove =
      (match (parseInfo m).currentPv with
       | some (first :: _) => some first
       | _ => none) := rfl
  rw [h, hp]

/-- C20. An `info` line carrying neither a score nor a `pv`, and any line that
begins with neither `info` nor `bestmove` and is neither `uciok` nor `readyok`,
leaves the whole state unchanged (records with their committed and provisional
fields, queue, job in flight), with or without a job in flight. -/
theorem unparseable_line_dropped (s : ReviewState) (m : String)
    (h : (startsWith m "info" = true ∧ (parseInfo m).currentEval = none ∧
            (parseInfo m).currentPv = none) ∨
         (startsWith m "info" = false ∧ startsWith m "bestmove" = false ∧
            m ≠ "uciok" ∧ m ≠ "readyok")) :
    handleStockfishMessage_Review s m = s := by
  rcases h with ⟨hinfo, he, hp⟩ | ⟨h3, h4, h1, h2⟩
  · obtain ⟨h1, h2⟩ := startsWith_info_not_control hinfo
    cases hjob : s.currentAnalysisJob with
    | none => exact handle_no_job hjob h1 h2
    | some job =>
      cases hrec : s.moveAnalysisData[job.analysisDataIndex]? with
      | none => exact handle_info_none hjob hinfo hrec
      | some d =>
        rw [handle_info_some hjob hinfo hrec,
          applyInfo_empty d _ he (parseInfo_bestMove_none m hp) hp, set_same _ _ _ hrec]
  · exact handle_other h1 h2 h3 h4


theorem bestmove_commit_frame_witness :
    ∃ r' : MoveAnalysis,
      (handleStockfishMessage_Review sampleBusyState
        "bestmove e2e4 ponder e7e5").moveAnalysisData[0]? = some r' ∧
      r'.pass1_complete = true ∧ r'.pass2_complete = false ∧ r'.analysis_depth = 12 ∧
      r'.best_move_before = some "e2e4" := by
  obtain ⟨r', h, hf, _, hd, _⟩ :=
    bestmove_commit_frame sampleBusyState sampleJob "bestmove e2e4 ponder e7e5"
      (freshRecord none initialFen none) (by decide) (by decide) (by decide)
  have hr : (handleStockfishMessage_Review sampleBusyState
      "bestmove e2e4 ponder e7e5").moveAnalysisData[0]?.map (fun r => r.best_move_before) =
      some (some "e2e4") := by decide
  have h' : (handleStockfishMessage_Review sampleBusyState
      "bestmove e2e4 ponder e7e5").moveAnalysisData[0]? = some r' := h
  rw [h'] at hr
  exact ⟨r', h, (hf rfl).1, (hf rfl).2, hd, Option.some.inj hr⟩

theorem pump_always_advances_witness :
    (handleStockfishMessage_Review (runEvents initialState sampleLoadedSession)
      "bestmove e2e4 ponder e7e5").currentAnalysisJob =
      some { analysisDataIndex := 1,
             fen := "rnbqkbnr/pppppppp/8/8/4P3/8/PPPP1PPP/RNBQKBNR b KQkq e3 0 1",
             depth := 12, purpose := "eval_position", isPass1 := true } ∧
    (handleStockfishMessage_Review (runEvents initialState sampleLoadedSession)
      "bestmove e2e4 ponder e7e5").stockfishQueue = [] :=
  let h := (pump_always_advances (runEvents initialState sampleLoadedSession) sampleJob
    "bestmove e2e4 ponder e7e5" (by decide) (by decide)).1
    { analysisDataIndex := 1,
      fen := "rnbqkbnr/pppppppp/8/8/4P3/8/PPPP1PPP/RNBQKBNR b KQkq e3 0 1",
      depth := 12, purpose := "eval_position", isPass1 := true } [] (by decide)
  ⟨h.1, h.2.1⟩

theorem discarded_index_is_noop_witness :
    (runEvents initialState sampleTruncatedSession).moveAnalysisData.length = 2 ∧
    (runEvents initialState sampleTruncatedSession).currentAnalysisJob.map
      (fun j => j.analysisDataIndex) = some 2 ∧
    (handleStockfishMessage_Review (runEvents initialState sampleTruncatedSession)
      "bestmove g1f3 ponder b8c6").moveAnalysisData =
      (runEvents initialState sampleTruncatedSession).moveAnalysisData :=
  ⟨by decide, by decide,
    (discarded_index_is_noop (runEvents initialState sampleTruncatedSession)
      { analysisDataIndex := 2,
        fen := "rnbqkbnr/pppp1ppp/8/4p3/4P3/8/PPPP1PPP/RNBQKBNR w KQkq e6 0 2",
        depth := 12, purpose := "eval_position", isPass1 := true }
      "bestmove g1f3 ponder b8c6" (by decide) (by decide) (by decide)).1⟩

theorem unparseable_line_dropped_witness :
    handleStockfishMessage_Review sampleBusyState "info depth 3 seldepth 4 nodes 100" =
      sampleBusyState ∧
    handleStockfishMessage_Review sampleBusyState "Stockfish 16 by the Stockfish developers" =
      sampleBusyState :=
  ⟨unparseable_line_dropped sampleBusyState "info depth 3 seldepth 4 nodes 100"
     (Or.inl ⟨by decide, by decide, by decide⟩),
   unparseable_line_dropped sampleBusyState "Stockfish 16 by the Stockfish developers"
     (Or.inr ⟨by decide, by decide, by decide, by decide⟩)⟩

/-- C16, counterexample. The page is reset while the first search runs and a new
analysis is requested at once: `stop` has been sent and the new job for the
initial position is in flight on an untouched record. A line that the stopped
search still sends is handled like any other: an `info` line changes that
record, and the `bestmove` line with which the engine answers `stop` completes
the new job (the slot is cleared, the record is marked `pass1_complete` with
the old search's move). -/
theorem late_output_hits_new_job :
    (runEvents initialState sampleRestartedSession).posted =
      [EngineCommand.stop, EngineCommand.stop, EngineCommand.ucinewgame,
       EngineCommand.positionFen initialFen, EngineCommand.goDepth 12,
       EngineCommand.stop, EngineCommand.stop, EngineCommand.ucinewgame,
       EngineCommand.positionFen initialFen, EngineCommand.goDepth 12] ∧
    (runEvents initialState sampleRestartedSession).currentAnalysisJob = some sampleJob ∧
    (runEvents initialState sampleRestartedSession).moveAnalysisData =
      [freshRecord none initialFen none] ∧
    (handleStockfishMessage_Review (runEvents initialState sampleRestartedSession)
      "info depth 6 score cp 15 pv e2e4 e7e5").moveAnalysisData ≠
      [freshRecord none initialFen none] ∧
    (handleStockfishMessage_Review (runEvents initialState sampleRestartedSession)
      "bestmove e2e4 ponder e7e5").currentAnalysisJob = none ∧
    (handleStockfishMessage_Review (runEvents initialState sampleRestartedSession)
      "bestmove e2e4 ponder e7e5").moveAnalysisData =
      [{ freshRecord none initialFen none with
         best_move_before := some "e2e4", pv := some ["e2e4"], analysis_depth := 12,
         pass1_complete := true }] := by
  decide!

/-- C16, amended. Output of a stopped search is inert only while no job is in
flight: then every message other than `uciok` and `readyok` leaves the whole
state unchanged. With a job in flight a line is attributed to that job
whichever search sent it: an `info` line is written into the provisional fields
of the record of the job in flight, and a `bestmove` line clears the slot and
commits that record (depth of the job, provisional evaluation) before the pump
runs. -/
theorem late_output_inert_only_when_idle :
    (∀ (s : ReviewState) (m : String), s.currentAnalysisJob = none → m ≠ "uciok" →
      m ≠ "readyok" → handleStockfishMessage_Review s m = s) ∧
    (∀ (s : ReviewState) (job : Job) (m : String) (dataEntry : MoveAnalysis),
      s.currentAnalysisJob = some job → startsWith m "info" = true →
      s.moveAnalysisData[job.analysisDataIndex]? = some dataEntry →
      handleStockfishMessage_Review s m =
        { s with
          moveAnalysisData :=
            s.moveAnalysisData.set job.analysisDataIndex
              (applyInfo dataEntry (parseInfo m)) }) ∧
    (∀ (s : ReviewState) (job : Job) (m : String),
      s.currentAnalysisJob = some job → startsWith m "bestmove" = true →
      ∃ u : ReviewState, handleStockfishMessage_Review s m = processStockfishQueue u ∧
        u.currentAnalysisJob = none ∧ u.isProcessingQueue = false ∧
        u.stockfishQueue = s.stockfishQueue ∧
        (∀ dataEntry : MoveAnalysis,
          s.moveAnalysisData[job.analysisDataIndex]? = some dataEntry →
          ∃ r' : MoveAnalysis, u.moveAnalysisData[job.analysisDataIndex]? = some r' ∧
            r'.analysis_depth = job.depth ∧ r'.eval_before = dataEntry.eval_before_temp)) := by
  refine ⟨fun s m h h1 h2 => handle_no_job h h1 h2,
    fun s job m d hjob hinfo hrec => handle_info_some hjob hinfo hrec, ?_⟩
  intro s job m hjob hbm
  cases hrec : s.moveAnalysisData[job.analysisDataIndex]? with
  | none =>
    refine ⟨_, handle_bestmove_none hjob hbm hrec, rfl, rfl, rfl, ?_⟩
    intro d hd
    cases hd
  | some dataEntry =>
    obtain ⟨D, hstate, _, c', hc', hshape, _⟩ := handle_bestmove_some hjob hbm hrec
    refine ⟨_, hstate, rfl, rfl, rfl, ?_⟩
    intro d hd
    cases hd
    refine ⟨c', hc', ?_, ?_⟩
    · rw [hshape]; rfl
    · rw [hshape]
      show (dataEntry.eval_before_temp <|> none) = dataEntry.eval_before_temp
      cases dataEntry.eval_before_temp <;> rfl

theorem late_output_inert_only_when_idle_witness :
    handleStockfishMessage_Review (resetAnalysisState sampleBusyState)
      "bestmove e2e4 ponder e7e5" = resetAnalysisState sampleBusyState :=
  late_output_inert_only_when_idle.1 (resetAnalysisState sampleBusyState)
    "bestmove e2e4 ponder e7e5" (by decide) (by decide) (by decide)

/-! ## Requests: full-game pass, single position, interactive move -/

theorem pass1JobsFrom_eq_spec (data : List MoveAnalysis) :
    ∀ i : Nat, pass1JobsFrom i data =
      ((data.enumFrom i).filter (fun p => !p.2.pass1_complete)).map
        (fun p => fullGameJob p.1 p.2) := by
  induction data with
  | nil => intro i; rfl
  | cons e rest ih =>
    intro i
    unfold pass1JobsFrom
    rw [List.enumFrom_cons, List.filter_cons]
    cases hp : e.pass1_complete with
    | false =>
      simp only [Bool.not_false, if_true, List.map_cons]
      rw [ih (i + 1)]
      rfl
    | true =>
      simp only [Bool.not_true, Bool.false_eq_true, if_false]
      exact ih (i + 1)

theorem startFullGameAnalysis_idle {s : ReviewState} (hready : s.isStockfishReady = true)
    (hflag : s.isProcessingQueue = false) (hq : s.stockfishQueue = []) :
    startFullGameAnalysis s =
      processStockfishQueue { s with stockfishQueue := pass1JobsFrom 0 s.moveAnalysisData } := by
  unfold startFullGameAnalysis
  simp [hready, hflag, hq]

theorem startFullGameAnalysis_blocked {s : ReviewState}
    (h : s.isProcessingQueue = true ∨ s.stockfishQueue ≠ []) : startFullGameAnalysis s = s := by
  unfold startFullGameAnalysis
  split
  · rfl
  · rcases h with h | h
    · simp [h]
    · have : s.stockfishQueue.length > 0 := List.length_pos.2 h
      simp [this]

theorem processStockfishQueue_idle_result {u : ReviewState} (hflag : u.isProcessingQueue = false)
    (hidle : u.currentAnalysisJob = none) :
    (processStockfishQueue u).currentAnalysisJob = u.stockfishQueue.head? ∧
    (processStockfishQueue u).stockfishQueue = u.stockfishQueue.tail ∧
    (processStockfishQueue u).isProcessingQueue = u.stockfishQueue.head?.isSome ∧
    (processStockfishQueue u).posted = u.posted ++
      (match u.stockfishQueue.head? with
       | some j => [EngineCommand.stop, EngineCommand.ucinewgame,
                    EngineCommand.positionFen j.fen, EngineCommand.goDepth j.depth]
       | none => []) := by
  cases hq : u.stockfishQueue with
  | nil =>
    obtain ⟨h1, h2, h3, h4⟩ := processStockfishQueue_empty hq
    exact ⟨h1.trans hidle, h2, h3, by simp [h4]⟩
  | cons next rest =>
    obtain ⟨h1, h2, h3, h4⟩ := processStockfishQueue_dispatch hflag hq
    exact ⟨h1, h2, h3, h4⟩

/-- C17. In a reachable state with the engine ready, no job in flight and an
empty queue, `startFullGameAnalysis` builds, in record order, one pass-1 job
(depth 12, position `fen_after`) for every record lacking `pass1_complete` and
none for the others, puts the first in flight with its four commands sent and
leaves the rest queued in that order (the store is untouched); called while a
job is in flight or the queue is non-empty it returns the state unchanged. -/
theorem startFullGameAnalysis_enqueues (s : ReviewState) (hreach : Reachable s) :
    (s.isStockfishReady = true → s.currentAnalysisJob = none → s.stockfishQueue = [] →
      (startFullGameAnalysis s).currentAnalysisJob =
        (specFullGameJobs s.moveAnalysisData).head? ∧
      (startFullGameAnalysis s).stockfishQueue = (specFullGameJobs s.moveAnalysisData).tail ∧
      (startFullGameAnalysis s).posted = s.posted ++
        (match (specFullGameJobs s.moveAnalysisData).head? with
         | some j => [EngineCommand.stop, EngineCommand.ucinewgame,
                      EngineCommand.positionFen j.fen, EngineCommand.goDepth j.depth]
         | none => []) ∧
      (startFullGameAnalysis s).moveAnalysisData = s.moveAnalysisData) ∧
    ((s.currentAnalysisJob ≠ none ∨ s.stockfishQueue ≠ []) → startFullGameAnalysis s = s) := by
  have hinv := sessionInvariant_of_reachable hreach
  constructor
  · intro hready hidle hq
    have hflag : s.isProcessingQueue = false := by
      rw [hinv.1.flag, hidle]
      rfl
    have hspec : pass1JobsFrom 0 s.moveAnalysisData = specFullGameJobs s.moveAnalysisData :=
      pass1JobsFrom_eq_spec s.moveAnalysisData 0
    rw [startFullGameAnalysis_idle hready hflag hq, hspec]
    obtain ⟨h1, h2, _, h4⟩ := processStockfishQueue_idle_result
      (u := { s with stockfishQueue := specFullGameJobs s.moveAnalysisData }) hflag hidle
    exact ⟨h1, h2, h4, processStockfishQueue_data _⟩
  · intro h
    apply startFullGameAnalysis_blocked
    rcases h with h | h
    · left
      exact (processing_iff_job hinv.1).2 h
    · right
      exact h

theorem startFullGameAnalysis_enqueues_witness :
    (startFullGameAnalysis (runEvents initialState (sampleLoadedSession.take 3))).currentAnalysisJob
      = some sampleJob ∧
    (startFullGameAnalysis (runEvents initialState (sampleLoadedSession.take 3))).stockfishQueue
      = [{ analysisDataIndex := 1,
           fen := "rnbqkbnr/pppppppp/8/8/4P3/8/PPPP1PPP/RNBQKBNR b KQkq e3 0 1",
           depth := 12, purpose := "eval_position", isPass1 := true }] := by
  obtain ⟨h1, h2, _⟩ := (startFullGameAnalysis_enqueues
    (runEvents initialState (sampleLoadedSession.take 3))
    (reachable_runEvents _ initialState Reachable.initial)).1
    (by decide) (by decide) (by decide)
  rw [h1, h2]
  exact ⟨by decide, by decide⟩


theorem analyzeCurrentPosition_enqueue {s : ReviewState} {analysisEntry : MoveAnalysis}
    (hready : s.isStockfishReady = true) (hflag : s.isProcessingQueue = false)
    (hlow : 0 ≤ s.currentMoveIndex + 1)
    (hrec : s.moveAnalysisData[(s.currentMoveIndex + 1).toNat]? = some analysisEntry)
    (hpend : analysisEntry.pass1_complete = false) :
    analyzeCurrentPosition s =
      processStockfishQueue
        { s with
          stockfishQueue := s.stockfishQueue ++
            [fullGameJob (s.currentMoveIndex + 1).toNat analysisEntry] } := by
  have hlen : (s.currentMoveIndex + 1).toNat < s.moveAnalysisData.length :=
    (List.getElem?_eq_some_iff.1 hrec).1
  have hrange : ¬ (s.currentMoveIndex + 1 < 0 ∨
      s.currentMoveIndex + 1 ≥ (s.moveAnalysisData.length : Int)) := by omega
  unfold analyzeCurrentPosition
  simp only [hready, hflag, Bool.not_true, Bool.false_eq_true, if_false, hrange, hrec, hpend,
    Bool.not_false, if_true]
  rfl

/-- C18, counterexample. The engine is ready, the job for the initial position is
in flight, the user has played e2-e4 and views that move; record 1 lacks
pass 1. A single-position request in this state enqueues nothing: the state is
returned unchanged and the queue stays empty. -/
theorem request_dropped_while_busy :
    (runEvents initialState (sampleSession.take 4)).isStockfishReady = true ∧
    (runEvents initialState (sampleSession.take 4)).currentMoveIndex = 0 ∧
    ((runEvents initialState (sampleSession.take 4)).moveAnalysisData[1]?).map
      (fun r => r.pass1_complete) = some false ∧
    (runEvents initialState (sampleSession.take 4)).currentAnalysisJob = some sampleJob ∧
    (runEvents initialState (sampleSession.take 4)).stockfishQueue = [] ∧
    analyzeCurrentPosition (runEvents initialState (sampleSession.take 4)) =
      runEvents initialState (sampleSession.take 4) := by
  decide

/-- C18, amended. In a reachable state, a single-position request made while a
job is in flight is dropped (the state is unchanged). Made while the engine is
ready and no job is in flight (the queue is then empty), for a viewed record
lacking pass 1, it creates exactly one pass-1 job for that record (depth 12,
position `fen_after`) and dispatches it at once: that job is in flight, the
queue is empty, its four commands are sent, the store is untouched. -/
theorem analyzeCurrentPosition_serves_when_idle (s : ReviewState) (hreach : Reachable s) :
    (s.currentAnalysisJob ≠ none → analyzeCurrentPosition s = s) ∧
    (∀ analysisEntry : MoveAnalysis,
      s.isStockfishReady = true → s.currentAnalysisJob = none →
      0 ≤ s.currentMoveIndex + 1 →
      s.moveAnalysisData[(s.currentMoveIndex + 1).toNat]? = some analysisEntry →
      analysisEntry.pass1_complete = false →
      s.stockfishQueue = [] ∧
      (analyzeCurrentPosition s).currentAnalysisJob =
        some { analysisDataIndex := (s.currentMoveIndex + 1).toNat,
               fen := analysisEntry.fen_after, depth := 12, purpose := "eval_position",
               isPass1 := true } ∧
      (analyzeCurrentPosition s).stockfishQueue = [] ∧
      (analyzeCurrentPosition s).posted = s.posted ++
        [EngineCommand.stop, EngineCommand.ucinewgame,
         EngineCommand.positionFen analysisEntry.fen_after, EngineCommand.goDepth 12] ∧
      (analyzeCurrentPosition s).moveAnalysisData = s.moveAnalysisData) := by
  have hinv := sessionInvariant_of_reachable hreach
  constructor
  · intro hjob
    exact analyzeCurrentPosition_busy ((processing_iff_job hinv.1).2 hjob)
  · intro analysisEntry hready hidle hlow hrec hpend
    have hflag : s.isProcessingQueue = false := by
      rw [hinv.1.flag, hidle]
      rfl
    have hq : s.stockfishQueue = [] := hinv.2 hidle
    rw [analyzeCurrentPosition_enqueue hready hflag hlow hrec hpend]
    obtain ⟨h1, h2, _, h4⟩ := @processStockfishQueue_dispatch
      { s with
        stockfishQueue := s.stockfishQueue ++
          [fullGameJob (s.currentMoveIndex + 1).toNat analysisEntry] }
      (fullGameJob (s.currentMoveIndex + 1).toNat analysisEntry) [] hflag (by simp [hq])
    exact ⟨hq, h1, h2, h4, processStockfishQueue_data _⟩

theorem analyzeCurrentPosition_serves_when_idle_witness :
    (analyzeCurrentPosition (runEvents initialState (sampleSession.take 6))).currentAnalysisJob =
      some { analysisDataIndex := 1,
             fen := "rnbqkbnr/pppppppp/8/8/4P3/8/PPPP1PPP/RNBQKBNR b KQkq e3 0 1",
             depth := 12, purpose := "eval_position", isPass1 := true } := by
  have h := ((analyzeCurrentPosition_serves_when_idle
    (runEvents initialState (sampleSession.take 6))
    (reachable_runEvents _ initialState Reachable.initial)).2
    (freshRecord (some initialFen) "rnbqkbnr/pppppppp/8/8/4P3/8/PPPP1PPP/RNBQKBNR b KQkq e3 0 1"
      (some { san := "e4", uci := "e2e4" }))
    (by decide) (by decide) (by decide) (by decide) (by decide)).2.1
  rw [h]
  decide

/-- C19. In every reachable state every job, queued or in flight, is a pass-1
job. Hence no pass-2 job is queued or in flight while a record lacks
`pass1_complete`, and a pass-2 job would only ever be found for a record whose
`pass1_complete` is true. -/
theorem no_pass2_job_before_pass1 (s : ReviewState) (hreach : Reachable s) :
    (∀ j ∈ pipeline s, j.isPass1 = true) ∧
    ((∃ r ∈ s.moveAnalysisData, r.pass1_complete = false) →
      ∀ j ∈ pipeline s, j.isPass1 ≠ false) ∧
    (∀ j ∈ pipeline s, j.isPass1 = false →
      ∀ r : MoveAnalysis, s.moveAnalysisData[j.analysisDataIndex]? = some r →
        r.pass1_complete = true) := by
  have hpass := (sessionInvariant_of_reachable hreach).1.pass1
  refine ⟨hpass, ?_, ?_⟩
  · intro _ j hj hfalse
    rw [hpass j hj] at hfalse
    cases hfalse
  · intro j hj hfalse
    rw [hpass j hj] at hfalse
    cases hfalse

theorem no_pass2_job_before_pass1_witness :
    (pipeline (runEvents initialState sampleLoadedSession)).length = 2 ∧
    (∃ r ∈ (runEvents initialState sampleLoadedSession).moveAnalysisData,
      r.pass1_complete = false) ∧
    ∀ j ∈ pipeline (runEvents initialState sampleLoadedSession), j.isPass1 = true :=
  ⟨by decide, by decide,
    (no_pass2_job_before_pass1 (runEvents initialState sampleLoadedSession)
      (reachable_runEvents sampleLoadedSession initialState Reachable.initial)).1⟩


theorem processStockfishQueue_currentMoveIndex (s : ReviewState) :
    (processStockfishQueue s).currentMoveIndex = s.currentMoveIndex := by
  unfold processStockfishQueue
  cases s.stockfishQueue with
  | nil =>
    simp only []
    split <;> rfl
  | cons job rest =>
    simp only []
    split <;> rfl

theorem analyzeCurrentPosition_view (s : ReviewState) :
    (analyzeCurrentPosition s).fullGameHistory = s.fullGameHistory ∧
    (analyzeCurrentPosition s).currentMoveIndex = s.currentMoveIndex := by
  unfold analyzeCurrentPosition
  split
  · exact ⟨rfl, rfl⟩
  split
  · exact ⟨rfl, rfl⟩
  simp only []
  split
  · exact ⟨rfl, rfl⟩
  split
  · exact ⟨rfl, rfl⟩
  split
  · exact ⟨rfl, rfl⟩
  split
  · exact ⟨processStockfishQueue_history _, processStockfishQueue_currentMoveIndex _⟩
  · exact ⟨rfl, rfl⟩

theorem sliceTo_of_nonneg {α : Type} (xs : List α) (stop : Int) (h : 0 ≤ stop) :
    sliceTo xs stop = xs.take stop.toNat := by
  unfold sliceTo
  rw [if_neg (by omega)]

/-- The history, the store and the viewed index after a legal interactive move. -/
theorem makeInteractiveMove_store (s : ReviewState) (fromAlg toAlg : String)
    (promotionChoice : Option String) (fenBefore : String) (moveResult : ChessMove)
    (fenAfter : String) :
    (makeInteractiveMove s fromAlg toAlg promotionChoice fenBefore (some moveResult)
      fenAfter).fullGameHistory =
      (if s.currentMoveIndex < (s.fullGameHistory.length : Int) - 1 then
        sliceTo s.fullGameHistory (s.currentMoveIndex + 1) else s.fullGameHistory) ++
        [historyEntry moveResult fenBefore fenAfter] ∧
    (makeInteractiveMove s fromAlg toAlg promotionChoice fenBefore (some moveResult)
      fenAfter).moveAnalysisData =
      (if s.currentMoveIndex < (s.fullGameHistory.length : Int) - 1 then
        sliceTo s.moveAnalysisData (s.currentMoveIndex + 2) else s.moveAnalysisData) ++
        [freshRecord (some fenBefore) fenAfter
          (some { san := moveResult.san,
                  uci := fromAlg ++ toAlg ++ promotionChoice.getD "" })] ∧
    (makeInteractiveMove s fromAlg toAlg promotionChoice fenBefore (some moveResult)
      fenAfter).currentMoveIndex =
      (((makeInteractiveMove s fromAlg toAlg promotionChoice fenBefore (some moveResult)
        fenAfter).fullGameHistory.length : Nat) : Int) - 1 := by
  unfold makeInteractiveMove
  simp only []
  rw [analyzeCurrentPosition_data]
  obtain ⟨h1, h2⟩ := analyzeCurrentPosition_view
    { (if s.currentMoveIndex < (s.fullGameHistory.length : Int) - 1 then
        { s with
          fullGameHistory := sliceTo s.fullGameHistory (s.currentMoveIndex + 1)
          moveAnalysisData := sliceTo s.moveAnalysisData (s.currentMoveIndex + 2) }
       else s) with
      fullGameHistory :=
        (if s.currentMoveIndex < (s.fullGameHistory.length : Int) - 1 then
          { s with
            fullGameHistory := sliceTo s.fullGameHistory (s.currentMoveIndex + 1)
            moveAnalysisData := sliceTo s.moveAnalysisData (s.currentMoveIndex + 2) }
         else s).fullGameHistory ++ [historyEntry moveResult fenBefore fenAfter]
      moveAnalysisData :=
        (if s.currentMoveIndex < (s.fullGameHistory.length : Int) - 1 then
          { s with
            fullGameHistory := sliceTo s.fullGameHistory (s.currentMoveIndex + 1)
            moveAnalysisData := sliceTo s.moveAnalysisData (s.currentMoveIndex + 2) }
         else s).moveAnalysisData ++
          [freshRecord (some fenBefore) fenAfter
            (some { san := moveResult.san,
                    uci := fromAlg ++ toAlg ++ promotionChoice.getD "" })]
      currentMoveIndex :=
        (((if s.currentMoveIndex < (s.fullGameHistory.length : Int) - 1 then
          { s with
            fullGameHistory := sliceTo s.fullGameHistory (s.currentMoveIndex + 1)
            moveAnalysisData := sliceTo s.moveAnalysisData (s.currentMoveIndex + 2) }
         else s).fullGameHistory ++ [historyEntry moveResult fenBefore fenAfter]).length : Int)
          - 1 }
  rw [h1, h2]
  split <;> exact ⟨rfl, rfl, rfl⟩


/-- C14. A legal interactive move made while viewing move index `k` with
`-1 ≤ k < len(history) - 1` leaves the history equal to the first `k + 1` old
moves followed by the new move, and the store equal to the first `k + 2` old
records, unchanged, followed by one fresh record (no evaluation, best move, pv,
loss, classification or provisional field, depth 0, both pass flags false,
holding the positions before and after the move); the records beyond are
gone. -/
theorem makeInteractiveMove_truncates (s : ReviewState) (fromAlg toAlg : String)
    (promotionChoice : Option String) (fenBefore : String) (moveResult : ChessMove)
    (fenAfter : String)
    (hlow : -1 ≤ s.currentMoveIndex)
    (hk : s.currentMoveIndex < (s.fullGameHistory.length : Int) - 1) :
    (makeInteractiveMove s fromAlg toAlg promotionChoice fenBefore (some moveResult)
      fenAfter).fullGameHistory =
      s.fullGameHistory.take (s.currentMoveIndex + 1).toNat ++
        [historyEntry moveResult fenBefore fenAfter] ∧
    ∃ fresh : MoveAnalysis,
      (makeInteractiveMove s fromAlg toAlg promotionChoice fenBefore (some moveResult)
        fenAfter).moveAnalysisData =
        s.moveAnalysisData.take (s.currentMoveIndex + 2).toNat ++ [fresh] ∧
      fresh.eval_before = none ∧ fresh.best_move_before = none ∧ fresh.pv = none ∧
      fresh.analysis_depth = 0 ∧ fresh.pass1_complete = false ∧
      fresh.pass2_complete = false ∧ fresh.cpl = none ∧ fresh.classification = none ∧
      fresh.eval_before_temp = none ∧ fresh.best_move_before_temp = none ∧
      fresh.pv_temp = none ∧
      fresh.fen_before = some fenBefore ∧ fresh.fen_after = fenAfter ∧
      (makeInteractiveMove s fromAlg toAlg promotionChoice fenBefore (some moveResult)
        fenAfter).moveAnalysisData.length =
        min (s.currentMoveIndex + 2).toNat s.moveAnalysisData.length + 1 := by
  obtain ⟨h1, h2, _⟩ := makeInteractiveMove_store s fromAlg toAlg promotionChoice fenBefore
    moveResult fenAfter
  rw [if_pos hk, sliceTo_of_nonneg _ _ (by omega)] at h1 h2
  refine ⟨h1, _, h2, rfl, rfl, rfl, rfl, rfl, rfl, rfl, rfl, rfl, rfl, rfl, rfl, rfl, ?_⟩
  rw [h2, List.length_append, List.length_take, List.length_singleton]

theorem makeInteractiveMove_truncates_witness :
    (runEvents initialState sampleTruncatedSession).fullGameHistory =
      [historyEntry
        { color := Color.w, fromSq := "d2", toSq := "d4", promotion := none, san := "d4" }
        initialFen "rnbqkbnr/pppppppp/8/8/3P4/8/PPP1PPPP/RNBQKBNR b KQkq d3 0 1"] ∧
    ∃ fresh : MoveAnalysis,
      (runEvents initialState sampleTruncatedSession).moveAnalysisData =
        (runEvents initialState (sampleTruncatedSession.take 7)).moveAnalysisData.take 1 ++
          [fresh] := by
  obtain ⟨h1, fresh, h2, _⟩ := makeInteractiveMove_truncates
    (runEvents initialState (sampleTruncatedSession.take 7)) "d2" "d4" none initialFen
    { color := Color.w, fromSq := "d2", toSq := "d4", promotion := none, san := "d4" }
    "rnbqkbnr/pppppppp/8/8/3P4/8/PPP1PPPP/RNBQKBNR b KQkq d3 0 1" (by decide) (by decide)
  have hs : runEvents initialState sampleTruncatedSession =
      makeInteractiveMove (runEvents initialState (sampleTruncatedSession.take 7)) "d2" "d4"
        none initialFen
        (some { color := Color.w, fromSq := "d2", toSq := "d4", promotion := none, san := "d4" })
        "rnbqkbnr/pppppppp/8/8/3P4/8/PPP1PPPP/RNBQKBNR b KQkq d3 0 1" := rfl
  have ht : ((runEvents initialState (sampleTruncatedSession.take 7)).currentMoveIndex
      + 2).toNat = 1 := by decide
  rw [ht] at h2
  refine ⟨?_, fresh, ?_⟩
  · rw [hs, h1]
    decide
  · rw [hs, h2]

/-! ## Job indices and the history -/

theorem reachable_of_keepingRecords {s : ReviewState} (h : ReachableKeepingRecords s) :
    Reachable s := by
  induction h with
  | initial => exact Reachable.initial
  | next e _ _ ih => exact Reachable.next e ih

theorem handle_data_length (s : ReviewState) (m : String) :
    (handleStockfishMessage_Review s m).moveAnalysisData.length = s.moveAnalysisData.length := by
  by_cases h1 : m = "uciok"
  · unfold handleStockfishMessage_Review
    rw [if_pos h1]
  by_cases h2 : m = "readyok"
  · unfold handleStockfishMessage_Review
    rw [if_neg h1, if_pos h2]
    split
    · rw [processStockfishQueue_data]
    · rfl
  cases hjob : s.currentAnalysisJob with
  | none => rw [handle_no_job hjob h1 h2]
  | some job =>
    by_cases hinfo : startsWith m "info" = true
    · cases hrec : s.moveAnalysisData[job.analysisDataIndex]? with
      | none => rw [handle_info_none hjob hinfo hrec]
      | some d =>
        rw [handle_info_some hjob hinfo hrec]
        exact List.length_set _ _ _
    by_cases hbm : startsWith m "bestmove" = true
    · cases hrec : s.moveAnalysisData[job.analysisDataIndex]? with
      | none => rw [handle_bestmove_none hjob hbm hrec, processStockfishQueue_data]
      | some d =>
        rw [handle_bestmove_data hjob hbm hrec]
        split
        · cases hc : classifyMove s.fullGameHistory
            (s.moveAnalysisData.set job.analysisDataIndex
              (commitRecord d job none (parseFinalBestMove m)))
            ((job.analysisDataIndex : Int) - 1) with
          | none => exact List.length_set _ _ _
          | some data' =>
            rw [Option.getD_some, (classifyMove_frame hc).1]
            exact List.length_set _ _ _
        · exact List.length_set _ _ _
    · rw [handle_other h1 h2 (by simpa using hinfo) (by simpa using hbm)]

theorem handle_view (s : ReviewState) (m : String) :
    (handleStockfishMessage_Review s m).fullGameHistory = s.fullGameHistory ∧
    (handleStockfishMessage_Review s m).currentMoveIndex = s.currentMoveIndex := by
  unfold handleStockfishMessage_Review
  split
  · exact ⟨rfl, rfl⟩
  split
  · split
    · exact ⟨processStockfishQueue_history _, processStockfishQueue_currentMoveIndex _⟩
    · exact ⟨rfl, rfl⟩
  split
  · exact ⟨rfl, rfl⟩
  split
  · split <;> exact ⟨rfl, rfl⟩
  split
  · simp only []
    split
    · exact ⟨processStockfishQueue_history _, processStockfishQueue_currentMoveIndex _⟩
    · split
      · split
        · exact ⟨rfl, rfl⟩
        · exact ⟨processStockfishQueue_history _, processStockfishQueue_currentMoveIndex _⟩
      · exact ⟨processStockfishQueue_history _, processStockfishQueue_currentMoveIndex _⟩
  · exact ⟨rfl, rfl⟩

theorem pipeline_handle_subset {s : ReviewState} (hp : Pumped s) (m : String) :
    ∀ j ∈ pipeline (handleStockfishMessage_Review s m), j ∈ pipeline s := by
  intro j hj
  cases hbm : startsWith m "bestmove" with
  | false =>
    rw [(handle_nonterminal_pumped hp m hbm).1] at hj
    exact hj
  | true =>
    cases hjob : s.currentAnalysisJob with
    | none =>
      obtain ⟨h1, h2, _, _⟩ := handle_idle hp hjob m
      simp [pipeline, h1, h2] at hj
    | some job =>
      rw [(handle_terminal_busy hjob hbm).1] at hj
      simp only [pipeline, hjob, Option.toList_some, List.singleton_append, List.mem_cons]
      right
      exact hj


theorem pgn_lengths (steps : List PgnStep) :
    (pgnRecords steps).length = (pgnHistory steps).length := by
  induction steps with
  | nil => rfl
  | cons step rest ih =>
    unfold pgnRecords pgnHistory
    cases step.fen_after with
    | none => exact ih
    | some fen => simp [ih]

theorem startFullGameAnalysis_view (s : ReviewState) :
    (startFullGameAnalysis s).fullGameHistory = s.fullGameHistory ∧
    (startFullGameAnalysis s).currentMoveIndex = s.currentMoveIndex := by
  unfold startFullGameAnalysis
  split
  · exact ⟨rfl, rfl⟩
  split
  · exact ⟨rfl, rfl⟩
  split
  · exact ⟨processStockfishQueue_history _, processStockfishQueue_currentMoveIndex _⟩
  · exact ⟨rfl, rfl⟩

theorem targetsExist_analyzeCurrentPosition {s : ReviewState}
    (hflag : s.isProcessingQueue = s.currentAnalysisJob.isSome) (h : TargetsExist s) :
    TargetsExist (analyzeCurrentPosition s) := by
  obtain ⟨hv1, hv2⟩ := analyzeCurrentPosition_view s
  refine ⟨?_, ?_, ?_⟩
  · rw [analyzeCurrentPosition_data]
    intro j hj
    by_cases hready : s.isStockfishReady = true
    · cases hbusy : s.isProcessingQueue with
      | true =>
        rw [analyzeCurrentPosition_busy hbusy] at hj
        exact h.1 j hj
      | false =>
        have hidle : s.currentAnalysisJob = none := by
          rw [hbusy] at hflag
          cases hc : s.currentAnalysisJob with
          | none => rfl
          | some job => rw [hc] at hflag; cases hflag
        by_cases hrange : s.currentMoveIndex + 1 < 0 ∨
            s.currentMoveIndex + 1 ≥ (s.moveAnalysisData.length : Int)
        · have : analyzeCurrentPosition s = s := by
            unfold analyzeCurrentPosition
            simp [hready, hbusy, hrange]
          rw [this] at hj
          exact h.1 j hj
        · have hlen : (s.currentMoveIndex + 1).toNat < s.moveAnalysisData.length := by omega
          have hrec : s.moveAnalysisData[(s.currentMoveIndex + 1).toNat]? =
              some s.moveAnalysisData[(s.currentMoveIndex + 1).toNat] :=
            List.getElem?_eq_getElem hlen
          cases hpend : (s.moveAnalysisData[(s.currentMoveIndex + 1).toNat]).pass1_complete with
          | true =>
            have : analyzeCurrentPosition s = s := by
              unfold analyzeCurrentPosition
              simp [hready, hbusy, hrange, hrec, hpend]
            rw [this] at hj
            exact h.1 j hj
          | false =>
            rw [analyzeCurrentPosition_enqueue hready hbusy (by omega) hrec hpend] at hj
            have hpipe := (@pump_from_idle
              { s with
                stockfishQueue := s.stockfishQueue ++
                  [fullGameJob (s.currentMoveIndex + 1).toNat
                    s.moveAnalysisData[(s.currentMoveIndex + 1).toNat]] } hidle hbusy).1
            rw [hpipe] at hj
            rcases List.mem_append.1 hj with hq | hnew
            · exact h.1 j (by simp [pipeline, hq])
            · rw [List.mem_singleton] at hnew
              rw [hnew]
              exact hlen
    · have : analyzeCurrentPosition s = s := by
        unfold analyzeCurrentPosition
        simp [hready]
      rw [this] at hj
      exact h.1 j hj
  · rw [analyzeCurrentPosition_data, hv1]
    exact h.2.1
  · rw [hv2]
    exact h.2.2


theorem targetsExist_startFullGameAnalysis {s : ReviewState} (hinv : SessionInvariant s)
    (h : TargetsExist s) : TargetsExist (startFullGameAnalysis s) := by
  obtain ⟨hv1, hv2⟩ := startFullGameAnalysis_view s
  refine ⟨?_, ?_, ?_⟩
  · rw [startFullGameAnalysis_data]
    intro j hj
    by_cases hblocked : s.isProcessingQueue = true ∨ s.stockfishQueue ≠ []
    · rw [startFullGameAnalysis_blocked hblocked] at hj
      exact h.1 j hj
    · have hflag : s.isProcessingQueue = false := by
        cases hb : s.isProcessingQueue with
        | false => rfl
        | true => exact absurd (Or.inl hb) hblocked
      have hq : s.stockfishQueue = [] := by
        cases hc : s.stockfishQueue with
        | nil => rfl
        | cons a b => exact absurd (Or.inr (by rw [hc]; simp)) hblocked
      have hidle := idle_of_not_processing hinv.1 hflag
      by_cases hready : s.isStockfishReady = true
      · rw [startFullGameAnalysis_idle hready hflag hq] at hj
        have hpipe := (@pump_from_idle
          { s with stockfishQueue := pass1JobsFrom 0 s.moveAnalysisData } hidle hflag).1
        rw [hpipe] at hj
        obtain ⟨_, _, r, hr, _⟩ := mem_pass1JobsFrom hj
        simp only [Nat.sub_zero] at hr
        exact (List.getElem?_eq_some_iff.1 hr).1
      · have : startFullGameAnalysis s = s := by
          unfold startFullGameAnalysis
          simp [hready]
        rw [this] at hj
        exact h.1 j hj
  · rw [startFullGameAnalysis_data, hv1]
    exact h.2.1
  · rw [hv2]
    exact h.2.2

theorem length_sliceTo_bound {α β : Type} (xs : List α) (ys : List β) (k : Int)
    (hk : -1 ≤ k) (hlen : xs.length ≤ ys.length + 1) :
    (sliceTo xs (k + 2)).length ≤ (sliceTo ys (k + 1)).length + 1 := by
  rw [sliceTo_of_nonneg _ _ (by omega), sliceTo_of_nonneg _ _ (by omega), List.length_take,
    List.length_take]
  omega

theorem targetsExist_makeInteractiveMove {s : ReviewState} (hinv : SessionInvariant s)
    (h : TargetsExist s) (fromAlg toAlg : String) (promotionChoice : Option String)
    (fenBefore : String) (moveResult : Option ChessMove) (fenAfter : String)
    (hkeep : keepsRecords s
      (Event.makeInteractiveMove fromAlg toAlg promotionChoice fenBefore moveResult fenAfter)) :
    TargetsExist
      (makeInteractiveMove s fromAlg toAlg promotionChoice fenBefore moveResult fenAfter) := by
  cases moveResult with
  | none => exact h
  | some moveResult =>
    have hkeep' : ¬ (s.currentMoveIndex < (s.fullGameHistory.length : Int) - 1) ∨
        pipeline s = [] := hkeep
    unfold makeInteractiveMove
    simp only []
    apply targetsExist_analyzeCurrentPosition
    · split <;> exact hinv.1.flag
    · by_cases hk : s.currentMoveIndex < (s.fullGameHistory.length : Int) - 1
      · have hempty : pipeline s = [] := by
          rcases hkeep' with h1 | h1
          · exact absurd hk h1
          · exact h1
        rw [if_pos hk]
        refine ⟨?_, ?_, ?_⟩
        · intro j hj
          have hj' : j ∈ pipeline s := hj
          rw [hempty] at hj'
          cases hj'
        · simp only [List.length_append, List.length_singleton]
          have := length_sliceTo_bound s.moveAnalysisData s.fullGameHistory s.currentMoveIndex
            h.2.2 h.2.1
          omega
        · simp only [List.length_append, List.length_singleton]
          push_cast
          omega
      · rw [if_neg hk]
        refine ⟨?_, ?_, ?_⟩
        · intro j hj
          have hj' : j ∈ pipeline s := hj
          have := h.1 j hj'
          simp only [List.length_append, List.length_singleton]
          omega
        · simp only [List.length_append, List.length_singleton]
          have := h.2.1
          omega
        · simp only [List.length_append, List.length_singleton]
          push_cast
          omega

theorem targetsExist_step {s : ReviewState} (hinv : SessionInvariant s) (h : TargetsExist s)
    (e : Event) (hkeep : keepsRecords s e) : TargetsExist (step s e) := by
  cases e with
  | resetAnalysisState =>
    refine ⟨?_, ?_, ?_⟩
    · intro j hj
      cases hj
    · exact Nat.le_refl _
    · exact Int.le_refl _
  | loadGame parsed =>
    have hempty : pipeline s = [] := hkeep
    show TargetsExist (loadGameAndPrepareHistory s parsed).1
    have hfail : TargetsExist { s with fullGameHistory := [], moveAnalysisData := [] } := by
      refine ⟨?_, Nat.zero_le _, h.2.2⟩
      intro j hj
      have hj' : j ∈ pipeline s := hj
      rw [hempty] at hj'
      cases hj'
    unfold loadGameAndPrepareHistory
    cases parsed with
    | none => exact hfail
    | some steps =>
      cases steps with
      | nil => exact hfail
      | cons step rest =>
        refine ⟨?_, ?_, h.2.2⟩
        · intro j hj
          have hj' : j ∈ pipeline s := hj
          rw [hempty] at hj'
          cases hj'
        · simp only [List.length_cons]
          rw [pgn_lengths]
  | startFullGameAnalysis => exact targetsExist_startFullGameAnalysis hinv h
  | analyzeCurrentPosition => exact targetsExist_analyzeCurrentPosition hinv.1.flag h
  | goToMove index =>
    show TargetsExist (goToMove s index)
    unfold goToMove
    simp only []
    split
    · exact h
    · exact ⟨h.1, h.2.1, le_max_left _ _⟩
  | makeInteractiveMove fromAlg toAlg promotionChoice fenBefore moveResult fenAfter =>
    exact targetsExist_makeInteractiveMove hinv h _ _ _ _ _ _ hkeep
  | engineMessage m =>
    obtain ⟨hv1, hv2⟩ := handle_view s m
    refine ⟨?_, ?_, ?_⟩
    · intro j hj
      have hlen : (handleStockfishMessage_Review s m).moveAnalysisData.length =
          s.moveAnalysisData.length := handle_data_length s m
      have hj' : j ∈ pipeline (handleStockfishMessage_Review s m) := hj
      have := h.1 j (pipeline_handle_subset (pumped_of_sessionInvariant hinv) m j hj')
      show j.analysisDataIndex < (handleStockfishMessage_Review s m).moveAnalysisData.length
      rw [hlen]
      exact this
    · show (handleStockfishMessage_Review s m).moveAnalysisData.length ≤
        (handleStockfishMessage_Review s m).fullGameHistory.length + 1
      rw [handle_data_length, hv1]
      exact h.2.1
    · show -1 ≤ (handleStockfishMessage_Review s m).currentMoveIndex
      rw [hv2]
      exact h.2.2
  | engineError => exact h

theorem targetsExist_of_keepingRecords {s : ReviewState} (h : ReachableKeepingRecords s) :
    TargetsExist s := by
  induction h with
  | initial =>
    refine ⟨?_, Nat.zero_le _, Int.le_refl _⟩
    intro j hj
    cases hj
  | next e hprev hkeep ih =>
    exact targetsExist_step (sessionInvariant_of_reachable (reachable_of_keepingRecords hprev))
      ih e hkeep

/-- C15 (counterexample): the claim that every job index lies within
[0, len(history)] in every reachable state fails after a truncation. In the
reachable session sampleTruncatedSession the user plays a move from the start
position while the third job of a full-game pass (record index 2) is in
flight: the history shrinks to one move, the store to two records, and the
job in flight keeps index 2, which is larger than the history length 1. -/
theorem truncation_leaves_stale_job_index :
    Reachable (runEvents initialState sampleTruncatedSession) ∧
    (runEvents initialState sampleTruncatedSession).fullGameHistory.length = 1 ∧
    ∃ j ∈ pipeline (runEvents initialState sampleTruncatedSession),
      j.analysisDataIndex = 2 ∧
      ¬ (j.analysisDataIndex ≤
          (runEvents initialState sampleTruncatedSession).fullGameHistory.length) := by
  refine ⟨reachable_runEvents sampleTruncatedSession initialState Reachable.initial,
    by decide, ?_⟩
  refine ⟨{ analysisDataIndex := 2,
            fen := "rnbqkbnr/pppp1ppp/8/4p3/4P3/8/PPPP1PPP/RNBQKBNR w KQkq e6 0 2",
            depth := 12, purpose := "eval_position", isPass1 := true }, by decide, rfl, ?_⟩
  decide

/-- C15 (amended): in every state reached without a truncating interactive
move and without a game load while a job is queued or in flight, the record
index of every queued job and of the job in flight lies within
[0, len(history)] and is the index of an existing record. -/
theorem job_index_within_history (s : ReviewState) (h : ReachableKeepingRecords s) :
    ∀ j ∈ pipeline s,
      0 ≤ j.analysisDataIndex ∧ j.analysisDataIndex ≤ s.fullGameHistory.length ∧
      j.analysisDataIndex < s.moveAnalysisData.length := by
  intro j hj
  obtain ⟨h1, h2, _⟩ := targetsExist_of_keepingRecords h
  have := h1 j hj
  exact ⟨Nat.zero_le _, by omega, this⟩

/-- The amended C15 on a loaded one-move game whose full-game pass has just
started: the pending jobs have indices 0 and 1, the history has one move. -/
theorem job_index_within_history_witness :
    (pipeline (runEvents initialState sampleLoadedSession)).map
      (fun j => j.analysisDataIndex) = [0, 1] ∧
    (runEvents initialState sampleLoadedSession).fullGameHistory.length = 1 ∧
    ∀ j ∈ pipeline (runEvents initialState sampleLoadedSession),
      0 ≤ j.analysisDataIndex ∧
      j.analysisDataIndex ≤ (runEvents initialState sampleLoadedSession).fullGameHistory.length ∧
      j.analysisDataIndex <
        (runEvents initialState sampleLoadedSession).moveAnalysisData.length :=
  ⟨by decide, by decide,
    job_index_within_history (runEvents initialState sampleLoadedSession)
      (ReachableKeepingRecords.next Event.startFullGameAnalysis
        (ReachableKeepingRecords.next
          (Event.loadGame (some
            [{ move := { color := Color.w, fromSq := "e2", toSq := "e4", promotion := none,
                         san := "e4" },
               fen_before := initialFen,
               fen_after :=
                 some "rnbqkbnr/pppppppp/8/8/4P3/8/PPPP1PPP/RNBQKBNR b KQkq e3 0 1" }]))
          (ReachableKeepingRecords.next (Event.engineMessage "readyok")
            (ReachableKeepingRecords.next Event.resetAnalysisState
              ReachableKeepingRecords.initial trivial)
            trivial)
          (by
            show pipeline _ = []
            decide))
        trivial)⟩

/-! ## The viewed index -/

/-- The viewed index never drops below `-1`: the lower bound assumed of the
viewed index when an interactive move is played holds in every reachable
state. -/
theorem currentMoveIndex_ge_of_reachable {s : ReviewState} (h : Reachable s) :
    -1 ≤ s.currentMoveIndex := by
  induction h with
  | initial => decide
  | @next s e _ ih =>
    cases e with
    | resetAnalysisState => show (-1 : Int) ≤ -1; exact Int.le_refl _
    | loadGame parsed =>
      show -1 ≤ (loadGameAndPrepareHistory s parsed).1.currentMoveIndex
      unfold loadGameAndPrepareHistory
      split <;> exact ih
    | startFullGameAnalysis =>
      show -1 ≤ (startFullGameAnalysis s).currentMoveIndex
      rw [(startFullGameAnalysis_view s).2]; exact ih
    | analyzeCurrentPosition =>
      show -1 ≤ (analyzeCurrentPosition s).currentMoveIndex
      rw [(analyzeCurrentPosition_view s).2]; exact ih
    | goToMove index =>
      show -1 ≤ (goToMove s index).currentMoveIndex
      unfold goToMove
      simp only
      split
      · exact ih
      · exact le_max_left _ _
    | makeInteractiveMove fromAlg toAlg promotionChoice fenBefore moveResult fenAfter =>
      show -1 ≤ (makeInteractiveMove s fromAlg toAlg promotionChoice fenBefore moveResult
        fenAfter).currentMoveIndex
      cases moveResult with
      | none => exact ih
      | some mv =>
        unfold makeInteractiveMove
        simp only
        rw [(analyzeCurrentPosition_view _).2]
        show (-1 : Int) ≤ ((_ : List HistoryMove).length : Int) - 1
        omega
    | engineMessage message =>
      show -1 ≤ (handleStockfishMessage_Review s message).currentMoveIndex
      rw [(handle_view s message).2]; exact ih
    | engineError => exact ih

/-! ## The engine that never becomes ready -/

theorem analyzeCurrentPosition_not_ready {s : ReviewState} (h : s.isStockfishReady = false) :
    analyzeCurrentPosition s = s := by
  unfold analyzeCurrentPosition
  simp [h]

theorem startFullGameAnalysis_not_ready {s : ReviewState} (h : s.isStockfishReady = false) :
    startFullGameAnalysis s = s := by
  unfold startFullGameAnalysis
  simp [h]

theorem engineUnavailable_step {s : ReviewState} (h : EngineUnavailable s) (e : Event)
    (he : isReadyOk e = false) : EngineUnavailable (step s e) := by
  obtain ⟨hr, hq, hj, hf, hp⟩ := h
  cases e with
  | resetAnalysisState =>
    refine ⟨hr, rfl, rfl, rfl, ?_⟩
    intro c hc
    show c = EngineCommand.stop ∨ c = EngineCommand.isready
    have hc2 : c ∈ s.posted ++ [EngineCommand.stop] := hc
    rcases List.mem_append.1 hc2 with h1 | h1
    · exact hp c h1
    · left
      simpa using h1
  | loadGame parsed =>
    show EngineUnavailable (loadGameAndPrepareHistory s parsed).1
    unfold loadGameAndPrepareHistory
    split <;> exact ⟨hr, hq, hj, hf, hp⟩
  | startFullGameAnalysis =>
    show EngineUnavailable (startFullGameAnalysis s)
    rw [startFullGameAnalysis_not_ready hr]
    exact ⟨hr, hq, hj, hf, hp⟩
  | analyzeCurrentPosition =>
    show EngineUnavailable (analyzeCurrentPosition s)
    rw [analyzeCurrentPosition_not_ready hr]
    exact ⟨hr, hq, hj, hf, hp⟩
  | goToMove index =>
    show EngineUnavailable (goToMove s index)
    unfold goToMove
    simp only
    split <;> exact ⟨hr, hq, hj, hf, hp⟩
  | makeInteractiveMove fromAlg toAlg promotionChoice fenBefore moveResult fenAfter =>
    show EngineUnavailable (makeInteractiveMove s fromAlg toAlg promotionChoice fenBefore
      moveResult fenAfter)
    cases moveResult with
    | none => exact ⟨hr, hq, hj, hf, hp⟩
    | some mv =>
      unfold makeInteractiveMove
      simp only
      rw [analyzeCurrentPosition_not_ready]
      · split <;> exact ⟨hr, hq, hj, hf, hp⟩
      · split <;> exact hr
  | engineMessage message =>
    show EngineUnavailable (handleStockfishMessage_Review s message)
    have hne : message ≠ "readyok" := by
      intro heq
      rw [heq] at he
      exact absurd he (by decide)
    unfold handleStockfishMessage_Review
    by_cases hu : message = "uciok"
    · rw [if_pos hu]
      refine ⟨hr, hq, hj, hf, ?_⟩
      intro c hc
      have hc2 : c ∈ s.posted ++ [EngineCommand.isready] := hc
      rcases List.mem_append.1 hc2 with h1 | h1
      · exact hp c h1
      · right
        simpa using h1
    · rw [if_neg hu, if_neg hne, hj]
      exact ⟨hr, hq, hj, hf, hp⟩
  | engineError => exact ⟨rfl, hq, hj, hf, hp⟩

theorem engineUnavailable_of_reachable {s : ReviewState} (h : ReachableWithoutReadyok s) :
    EngineUnavailable s := by
  induction h with
  | initial =>
    refine ⟨rfl, rfl, rfl, rfl, ?_⟩
    intro c hc
    cases hc
  | next e _ he ih => exact engineUnavailable_step ih e he

theorem reachableWithoutReadyok_runEvents (events : List Event) :
    ∀ s : ReviewState, ReachableWithoutReadyok s → (∀ e ∈ events, isReadyOk e = false) →
      ReachableWithoutReadyok (runEvents s events) := by
  induction events with
  | nil => intro s hs _; exact hs
  | cons e rest ih =>
    intro s hs hall
    exact ih (step s e) (ReachableWithoutReadyok.next e hs (hall e (List.mem_cons_self _ _)))
      (fun e2 h2 => hall e2 (List.mem_cons_of_mem _ h2))

/-- C21 (counterexample): the claim that every enqueue request is still accepted
into the queue while the worker has never reported `readyok` fails. A one-move
game is loaded on a page whose engine has not answered; both records lack
pass 1, yet neither `startFullGameAnalysis` nor `analyzeCurrentPosition` puts
a job into the queue. -/
theorem request_refused_before_readyok :
    ReachableWithoutReadyok (runEvents initialState sampleUnreadySession) ∧
    (runEvents initialState sampleUnreadySession).moveAnalysisData.length = 2 ∧
    (∀ r ∈ (runEvents initialState sampleUnreadySession).moveAnalysisData,
      r.pass1_complete = false) ∧
    (startFullGameAnalysis (runEvents initialState sampleUnreadySession)).stockfishQueue = [] ∧
    (analyzeCurrentPosition (runEvents initialState sampleUnreadySession)).stockfishQueue = [] := by
  refine ⟨reachableWithoutReadyok_runEvents _ _ ReachableWithoutReadyok.initial (by decide),
    by decide, by decide, by decide, by decide⟩

/-- C21 (amended): in every state reachable without a `readyok` message the
engine is not ready, the queue is empty, no job is in flight, no position or
search command has been sent, and an enqueue request, full-game or
single-position, is refused: it returns the state unchanged, so that no job is
ever queued, dequeued or dispatched. -/
theorem queue_idle_without_readyok (s : ReviewState) (h : ReachableWithoutReadyok s) :
    s.isStockfishReady = false ∧ s.stockfishQueue = [] ∧ s.currentAnalysisJob = none ∧
    s.isProcessingQueue = false ∧
    (∀ c ∈ s.posted, c = EngineCommand.stop ∨ c = EngineCommand.isready) ∧
    startFullGameAnalysis s = s ∧ analyzeCurrentPosition s = s := by
  obtain ⟨hr, hq, hj, hf, hp⟩ := engineUnavailable_of_reachable h
  exact ⟨hr, hq, hj, hf, hp, startFullGameAnalysis_not_ready hr,
    analyzeCurrentPosition_not_ready hr⟩

/-- The amended C21 on the page with a loaded game and a silent engine. -/
theorem queue_idle_without_readyok_witness :
    (runEvents initialState sampleUnreadySession).isStockfishReady = false ∧
    (runEvents initialState sampleUnreadySession).stockfishQueue = [] ∧
    (runEvents initialState sampleUnreadySession).currentAnalysisJob = none ∧
    (runEvents initialState sampleUnreadySession).isProcessingQueue = false ∧
    (∀ c ∈ (runEvents initialState sampleUnreadySession).posted,
      c = EngineCommand.stop ∨ c = EngineCommand.isready) ∧
    startFullGameAnalysis (runEvents initialState sampleUnreadySession) =
      runEvents initialState sampleUnreadySession ∧
    analyzeCurrentPosition (runEvents initialState sampleUnreadySession) =
      runEvents initialState sampleUnreadySession :=
  queue_idle_without_readyok (runEvents initialState sampleUnreadySession)
    (reachableWithoutReadyok_runEvents sampleUnreadySession initialState
      ReachableWithoutReadyok.initial (by decide))

/-! ## Accuracy of a single move -/

theorem calculateSingleMoveAccuracy_exp (L : ℝ) :
    calculateSingleMoveAccuracy Real.exp (some L) = some (100 * Real.exp (-(max 0 L) / 300)) := by
  have hle : Real.exp (-(max 0 L) / 300) ≤ 1 := by
    rw [Real.exp_le_one_iff]
    have : 0 ≤ max 0 L := le_max_left _ _
    have h300 : (0 : ℝ) < 300 := by norm_num
    exact div_nonpos_of_nonpos_of_nonneg (by linarith) h300.le
  have hpos : 0 < Real.exp (-(max 0 L) / 300) := Real.exp_pos _
  show some (max 0 (min 100 (100 * Real.exp (-(max 0 L) / 300)))) = _
  rw [min_eq_right (by linarith), max_eq_right (by positivity)]

/-- C22. Read over the real numbers with `Math.exp` the exponential function,
`calculateSingleMoveAccuracy(L)` is `100 * exp(-max(0, L) / 300)` clamped to
`[0, 100]` for every numeric loss `L`; the result lies in `[0, 100]`, is exactly
`100` for `L ≤ 0`, does not increase when `L` grows, and is `null` for a
missing loss. -/
theorem calculateSingleMoveAccuracy_clamped (L : ℝ) :
    calculateSingleMoveAccuracy Real.exp (some L) =
      some (max 0 (min 100 (100 * Real.exp (-(max 0 L) / 300)))) ∧
    (∃ a, calculateSingleMoveAccuracy Real.exp (some L) = some a ∧ 0 ≤ a ∧ a ≤ 100) ∧
    (L ≤ 0 → calculateSingleMoveAccuracy Real.exp (some L) = some 100) ∧
    (∀ L2 a a2 : ℝ, L ≤ L2 → calculateSingleMoveAccuracy Real.exp (some L) = some a →
      calculateSingleMoveAccuracy Real.exp (some L2) = some a2 → a2 ≤ a) ∧
    calculateSingleMoveAccuracy Real.exp (none : Option ℝ) = none := by
  refine ⟨rfl, ⟨_, rfl, le_max_left _ _, max_le (by norm_num) (min_le_left _ _)⟩, ?_, ?_, rfl⟩
  · intro hL
    rw [calculateSingleMoveAccuracy_exp, max_eq_left hL]
    simp
  · intro L2 a a2 hle ha ha2
    rw [calculateSingleMoveAccuracy_exp] at ha ha2
    cases ha
    cases ha2
    have hmax : max 0 L ≤ max 0 L2 := max_le_max (le_refl _) hle
    have : Real.exp (-(max 0 L2) / 300) ≤ Real.exp (-(max 0 L) / 300) := by
      rw [Real.exp_le_exp]
      have h300 : (0 : ℝ) < 300 := by norm_num
      exact div_le_div_of_nonneg_right (by linarith) h300.le
    linarith

/-- C22 at a negative loss and at the pair of losses `-5 ≤ 300`. -/
theorem calculateSingleMoveAccuracy_clamped_witness :
    calculateSingleMoveAccuracy Real.exp (some (-5 : ℝ)) = some 100 ∧
    (∀ a2 : ℝ, calculateSingleMoveAccuracy Real.exp (some (300 : ℝ)) = some a2 → a2 ≤ 100) :=
  ⟨(calculateSingleMoveAccuracy_clamped (-5)).2.2.1 (by norm_num),
   fun a2 h2 => (calculateSingleMoveAccuracy_clamped (-5)).2.2.2.1 300 100 a2 (by norm_num)
     ((calculateSingleMoveAccuracy_clamped (-5)).2.2.1 (by norm_num)) h2⟩

/-- C23. The reference values: loss `0` gives `100`; loss `300` gives `100 / e`,
which is within `0.05` of `36.8`; loss `3000` gives `100 * exp(-10)`, which is
below `0.01` and not below `0`. -/
theorem calculateSingleMoveAccuracy_reference_values :
    calculateSingleMoveAccuracy Real.exp (some (0 : ℝ)) = some 100 ∧
    calculateSingleMoveAccuracy Real.exp (some (300 : ℝ)) = some (100 / Real.exp 1) ∧
    |100 / Real.exp 1 - 36.8| < 0.05 ∧
    calculateSingleMoveAccuracy Real.exp (some (3000 : ℝ)) = some (100 * Real.exp (-10)) ∧
    100 * Real.exp (-10) < 0.01 ∧ 0 ≤ 100 * Real.exp (-10) := by
  have hgt := Real.exp_one_gt_d9
  have hlt := Real.exp_one_lt_d9
  have hpos : 0 < Real.exp 1 := Real.exp_pos 1
  refine ⟨?_, ?_, ?_, ?_, ?_, by positivity⟩
  · rw [calculateSingleMoveAccuracy_exp]
    simp
  · rw [calculateSingleMoveAccuracy_exp]
    have h : -(max 0 (300 : ℝ)) / 300 = -1 := by
      rw [max_eq_right (by norm_num)]
      norm_num
    rw [h, Real.exp_neg]
    rfl
  · rw [abs_lt]
    constructor
    · rw [lt_sub_iff_add_lt, lt_div_iff₀ hpos]
      nlinarith
    · rw [sub_lt_iff_lt_add, div_lt_iff₀ hpos]
      nlinarith
  · rw [calculateSingleMoveAccuracy_exp]
    have h : -(max 0 (3000 : ℝ)) / 300 = -10 := by
      rw [max_eq_right (by norm_num)]
      norm_num
    rw [h]
  · have h10 : Real.exp 10 = Real.exp 1 ^ 10 := by
      rw [← Real.exp_nat_mul]
      norm_num
    have hbig : (10000 : ℝ) < Real.exp 10 := by
      rw [h10]
      have h27 : (2.7 : ℝ) ^ 10 ≤ Real.exp 1 ^ 10 :=
        pow_le_pow_left₀ (by norm_num) (by linarith) 10
      have : (10000 : ℝ) < (2.7 : ℝ) ^ 10 := by norm_num
      linarith
    rw [Real.exp_neg]
    have hp10 : 0 < Real.exp 10 := Real.exp_pos 10
    rw [show (100 : ℝ) * (Real.exp 10)⁻¹ = 100 / Real.exp 10 from by ring]
    rw [div_lt_iff₀ hp10]
    linarith

/-! ## Average accuracy per side -/

theorem sideAccuracies_cons {α : Type} [LinearOrderedField α] (exp : α → α) (side : Color)
    (data : List MoveAnalysis) (i : Nat) (move : HistoryMove) (rest : List (Nat × HistoryMove)) :
    sideAccuracies exp side data ((i, move) :: rest) =
      (if move.color = side then
        (calculateSingleMoveAccuracy exp
          (((data[i + 1]?).bind (fun r => r.cpl)).map (fun (c : Int) => (c : α)))).toList
       else []) ++ sideAccuracies exp side data rest := by
  unfold sideAccuracies sideLosses
  by_cases hc : move.color = side
  · simp only [List.filter_cons, hc, decide_True, if_true, List.filterMap_cons]
    cases hcpl : (data[i + 1]?).bind (fun r => r.cpl) with
    | none => simp [calculateSingleMoveAccuracy]
    | some c => simp [calculateSingleMoveAccuracy]
  · simp [List.filter_cons, hc]

theorem accuracyLoop_totals {α : Type} [LinearOrderedField α] (exp : α → α)
    (data : List MoveAnalysis) (hist : List HistoryMove) :
    ∀ (i : Nat) (t : AccuracyTotals α),
      accuracyLoop exp data i hist t =
        { whiteTotalAccuracy :=
            t.whiteTotalAccuracy + (sideAccuracies exp Color.w data (hist.enumFrom i)).sum,
          whiteMoveCount :=
            t.whiteMoveCount + (sideAccuracies exp Color.w data (hist.enumFrom i)).length,
          blackTotalAccuracy :=
            t.blackTotalAccuracy + (sideAccuracies exp Color.b data (hist.enumFrom i)).sum,
          blackMoveCount :=
            t.blackMoveCount + (sideAccuracies exp Color.b data (hist.enumFrom i)).length } := by
  induction hist with
  | nil =>
    intro i t
    simp [accuracyLoop, sideAccuracies, sideLosses]
  | cons move rest ih =>
    intro i t
    rw [accuracyLoop, ih, List.enumFrom_cons, sideAccuracies_cons, sideAccuracies_cons]
    unfold accuracyLoopBody
    simp only
    generalize calculateSingleMoveAccuracy exp
      (((data[i + 1]?).bind (fun r => r.cpl)).map (fun (c : Int) => (c : α))) = acc
    cases hcol : move.color with
    | w =>
      cases acc with
      | none => simp
      | some a =>
        simp only [if_true, Option.toList, List.singleton_append, List.sum_cons,
          List.length_cons, if_false, List.nil_append, reduceCtorEq]
        congr 1
        · ring
        · omega
    | b =>
      cases acc with
      | none => simp
      | some a =>
        simp only [if_true, Option.toList, List.singleton_append, List.sum_cons,
          List.length_cons, if_false, List.nil_append, reduceCtorEq]
        congr 1
        · ring
        · omega

/-- C24. For every history and store, each side's average accuracy computed by
`updateAccuracyChartAndStats` is the arithmetic mean of
`calculateSingleMoveAccuracy` over that side's moves whose record has a
centipawn loss (sum and count both range over exactly those moves), and it is
absent when the side has no such move. -/
theorem average_accuracy_is_mean {α : Type} [LinearOrderedField α] (exp : α → α)
    (fullGameHistory : List HistoryMove) (moveAnalysisData : List MoveAnalysis) :
    updateAccuracyChartAndStats exp fullGameHistory moveAnalysisData =
      (specAverageAccuracy exp Color.w fullGameHistory moveAnalysisData,
       specAverageAccuracy exp Color.b fullGameHistory moveAnalysisData) := by
  unfold updateAccuracyChartAndStats specAverageAccuracy
  rw [accuracyLoop_totals]
  simp only [List.enum, zero_add, Nat.zero_add]
  congr 1
  · by_cases h : (sideAccuracies exp Color.w moveAnalysisData
        (List.enumFrom 0 fullGameHistory)).length = 0
    · simp [h]
    · have : (sideAccuracies exp Color.w moveAnalysisData
          (List.enumFrom 0 fullGameHistory)).length > 0 := Nat.pos_of_ne_zero h
      simp [h, this]
  · by_cases h : (sideAccuracies exp Color.b moveAnalysisData
        (List.enumFrom 0 fullGameHistory)).length = 0
    · simp [h]
    · have : (sideAccuracies exp Color.b moveAnalysisData
          (List.enumFrom 0 fullGameHistory)).length > 0 := Nat.pos_of_ne_zero h
      simp [h, this]

/-! ## One record per ply -/

theorem pgn_aligned (steps : List PgnStep) :
    ∀ (i : Nat) (m : HistoryMove), (pgnHistory steps)[i]? = some m →
      ∃ r : MoveAnalysis, (pgnRecords steps)[i]? = some r ∧
        r.fen_before = some m.fen_before ∧ r.fen_after = m.fen_after := by
  induction steps with
  | nil =>
    intro i m h
    simp [pgnHistory] at h
  | cons st rest ih =>
    intro i m h
    unfold pgnHistory at h
    unfold pgnRecords
    cases hf : st.fen_after with
    | none =>
      rw [hf] at h
      exact ih i m h
    | some fa =>
      rw [hf] at h
      dsimp only at h ⊢
      cases i with
      | zero =>
        simp only [List.getElem?_cons_zero, Option.some.injEq] at h
        subst h
        exact ⟨_, List.getElem?_cons_zero, rfl, rfl⟩
      | succ k =>
        simp only [List.getElem?_cons_succ] at h
        simpa using ih k m h

theorem oneRecordPerPly_reset (s : ReviewState) : OneRecordPerPly (resetAnalysisState s) := by
  unfold OneRecordPerPly
  refine ⟨rfl, ?_⟩
  intro i m h
  have h2 : ([] : List HistoryMove)[i]? = some m := h
  simp at h2

theorem oneRecordPerPly_load (s : ReviewState) (parsed : Option (List PgnStep))
    (hok : (loadGameAndPrepareHistory s parsed).2 = true) :
    OneRecordPerPly (loadGameAndPrepareHistory s parsed).1 := by
  unfold OneRecordPerPly loadGameAndPrepareHistory at *
  split at hok
  · cases hok
  · cases hok
  · rename_i st rest
    refine ⟨?_, ?_⟩
    · show (freshRecord none initialFen none :: pgnRecords (st :: rest)).length =
        (pgnHistory (st :: rest)).length + 1
      rw [List.length_cons, pgn_lengths]
    · intro i m h
      have h2 : (pgnHistory (st :: rest))[i]? = some m := h
      obtain ⟨r, hr, h3, h4⟩ := pgn_aligned (st :: rest) i m h2
      exact ⟨r, by simpa using hr, h3, h4⟩

theorem load_failed_empty (s : ReviewState) (parsed : Option (List PgnStep))
    (hbad : (loadGameAndPrepareHistory s parsed).2 = false) :
    (loadGameAndPrepareHistory s parsed).1.moveAnalysisData = [] ∧
    (loadGameAndPrepareHistory s parsed).1.fullGameHistory = [] := by
  unfold loadGameAndPrepareHistory at hbad ⊢
  split at hbad
  · exact ⟨rfl, rfl⟩
  · exact ⟨rfl, rfl⟩
  · cases hbad

theorem alignedStore_take {hist : List HistoryMove} {data : List MoveAnalysis}
    (h : AlignedStore hist data) (n : Nat) (hn : n ≤ hist.length) :
    AlignedStore (hist.take n) (data.take (n + 1)) := by
  obtain ⟨hlen, hal⟩ := h
  refine ⟨?_, ?_⟩
  · rw [List.length_take, List.length_take, hlen]
    omega
  · intro i m hm
    rw [List.getElem?_take] at hm
    split at hm
    · rename_i hi
      obtain ⟨r, hr, h1, h2⟩ := hal i m hm
      refine ⟨r, ?_, h1, h2⟩
      rw [List.getElem?_take, if_pos (by omega)]
      exact hr
    · cases hm

theorem alignedStore_push {hist : List HistoryMove} {data : List MoveAnalysis}
    (h : AlignedStore hist data) (mv : ChessMove) (fenBefore fenAfter : String)
    (pm : Option PlayedMove) :
    AlignedStore (hist ++ [historyEntry mv fenBefore fenAfter])
      (data ++ [freshRecord (some fenBefore) fenAfter pm]) := by
  obtain ⟨hlen, hal⟩ := h
  refine ⟨?_, ?_⟩
  · simp only [List.length_append, List.length_singleton]
    omega
  · intro i m hm
    by_cases hi : i < hist.length
    · rw [List.getElem?_append_left hi] at hm
      obtain ⟨r, hr, h1, h2⟩ := hal i m hm
      refine ⟨r, ?_, h1, h2⟩
      rw [List.getElem?_append_left (by omega)]
      exact hr
    · have hi2 : i = hist.length := by
        have hlt : i < (hist ++ [historyEntry mv fenBefore fenAfter]).length := by
          rcases List.getElem?_eq_some_iff.1 hm with ⟨hh, _⟩
          exact hh
        simp only [List.length_append, List.length_singleton] at hlt
        omega
      subst hi2
      rw [List.getElem?_append_right (Nat.le_refl _)] at hm
      simp only [Nat.sub_self, List.getElem?_cons_zero, Option.some.injEq] at hm
      subst hm
      refine ⟨freshRecord (some fenBefore) fenAfter pm, ?_, rfl, rfl⟩
      rw [List.getElem?_append_right (by omega)]
      have : hist.length + 1 - data.length = 0 := by omega
      rw [this]
      rfl

theorem oneRecordPerPly_makeInteractiveMove (s : ReviewState) (fromAlg toAlg : String)
    (promotionChoice : Option String) (fenBefore : String) (moveResult : ChessMove)
    (fenAfter : String) (h : OneRecordPerPly s) (hlow : -1 ≤ s.currentMoveIndex) :
    OneRecordPerPly (makeInteractiveMove s fromAlg toAlg promotionChoice fenBefore
      (some moveResult) fenAfter) := by
  obtain ⟨h1, h2, _⟩ := makeInteractiveMove_store s fromAlg toAlg promotionChoice fenBefore
    moveResult fenAfter
  unfold OneRecordPerPly
  rw [h1, h2]
  by_cases hk : s.currentMoveIndex < (s.fullGameHistory.length : Int) - 1
  · rw [if_pos hk, if_pos hk, sliceTo_of_nonneg _ _ (by omega), sliceTo_of_nonneg _ _ (by omega)]
    have hn : (s.currentMoveIndex + 2).toNat = (s.currentMoveIndex + 1).toNat + 1 := by omega
    rw [hn]
    exact alignedStore_push (alignedStore_take h _ (by omega)) _ _ _ _
  · rw [if_neg hk, if_neg hk]
    exact alignedStore_push h _ _ _ _

theorem handle_positions (s : ReviewState) (m : String) (k : Nat) (r : MoveAnalysis)
    (hr : s.moveAnalysisData[k]? = some r) :
    ∃ r2 : MoveAnalysis, (handleStockfishMessage_Review s m).moveAnalysisData[k]? = some r2 ∧
      r2.fen_before = r.fen_before ∧ r2.fen_after = r.fen_after := by
  have hset : ∀ (i : Nat) (d x : MoveAnalysis), s.moveAnalysisData[i]? = some d →
      x.fen_before = d.fen_before → x.fen_after = d.fen_after →
      ∃ r2 : MoveAnalysis, (s.moveAnalysisData.set i x)[k]? = some r2 ∧
        r2.fen_before = r.fen_before ∧ r2.fen_after = r.fen_after := by
    intro i d x hd hx1 hx2
    have hk : k < s.moveAnalysisData.length := by
      rcases List.getElem?_eq_some_iff.1 hr with ⟨hh, _⟩
      exact hh
    by_cases hik : i = k
    · subst hik
      rw [hd] at hr
      cases hr
      exact ⟨x, by rw [List.getElem?_set_self hk], hx1, hx2⟩
    · exact ⟨r, by rw [List.getElem?_set_ne hik]; exact hr, rfl, rfl⟩
  by_cases h1 : m = "uciok"
  · unfold handleStockfishMessage_Review
    rw [if_pos h1]
    exact ⟨r, hr, rfl, rfl⟩
  by_cases h2 : m = "readyok"
  · unfold handleStockfishMessage_Review
    rw [if_neg h1, if_pos h2]
    split
    · rw [processStockfishQueue_data]
      exact ⟨r, hr, rfl, rfl⟩
    · exact ⟨r, hr, rfl, rfl⟩
  cases hjob : s.currentAnalysisJob with
  | none =>
    rw [handle_no_job hjob h1 h2]
    exact ⟨r, hr, rfl, rfl⟩
  | some job =>
    by_cases hinfo : startsWith m "info" = true
    · cases hrec : s.moveAnalysisData[job.analysisDataIndex]? with
      | none =>
        rw [handle_info_none hjob hinfo hrec]
        exact ⟨r, hr, rfl, rfl⟩
      | some d =>
        rw [handle_info_some hjob hinfo hrec]
        exact hset _ d _ hrec rfl rfl
    by_cases hbm : startsWith m "bestmove" = true
    · cases hrec : s.moveAnalysisData[job.analysisDataIndex]? with
      | none =>
        rw [handle_bestmove_none hjob hbm hrec, processStockfishQueue_data]
        exact ⟨r, hr, rfl, rfl⟩
      | some d =>
        obtain ⟨c, hc, hc1, hc2⟩ := hset job.analysisDataIndex d
          (commitRecord d job none (parseFinalBestMove m)) hrec rfl rfl
        rw [handle_bestmove_data hjob hbm hrec]
        split
        · cases hcl : classifyMove s.fullGameHistory
            (s.moveAnalysisData.set job.analysisDataIndex
              (commitRecord d job none (parseFinalBestMove m)))
            ((job.analysisDataIndex : Int) - 1) with
          | none => exact ⟨c, hc, hc1, hc2⟩
          | some data2 =>
            rw [Option.getD_some]
            obtain ⟨r3, hr3, heq⟩ := (classifyMove_frame hcl).2 k c hc
            refine ⟨r3, hr3, ?_, ?_⟩
            · rw [heq]
              exact hc1
            · rw [heq]
              exact hc2
        · exact ⟨c, hc, hc1, hc2⟩
    · rw [handle_other h1 h2 (by simpa using hinfo) (by simpa using hbm)]
      exact ⟨r, hr, rfl, rfl⟩

/-- Every event other than a failed load keeps one record per ply. -/
theorem oneRecordPerPly_step {s : ReviewState} (h : OneRecordPerPly s)
    (hlow : -1 ≤ s.currentMoveIndex) (e : Event) (he : isFailedLoad e = false) :
    OneRecordPerPly (step s e) := by
  cases e with
  | resetAnalysisState => exact oneRecordPerPly_reset s
  | loadGame parsed =>
    apply oneRecordPerPly_load
    cases parsed with
    | none => cases he
    | some steps =>
      cases steps with
      | nil => cases he
      | cons st rest => rfl
  | startFullGameAnalysis =>
    show AlignedStore (startFullGameAnalysis s).fullGameHistory
      (startFullGameAnalysis s).moveAnalysisData
    rw [(startFullGameAnalysis_view s).1, startFullGameAnalysis_data]
    exact h
  | analyzeCurrentPosition =>
    show AlignedStore (analyzeCurrentPosition s).fullGameHistory
      (analyzeCurrentPosition s).moveAnalysisData
    rw [(analyzeCurrentPosition_view s).1, analyzeCurrentPosition_data]
    exact h
  | goToMove index =>
    show OneRecordPerPly (goToMove s index)
    unfold goToMove
    simp only
    split <;> exact h
  | makeInteractiveMove fromAlg toAlg promotionChoice fenBefore moveResult fenAfter =>
    cases moveResult with
    | none => exact h
    | some mv =>
      exact oneRecordPerPly_makeInteractiveMove s fromAlg toAlg promotionChoice fenBefore mv
        fenAfter h hlow
  | engineMessage message =>
    show AlignedStore (handleStockfishMessage_Review s message).fullGameHistory
      (handleStockfishMessage_Review s message).moveAnalysisData
    rw [(handle_view s message).1]
    refine ⟨by rw [handle_data_length]; exact h.1, ?_⟩
    intro i mv hmv
    obtain ⟨r, hr, h1, h2⟩ := h.2 i mv hmv
    obtain ⟨r2, hr2, h3, h4⟩ := handle_positions s message (i + 1) r hr
    exact ⟨r2, hr2, by rw [h3]; exact h1, by rw [h4]; exact h2⟩
  | engineError => exact h

/-- C25 (counterexample): the claim that the store holds `len(history) + 1`
records after `loadGameAndPrepareHistory` whether it succeeds or fails does not
hold for a failed load. On a freshly reset page a PGN text that cannot be
loaded leaves the history and the store both empty: 0 records for 0 moves, and
not even the record of ply 0. -/
theorem failed_load_leaves_no_record :
    (loadGameAndPrepareHistory (resetAnalysisState initialState) none).2 = false ∧
    sampleFailedLoad.fullGameHistory.length = 0 ∧
    sampleFailedLoad.moveAnalysisData.length = 0 ∧
    ¬ (sampleFailedLoad.moveAnalysisData.length = sampleFailedLoad.fullGameHistory.length + 1) := by
  decide

/-- C25 (amended): after `resetAnalysisState`, after a `loadGameAndPrepareHistory`
that succeeds, and after a legal `makeInteractiveMove` made in a state that has
one record per ply, the store holds exactly `len(history) + 1` records and
record `i + 1` holds the positions before and after history move `i`; a
`loadGameAndPrepareHistory` that fails leaves the history and the store both
empty. -/
theorem one_record_per_ply (s : ReviewState) :
    OneRecordPerPly (resetAnalysisState s) ∧
    (∀ parsed : Option (List PgnStep),
      ((loadGameAndPrepareHistory s parsed).2 = true →
        OneRecordPerPly (loadGameAndPrepareHistory s parsed).1) ∧
      ((loadGameAndPrepareHistory s parsed).2 = false →
        (loadGameAndPrepareHistory s parsed).1.moveAnalysisData = [] ∧
        (loadGameAndPrepareHistory s parsed).1.fullGameHistory = [])) ∧
    (OneRecordPerPly s → -1 ≤ s.currentMoveIndex →
      ∀ (fromAlg toAlg : String) (promotionChoice : Option String) (fenBefore : String)
        (moveResult : ChessMove) (fenAfter : String),
        OneRecordPerPly (makeInteractiveMove s fromAlg toAlg promotionChoice fenBefore
          (some moveResult) fenAfter)) :=
  ⟨oneRecordPerPly_reset s,
   fun parsed => ⟨oneRecordPerPly_load s parsed, load_failed_empty s parsed⟩,
   fun h hlow fromAlg toAlg promotionChoice fenBefore moveResult fenAfter =>
     oneRecordPerPly_makeInteractiveMove s fromAlg toAlg promotionChoice fenBefore moveResult
       fenAfter h hlow⟩

/-- The amended C25 on the freshly reset page: the reset leaves one record for
no move, the move e2-e4 played there leaves two records for one move, and a
loaded one-move game has two records. -/
theorem one_record_per_ply_witness :
    OneRecordPerPly (resetAnalysisState initialState) ∧
    -1 ≤ (resetAnalysisState initialState).currentMoveIndex ∧
    OneRecordPerPly (makeInteractiveMove (resetAnalysisState initialState) "e2" "e4" none
      initialFen
      (some { color := Color.w, fromSq := "e2", toSq := "e4", promotion := none, san := "e4" })
      "rnbqkbnr/pppppppp/8/8/4P3/8/PPPP1PPP/RNBQKBNR b KQkq e3 0 1") ∧
    (makeInteractiveMove (resetAnalysisState initialState) "e2" "e4" none
      initialFen
      (some { color := Color.w, fromSq := "e2", toSq := "e4", promotion := none, san := "e4" })
      "rnbqkbnr/pppppppp/8/8/4P3/8/PPPP1PPP/RNBQKBNR b KQkq e3 0 1").moveAnalysisData.length = 2 :=
  ⟨(one_record_per_ply initialState).1, by decide,
   (one_record_per_ply (resetAnalysisState initialState)).2.2
     (one_record_per_ply initialState).1 (by decide) "e2" "e4" none initialFen
     { color := Color.w, fromSq := "e2", toSq := "e4", promotion := none, san := "e4" }
     "rnbqkbnr/pppppppp/8/8/4P3/8/PPPP1PPP/RNBQKBNR b KQkq e3 0 1",
   by decide⟩

/-! ## The full-game pass from start to end -/

theorem runMessages_append (s : ReviewState) (xs ys : List String) :
    runMessages s (xs ++ ys) = runMessages (runMessages s xs) ys := by
  unfold runMessages
  rw [List.foldl_append]

theorem lastDefined_ne_none {α : Type} (xs : List (Option α)) (h : ∃ x ∈ xs, x ≠ none) :
    lastDefined xs ≠ none := by
  induction xs with
  | nil =>
    obtain ⟨x, hx, _⟩ := h
    cases hx
  | cons y rest ih =>
    unfold lastDefined
    cases hrest : lastDefined rest with
    | some v => simp
    | none =>
      simp only
      obtain ⟨x, hx, hne⟩ := h
      rcases List.mem_cons.1 hx with h1 | h1
      · rw [← h1]
        exact hne
      · exact absurd hrest (ih ⟨x, h1, hne⟩)

/-- The `info` lines of one search rewrite the provisional fields of the job's
record and nothing else. -/
theorem runMessages_info_frame (lines : List String) :
    ∀ (s : ReviewState) (job : Job) (dataEntry : MoveAnalysis),
      s.currentAnalysisJob = some job →
      s.moveAnalysisData[job.analysisDataIndex]? = some dataEntry →
      (∀ l ∈ lines, startsWith l "info" = true) →
      ∃ d2 : MoveAnalysis,
        runMessages s lines =
          { s with moveAnalysisData := s.moveAnalysisData.set job.analysisDataIndex d2 } ∧
        d2.eval_before_temp =
          (lastDefined (lines.map (fun l => (parseInfo l).currentEval)) <|>
            dataEntry.eval_before_temp) := by
  induction lines with
  | nil =>
    intro s job d hjob hrec _
    refine ⟨d, ?_, ?_⟩
    · rw [set_same _ _ _ hrec]
      rfl
    · simp [lastDefined]
  | cons l rest ih =>
    intro s job d hjob hrec hall
    have hl : startsWith l "info" = true := hall l (List.mem_cons_self _ _)
    have hstep := handle_info_some hjob hl hrec
    have hlen : job.analysisDataIndex < s.moveAnalysisData.length := by
      rcases List.getElem?_eq_some_iff.1 hrec with ⟨hh, _⟩
      exact hh
    have hrun : runMessages s (l :: rest) =
        runMessages (handleStockfishMessage_Review s l) rest := rfl
    rw [hrun, hstep]
    obtain ⟨d2, h1, h2⟩ := ih
      { s with moveAnalysisData :=
          s.moveAnalysisData.set job.analysisDataIndex (applyInfo d (parseInfo l)) }
      job (applyInfo d (parseInfo l)) hjob
      (by show (s.moveAnalysisData.set job.analysisDataIndex _)[job.analysisDataIndex]? = _
          rw [List.getElem?_set_self hlen])
      (fun x hx => hall x (List.mem_cons_of_mem _ hx))
    refine ⟨d2, ?_, ?_⟩
    · rw [h1]
      simp only [List.set_set]
    · rw [h2, applyInfo_eval, List.map_cons, lastDefined_cons_orElse]

theorem passProgress_step {N k : Nat} {t : ReviewState} (a : EngineAnswer)
    (h : PassProgress N k t) (hk : k ≤ N) (ha : a.scored) :
    PassProgress N (k + 1) (runMessages t a.messages) := by
  obtain ⟨hH, hD, hP, hidx, hp1, hdone⟩ := h
  obtain ⟨hinfo, ⟨lsc, hlsc, hscore⟩, hbm⟩ := ha
  have hrange : List.range' k (N + 1 - k) = k :: List.range' (k + 1) (N - k) := by
    have hsplit : N + 1 - k = (N - k) + 1 := by omega
    rw [hsplit, List.range'_succ]
  cases hjob : t.currentAnalysisJob with
  | none =>
    have hnil : pipeline t = [] := by simp [pipeline, hjob, hP.2 hjob]
    rw [hnil, hrange] at hidx
    cases hidx
  | some job =>
    have hpipe : pipeline t = job :: t.stockfishQueue := by simp [pipeline, hjob]
    rw [hpipe, hrange, List.map_cons] at hidx
    injection hidx with hjk hrest
    have hklen : k < t.moveAnalysisData.length := by omega
    have hrec : t.moveAnalysisData[job.analysisDataIndex]? = some (t.moveAnalysisData[k]) := by
      rw [hjk]
      exact List.getElem?_eq_getElem hklen
    obtain ⟨d2, hrun1, hd2⟩ := runMessages_info_frame a.infoLines t job _ hjob hrec hinfo
    have htemp : d2.eval_before_temp ≠ none := by
      have hne : lastDefined (a.infoLines.map (fun l => (parseInfo l).currentEval)) ≠ none :=
        lastDefined_ne_none _ ⟨_, List.mem_map.2 ⟨lsc, hlsc, rfl⟩, hscore⟩
      rw [hd2]
      cases hl : lastDefined (a.infoLines.map (fun l => (parseInfo l).currentEval)) with
      | none => exact absurd hl hne
      | some v => simp
    have hjob1 : (runMessages t a.infoLines).currentAnalysisJob = some job := by
      rw [hrun1]
      exact hjob
    have hrec1 : (runMessages t a.infoLines).moveAnalysisData[job.analysisDataIndex]? = some d2 := by
      rw [hrun1]
      show (t.moveAnalysisData.set job.analysisDataIndex d2)[job.analysisDataIndex]? = some d2
      rw [List.getElem?_set_self (by rw [hjk]; exact hklen)]
    have hq1 : (runMessages t a.infoLines).stockfishQueue = t.stockfishQueue := by rw [hrun1]
    have hh1 : (runMessages t a.infoLines).fullGameHistory = t.fullGameHistory := by rw [hrun1]
    have hd1 : (runMessages t a.infoLines).moveAnalysisData =
        t.moveAnalysisData.set job.analysisDataIndex d2 := by rw [hrun1]
    have hmsg : runMessages t a.messages =
        handleStockfishMessage_Review (runMessages t a.infoLines) a.bestmoveLine :=
      runMessages_append_one t a.infoLines a.bestmoveLine
    obtain ⟨hpipe2, hP2, _⟩ := @handle_terminal_busy (runMessages t a.infoLines) job
      a.bestmoveLine hjob1 hbm
    have hdata2 := handle_bestmove_data hjob1 hbm hrec1
    rw [hmsg]
    refine ⟨?_, ?_, hP2, ?_, ?_, ?_⟩
    · rw [(handle_view _ _).1, hh1]
      exact hH
    · rw [handle_data_length, hd1, List.length_set]
      exact hD
    · rw [hpipe2, hq1, hrest]
      have hsub : N + 1 - (k + 1) = N - k := by omega
      rw [hsub]
    · intro j hj
      rw [hpipe2, hq1] at hj
      exact hp1 j (by rw [hpipe]; exact List.mem_cons_of_mem _ hj)
    · intro i r hi hr
      rw [hdata2, hh1, hd1, List.set_set] at hr
      have hpass : job.isPass1 = true := hp1 job (by rw [hpipe]; exact List.mem_cons_self _ _)
      have hcommit_idx : (t.moveAnalysisData.set job.analysisDataIndex
          (commitRecord d2 job none (parseFinalBestMove a.bestmoveLine)))[k]? =
          some (commitRecord d2 job none (parseFinalBestMove a.bestmoveLine)) := by
        rw [hjk, List.getElem?_set_self hklen]
      have hcommit_other : ∀ n : Nat, n ≠ k →
          (t.moveAnalysisData.set job.analysisDataIndex
            (commitRecord d2 job none (parseFinalBestMove a.bestmoveLine)))[n]? =
          t.moveAnalysisData[n]? := by
        intro n hn
        rw [hjk, List.getElem?_set_ne (Ne.symm hn)]
      have hceval : (commitRecord d2 job none (parseFinalBestMove a.bestmoveLine)).eval_before ≠
          none := by
        show (d2.eval_before_temp <|> none) ≠ none
        cases htmp : d2.eval_before_temp with
        | none => exact absurd htmp htemp
        | some v => simp
      have hcpass : (commitRecord d2 job none (parseFinalBestMove a.bestmoveLine)).pass1_complete =
          true := by
        show (if job.isPass1 then true else d2.pass1_complete) = true
        rw [hpass]
        rfl
      cases k with
      | zero =>
        have hneg : ¬ ((job.analysisDataIndex : Int) - 1 ≥ 0) := by
          rw [hjk]
          decide
        rw [if_neg hneg] at hr
        have hi0 : i = 0 := by omega
        subst hi0
        rw [hcommit_idx] at hr
        cases hr
        exact ⟨hcpass, hceval, fun h1 => absurd h1 (by decide)⟩
      | succ n =>
        have hpos : (job.analysisDataIndex : Int) - 1 ≥ 0 := by
          rw [hjk]
          push_cast
          omega
        rw [if_pos hpos] at hr
        have hmv : t.fullGameHistory[n]? = some (t.fullGameHistory[n]) :=
          List.getElem?_eq_getElem (by omega)
        have hbrec : (t.moveAnalysisData.set job.analysisDataIndex
            (commitRecord d2 job none (parseFinalBestMove a.bestmoveLine)))[n]? =
            some (t.moveAnalysisData[n]) := by
          rw [hcommit_other n (by omega)]
          exact List.getElem?_eq_getElem (by omega)
        obtain ⟨hb1, hb2, _⟩ := hdone n (t.moveAnalysisData[n]) (by omega)
          (List.getElem?_eq_getElem (by omega))
        obtain ⟨eb, heb⟩ := Option.ne_none_iff_exists'.1 hb2
        obtain ⟨ea, hea⟩ := Option.ne_none_iff_exists'.1 hceval
        have hidxn : ((job.analysisDataIndex : Int) - 1) = ((n : Nat) : Int) := by
          rw [hjk]
          push_cast
          omega
        rw [hidxn] at hr
        rw [classifyMove_classified hmv hbrec hcommit_idx heb hea] at hr
        simp only [Option.getD_some, hjk, List.set_set] at hr
        by_cases hin : i = n + 1
        · subst hin
          rw [List.getElem?_set_self (by omega)] at hr
          cases hr
          refine ⟨hcpass, hceval, fun _ => ⟨?_, ?_⟩⟩
          · simp
          · simp
        · rw [List.getElem?_set_ne (Ne.symm hin)] at hr
          exact hdone i r (by omega) hr

theorem passProgress_run {N : Nat} (answers : List EngineAnswer) :
    ∀ (k : Nat) (t : ReviewState), PassProgress N k t → k + answers.length = N + 1 →
      (∀ a ∈ answers, a.scored) →
      PassProgress N (N + 1) (runMessages t (answers.flatMap EngineAnswer.messages)) := by
  induction answers with
  | nil =>
    intro k t h hlen _
    have hk : k = N + 1 := by simpa using hlen
    subst hk
    exact h
  | cons a rest ih =>
    intro k t h hlen hall
    rw [List.flatMap_cons, runMessages_append]
    have hlen2 : k + (rest.length + 1) = N + 1 := by simpa using hlen
    exact ih (k + 1) _
      (passProgress_step a h (by omega) (hall a (List.mem_cons_self _ _)))
      (by omega) (fun x hx => hall x (List.mem_cons_of_mem _ hx))

theorem pass1JobsFrom_indices (data : List MoveAnalysis)
    (h : ∀ r ∈ data, r.pass1_complete = false) :
    ∀ i : Nat, (pass1JobsFrom i data).map (fun j => j.analysisDataIndex) =
      List.range' i data.length := by
  induction data with
  | nil =>
    intro i
    rfl
  | cons r rest ih =>
    intro i
    have hr : r.pass1_complete = false := h r (List.mem_cons_self _ _)
    unfold pass1JobsFrom
    simp only [hr, Bool.not_false, if_true, List.map_cons, List.length_cons, List.range'_succ]
    rw [ih (fun x hx => h x (List.mem_cons_of_mem _ hx)) (i + 1)]

theorem passProgress_start {s : ReviewState} (h : FreshlyLoaded s) :
    PassProgress s.fullGameHistory.length 0 (startFullGameAnalysis s) := by
  obtain ⟨hready, hjob, hq, hflag, hlen, hfresh⟩ := h
  rw [startFullGameAnalysis_idle hready hflag hq]
  obtain ⟨hpipe, hP, _⟩ := @pump_from_idle
    { s with stockfishQueue := pass1JobsFrom 0 s.moveAnalysisData } hjob hflag
  refine ⟨?_, ?_, hP, ?_, ?_, ?_⟩
  · rw [processStockfishQueue_history]
  · rw [processStockfishQueue_data]
    exact hlen
  · rw [hpipe]
    show (pass1JobsFrom 0 s.moveAnalysisData).map (fun j => j.analysisDataIndex) = _
    rw [pass1JobsFrom_indices _ hfresh 0, hlen]
    rfl
  · intro j hj
    rw [hpipe] at hj
    exact (mem_pass1JobsFrom hj).1
  · intro i r hi
    exact absurd hi (Nat.not_lt_zero _)

/-- A game that loads on an idle page with a ready engine is freshly loaded. -/
theorem freshlyLoaded_of_load (s : ReviewState) (parsed : Option (List PgnStep))
    (hready : s.isStockfishReady = true) (hjob : s.currentAnalysisJob = none)
    (hq : s.stockfishQueue = []) (hflag : s.isProcessingQueue = false)
    (hok : (loadGameAndPrepareHistory s parsed).2 = true) :
    FreshlyLoaded (loadGameAndPrepareHistory s parsed).1 := by
  have hlen := (oneRecordPerPly_load s parsed hok).1
  unfold loadGameAndPrepareHistory at hok hlen ⊢
  split at hok
  · cases hok
  · cases hok
  · rename_i st rest
    refine ⟨hready, hjob, hq, hflag, hlen, ?_⟩
    intro r hr
    have hr2 : r ∈ freshRecord none initialFen none :: pgnRecords (st :: rest) := hr
    rcases List.mem_cons.1 hr2 with h1 | h1
    · rw [h1]
      rfl
    · obtain ⟨fb, fa, pm, hfr⟩ := pgnRecords_fresh (st :: rest) r h1
      rw [hfr]
      rfl

/-- C28. From a freshly loaded game of `N` moves (`N ≥ 1`, and `N = 0` as
well) with the engine ready, after
`startFullGameAnalysis` and `N + 1` engine answers, each made of `info` lines of
which at least one carries a score and of a closing `bestmove` line, every
record `0..N` exists, has `pass1_complete` and an evaluation, every record
`1..N` has a centipawn loss and a classification, the queue is empty and no
job is in flight. -/
theorem full_game_pass_completes (s : ReviewState) (answers : List EngineAnswer)
    (hfresh : FreshlyLoaded s)
    (hcount : answers.length = s.fullGameHistory.length + 1)
    (hans : ∀ a ∈ answers, a.scored) :
    (runMessages (startFullGameAnalysis s)
      (answers.flatMap EngineAnswer.messages)).moveAnalysisData.length =
        s.fullGameHistory.length + 1 ∧
    (∀ (k : Nat) (r : MoveAnalysis),
      (runMessages (startFullGameAnalysis s)
        (answers.flatMap EngineAnswer.messages)).moveAnalysisData[k]? = some r →
        r.pass1_complete = true ∧ r.eval_before ≠ none) ∧
    (∀ (k : Nat) (r : MoveAnalysis),
      (runMessages (startFullGameAnalysis s)
        (answers.flatMap EngineAnswer.messages)).moveAnalysisData[k + 1]? = some r →
        r.cpl ≠ none ∧ r.classification ≠ none) ∧
    (runMessages (startFullGameAnalysis s)
      (answers.flatMap EngineAnswer.messages)).stockfishQueue = [] ∧
    (runMessages (startFullGameAnalysis s)
      (answers.flatMap EngineAnswer.messages)).currentAnalysisJob = none ∧
    (runMessages (startFullGameAnalysis s)
      (answers.flatMap EngineAnswer.messages)).isProcessingQueue = false := by
  obtain ⟨_, hD, hP, hidx, _, hdone⟩ :=
    passProgress_run answers 0 _ (passProgress_start hfresh) (by omega) hans
  have hpipe : pipeline (runMessages (startFullGameAnalysis s)
      (answers.flatMap EngineAnswer.messages)) = [] := by
    have hzero : s.fullGameHistory.length + 1 - (s.fullGameHistory.length + 1) = 0 := by omega
    rw [hzero] at hidx
    exact List.map_eq_nil_iff.1 hidx
  have hjob : (runMessages (startFullGameAnalysis s)
      (answers.flatMap EngineAnswer.messages)).currentAnalysisJob = none := by
    cases hj : (runMessages (startFullGameAnalysis s)
      (answers.flatMap EngineAnswer.messages)).currentAnalysisJob with
    | none => rfl
    | some j =>
      unfold pipeline at hpipe
      rw [hj] at hpipe
      cases hpipe
  have hlt : ∀ (k : Nat) (r : MoveAnalysis),
      (runMessages (startFullGameAnalysis s)
        (answers.flatMap EngineAnswer.messages)).moveAnalysisData[k]? = some r →
      k < s.fullGameHistory.length + 1 := by
    intro k r hr
    rcases List.getElem?_eq_some_iff.1 hr with ⟨hh, _⟩
    rw [hD] at hh
    exact hh
  refine ⟨hD, ?_, ?_, hP.2 hjob, hjob, ?_⟩
  · intro k r hr
    obtain ⟨h1, h2, _⟩ := hdone k r (hlt k r hr) hr
    exact ⟨h1, h2⟩
  · intro k r hr
    exact (hdone (k + 1) r (hlt (k + 1) r hr) hr).2.2 (by omega)
  · rw [hP.1, hjob]
    rfl

theorem sampleAnswers_scored : ∀ a ∈ sampleAnswers, a.scored := by
  intro a ha
  simp only [sampleAnswers, List.mem_cons, List.mem_singleton, List.not_mem_nil, or_false] at ha
  rcases ha with h | h
  · subst h
    exact ⟨by decide, ⟨"info depth 12 score cp 30 pv e2e4 e7e5", by decide, by decide!⟩, by decide⟩
  · subst h
    exact ⟨by decide, ⟨"info depth 11 score cp 20 pv e7e5", by decide, by decide!⟩, by decide⟩

theorem sampleLoadedState_fresh : FreshlyLoaded sampleLoadedState := by
  unfold FreshlyLoaded
  decide

/-- C28 on a loaded one-move game and two engine answers: both records end
analysed, the second one classified, and the session is idle. -/
theorem full_game_pass_completes_witness :
    FreshlyLoaded sampleLoadedState ∧ (∀ a ∈ sampleAnswers, a.scored) ∧
    (runMessages (startFullGameAnalysis sampleLoadedState)
      (sampleAnswers.flatMap EngineAnswer.messages)).moveAnalysisData.length = 2 ∧
    (∀ (k : Nat) (r : MoveAnalysis),
      (runMessages (startFullGameAnalysis sampleLoadedState)
        (sampleAnswers.flatMap EngineAnswer.messages)).moveAnalysisData[k]? = some r →
        r.pass1_complete = true ∧ r.eval_before ≠ none) ∧
    (∀ (k : Nat) (r : MoveAnalysis),
      (runMessages (startFullGameAnalysis sampleLoadedState)
        (sampleAnswers.flatMap EngineAnswer.messages)).moveAnalysisData[k + 1]? = some r →
        r.cpl ≠ none ∧ r.classification ≠ none) ∧
    (runMessages (startFullGameAnalysis sampleLoadedState)
      (sampleAnswers.flatMap EngineAnswer.messages)).stockfishQueue = [] ∧
    (runMessages (startFullGameAnalysis sampleLoadedState)
      (sampleAnswers.flatMap EngineAnswer.messages)).currentAnalysisJob = none ∧
    (runMessages (startFullGameAnalysis sampleLoadedState)
      (sampleAnswers.flatMap EngineAnswer.messages)).isProcessingQueue = false :=
  ⟨sampleLoadedState_fresh, sampleAnswers_scored,
   full_game_pass_completes sampleLoadedState sampleAnswers sampleLoadedState_fresh
     (by decide) sampleAnswers_scored⟩

/-! ## The progress summary -/

theorem append_ne_empty (a b : String) (h : a ≠ "") : a ++ b ≠ "" := by
  intro hab
  apply h
  have hlen : (a ++ b).length = 0 := by rw [hab]; rfl
  rw [String.length_append] at hlen
  have ha : a.length = 0 := by omega
  exact String.ext (List.length_eq_zero.1 ha)

/-- The summary is empty exactly when the history is. -/
theorem getOverallAnalysisProgress_empty_iff (s : ReviewState) :
    getOverallAnalysisProgress s = "" ↔ s.fullGameHistory = [] := by
  unfold getOverallAnalysisProgress
  constructor
  · intro h
    by_contra hne
    have hlen : ¬ s.fullGameHistory.length = 0 := fun h0 => hne (List.length_eq_zero.1 h0)
    simp only [hlen, if_false] at h
    split at h
    · exact absurd h (by decide)
    split at h
    · exact append_ne_empty _ _ (append_ne_empty _ _ (append_ne_empty _ _ (by decide))) h
    split at h
    · exact append_ne_empty _ _ (append_ne_empty _ _ (append_ne_empty _ _
        (append_ne_empty _ _ (append_ne_empty _ _ (append_ne_empty _ _ (by decide)))))) h
    · exact append_ne_empty _ _ (append_ne_empty _ _ (append_ne_empty _ _ (by decide))) h
  · intro h
    simp [h]

/-- With a job in flight and neither pass finished for all moves, the summary
shows `NaN` where the job's index was meant to appear. -/
theorem getOverallAnalysisProgress_in_flight (s : ReviewState) (job : Job)
    (hjob : s.currentAnalysisJob = some job) (hflag : s.isProcessingQueue = true)
    (hmoves : s.fullGameHistory ≠ [])
    (hp1 : ((s.moveAnalysisData.drop 1).filter (fun d => d.pass1_complete)).length ≠
      s.fullGameHistory.length)
    (hp2 : ((s.moveAnalysisData.drop 1).filter (fun d => d.pass2_complete)).length ≠
      s.fullGameHistory.length) :
    getOverallAnalysisProgress s =
      "Analyse (P" ++ toString (if job.isPass1 then 1 else 2 : Nat) ++ "): " ++ "NaN" ++ "/" ++
        toString s.fullGameHistory.length ++ "..." := by
  have hlen : ¬ s.fullGameHistory.length = 0 := fun h0 => hmoves (List.length_eq_zero.1 h0)
  unfold getOverallAnalysisProgress
  simp only [hlen, if_false, hp1, hp2, hjob, hflag]
  rfl

/-- C29 (failing input). A two-move game is loaded and analysed; after the first
answer the job for record 1 is in flight, so the claim expects the summary
`Analyse (P1): 2/2...`. The function reads the property `moveIndex`, which no
job has, and returns `Analyse (P1): NaN/2...`. -/
theorem progress_summary_shows_nan :
    sampleProgressState.fullGameHistory.length = 2 ∧
    sampleProgressState.isProcessingQueue = true ∧
    sampleProgressState.currentAnalysisJob.map (fun j => (j.analysisDataIndex, j.isPass1)) =
      some (1, true) ∧
    (∃ r ∈ sampleProgressState.moveAnalysisData.drop 1, r.pass1_complete = false) ∧
    getOverallAnalysisProgress sampleProgressState = "Analyse (P1): NaN/2..." ∧
    getOverallAnalysisProgress sampleProgressState ≠ "Analyse (P1): 2/2..." := by
  decide


end Review

/-! # Theorems about the puzzle module -/

namespace Puzzle

theorem toLower_toLower (c : Char) : (c.toLower).toLower = c.toLower := by
  unfold Char.toLower
  by_cases h : c.toNat ≥ 65 ∧ c.toNat ≤ 90
  · simp only [h, and_self, if_true]
    obtain ⟨h1, h2⟩ := h
    generalize c.toNat = n at h1 h2
    interval_cases n <;> decide
  · simp only [h, if_false]

theorem toLowerCase_append (a b : String) :
    toLowerCase (a ++ b) = toLowerCase a ++ toLowerCase b := by
  unfold toLowerCase
  apply String.ext
  simp [String.data_append]

theorem toLowerCase_idem (a : String) : toLowerCase (toLowerCase a) = toLowerCase a := by
  unfold toLowerCase
  apply String.ext
  simp [List.map_map, Function.comp_def, toLower_toLower]

/-- Lower-casing the promotion letter first does not change the lower-cased
move text. -/
theorem toLowerCase_playerMoveUCI (fromAlg toAlg : String) (promotionPiece : Option String) :
    toLowerCase (playerMoveUCI fromAlg toAlg promotionPiece) =
      toLowerCase (fromAlg ++ toAlg ++ promotionPiece.getD "") := by
  unfold playerMoveUCI truthyText
  cases promotionPiece with
  | none => rfl
  | some p =>
    by_cases hp : p = ""
    · subst hp
      rfl
    · simp only [hp, if_false, Option.getD_some]
      rw [toLowerCase_append, toLowerCase_idem, ← toLowerCase_append]

theorem get_of_getElem? {α : Type} {xs : List α} {i : Nat} {x : α} (h : xs[i]? = some x)
    (hi : i < xs.length) : xs.get ⟨i, hi⟩ = x := by
  rw [List.getElem?_eq_getElem hi] at h
  exact Option.some.inj h

theorem getElem_of_getElem? {α : Type} {xs : List α} {i : Nat} {x : α} (h : xs[i]? = some x)
    (hi : i < xs.length) : xs[i] = x := by
  rw [List.getElem?_eq_getElem hi] at h
  exact Option.some.inj h

/-- C26. With an active puzzle, on the player's turn and with the solution index
in range, a move whose text `from + to + promotion` differs from the expected
solution move when letter case is ignored returns `'incorrect'` and leaves the
whole module state (puzzle, board, solution index, turn flag) unchanged; with
no active puzzle (no puzzle or no board) or off the player's turn the call
returns `'invalid_state'` and leaves the state unchanged. -/
theorem makePlayerMove_incorrect_or_invalid (rules : Rules) (s : PuzzleState)
    (fromAlg toAlg : String) (promotionPiece : Option String) :
    (∀ (p : PuzzleData) (g expected : String),
      s.currentPuzzle = some p → s.puzzleGame = some g → s.isPlayerTurnInPuzzle = true →
      p.solution[s.currentSolutionMoveIndex]? = some expected →
      toLowerCase (fromAlg ++ toAlg ++ promotionPiece.getD "") ≠ toLowerCase expected →
      (makePlayerMove rules s fromAlg toAlg promotionPiece).value = "incorrect" ∧
      (makePlayerMove rules s fromAlg toAlg promotionPiece).state = s) ∧
    ((s.currentPuzzle = none ∨ s.puzzleGame = none ∨ s.isPlayerTurnInPuzzle = false) →
      (makePlayerMove rules s fromAlg toAlg promotionPiece).value = "invalid_state" ∧
      (makePlayerMove rules s fromAlg toAlg promotionPiece).state = s) := by
  constructor
  · intro p g expected hp hg ht hexp hne
    have hi : s.currentSolutionMoveIndex < p.solution.length := by
      rcases List.getElem?_eq_some_iff.1 hexp with ⟨hh, _⟩
      exact hh
    unfold makePlayerMove
    simp only [hp, hg, ht]
    rw [dif_neg (by omega)]
    simp only [get_of_getElem? hexp hi, toLowerCase_playerMoveUCI]
    rw [if_pos hne]
    exact ⟨rfl, rfl⟩
  · intro h
    unfold makePlayerMove
    rcases h with h | h | h
    · simp [h]
    · cases hp : s.currentPuzzle with
      | none => exact ⟨rfl, rfl⟩
      | some p =>
        simp [h]
    · cases hp : s.currentPuzzle with
      | none => exact ⟨rfl, rfl⟩
      | some p =>
        cases hg : s.puzzleGame with
        | none => exact ⟨rfl, rfl⟩
        | some g =>
          simp [h]

/-- The C26 statement on the started sample puzzle (d2-d4 is not the solution)
and on the module before any puzzle is started. -/
theorem makePlayerMove_incorrect_or_invalid_witness :
    ((makePlayerMove sampleRules sampleStarted "d2" "d4" none).value = "incorrect" ∧
      (makePlayerMove sampleRules sampleStarted "d2" "d4" none).state = sampleStarted) ∧
    ((makePlayerMove sampleRules initialState "e2" "e4" none).value = "invalid_state" ∧
      (makePlayerMove sampleRules initialState "e2" "e4" none).state = initialState) :=
  ⟨(makePlayerMove_incorrect_or_invalid sampleRules sampleStarted "d2" "d4" none).1
     { id := "sample", fen := "rnbqkbnr/pppppppp/8/8/8/8/PPPPPPPP/RNBQKBNR w KQkq - 0 1",
       solution := ["e2e4", "e7e5", "g1f3"], playerColor := Review.Color.w, initialPly := 0,
       pgn := "*" }
     "rnbqkbnr/pppppppp/8/8/8/8/PPPPPPPP/RNBQKBNR w KQkq - 0 1" "e2e4"
     (by decide) (by decide) (by decide) (by decide) (by decide),
   (makePlayerMove_incorrect_or_invalid sampleRules initialState "e2" "e4" none).2
     (Or.inl (by decide))⟩

/-- What a successful `makeOpponentMove` does, in any state. -/
theorem makeOpponentMove_success {rules : Rules} {s : PuzzleState} {puzzleIdCheck : String}
    (h : (makeOpponentMove rules s puzzleIdCheck).value = true) :
    ∃ p : PuzzleData, s.currentPuzzle = some p ∧
      (makeOpponentMove rules s puzzleIdCheck).state.currentPuzzle = some p ∧
      (makeOpponentMove rules s puzzleIdCheck).state.currentSolutionMoveIndex =
        s.currentSolutionMoveIndex + 1 ∧
      (makeOpponentMove rules s puzzleIdCheck).state.isPlayerTurnInPuzzle =
        decide (s.currentSolutionMoveIndex + 1 < p.solution.length) := by
  have key : ∀ r : Outcome Bool, makeOpponentMove rules s puzzleIdCheck = r → r.value = true →
      ∃ p : PuzzleData, s.currentPuzzle = some p ∧ r.state.currentPuzzle = some p ∧
        r.state.currentSolutionMoveIndex = s.currentSolutionMoveIndex + 1 ∧
        r.state.isPlayerTurnInPuzzle =
          decide (s.currentSolutionMoveIndex + 1 < p.solution.length) := by
    intro r hr hv
    unfold makeOpponentMove at hr
    split at hr
    · subst hr
      simp at hv
    rename_i p hp
    split at hr
    · subst hr
      simp at hv
    split at hr
    · subst hr
      simp at hv
    split at hr
    · subst hr
      simp at hv
    split at hr
    · subst hr
      simp at hv
    rename_i hlen
    dsimp only at hr
    split at hr
    · subst hr
      simp at hv
    split at hr
    · subst hr
      simp at hv
    subst hr
    refine ⟨p, hp, hp, rfl, ?_⟩
    by_cases hend : s.currentSolutionMoveIndex + 1 ≥ p.solution.length
    · simp [hend]
    · simp [hend]
      omega
  exact key _ rfl h

/-- A reply that parses and is legal is played. -/
theorem makeOpponentMove_plays {rules : Rules} {s : PuzzleState} {p : PuzzleData}
    {g reply board : String} {mo : MoveObject}
    (hp : s.currentPuzzle = some p) (hg : s.puzzleGame = some g)
    (ht : s.isPlayerTurnInPuzzle = false)
    (hreply : p.solution[s.currentSolutionMoveIndex]? = some reply)
    (hparse : _uciToMoveObject reply = some mo) (hmove : rules.move g mo = some board) :
    (makeOpponentMove rules s p.id).value = true ∧
    (makeOpponentMove rules s p.id).state.puzzleGame = some board := by
  have hi : s.currentSolutionMoveIndex < p.solution.length := by
    rcases List.getElem?_eq_some_iff.1 hreply with ⟨hh, _⟩
    exact hh
  unfold makeOpponentMove
  simp only [hp, hg, ht, ne_eq, not_true_eq_false, if_false, Bool.false_eq_true]
  rw [dif_neg (by omega)]
  simp [getElem_of_getElem? hreply hi, hparse, hmove]

/-- C27. With an active puzzle on the player's turn, a move whose text equals the
expected solution move when letter case is ignored and which the board accepts
advances the solution index by exactly one, turns the player's turn off and puts
the new position on the board; the call returns `'complete'` exactly when the new
index equals the solution length and `'correct_continue'` otherwise. A
`makeOpponentMove` that then succeeds advances the index by exactly one more and
gives the turn back to the player unless the solution is exhausted; and it does
succeed when the next solution move parses and is legal. -/
theorem makePlayerMove_correct_advances (rules : Rules) (s : PuzzleState)
    (fromAlg toAlg : String) (promotionPiece : Option String)
    (p : PuzzleData) (g expected board : String) (moveObject : MoveObject)
    (hp : s.currentPuzzle = some p) (hg : s.puzzleGame = some g)
    (ht : s.isPlayerTurnInPuzzle = true)
    (hexp : p.solution[s.currentSolutionMoveIndex]? = some expected)
    (heq : toLowerCase (fromAlg ++ toAlg ++ promotionPiece.getD "") = toLowerCase expected)
    (hparse : _uciToMoveObject (playerMoveUCI fromAlg toAlg promotionPiece) = some moveObject)
    (hmove : rules.move g moveObject = some board) :
    (makePlayerMove rules s fromAlg toAlg promotionPiece).state.currentSolutionMoveIndex =
      s.currentSolutionMoveIndex + 1 ∧
    (makePlayerMove rules s fromAlg toAlg promotionPiece).state.isPlayerTurnInPuzzle = false ∧
    (makePlayerMove rules s fromAlg toAlg promotionPiece).state.currentPuzzle = some p ∧
    (makePlayerMove rules s fromAlg toAlg promotionPiece).state.puzzleGame = some board ∧
    ((makePlayerMove rules s fromAlg toAlg promotionPiece).value = "complete" ↔
      s.currentSolutionMoveIndex + 1 = p.solution.length) ∧
    ((makePlayerMove rules s fromAlg toAlg promotionPiece).value = "correct_continue" ↔
      s.currentSolutionMoveIndex + 1 ≠ p.solution.length) ∧
    (∀ puzzleIdCheck : String,
      (makeOpponentMove rules (makePlayerMove rules s fromAlg toAlg promotionPiece).state
        puzzleIdCheck).value = true →
      (makeOpponentMove rules (makePlayerMove rules s fromAlg toAlg promotionPiece).state
        puzzleIdCheck).state.currentSolutionMoveIndex = s.currentSolutionMoveIndex + 2 ∧
      (makeOpponentMove rules (makePlayerMove rules s fromAlg toAlg promotionPiece).state
        puzzleIdCheck).state.isPlayerTurnInPuzzle =
          decide (s.currentSolutionMoveIndex + 2 < p.solution.length)) ∧
    (∀ (reply board2 : String) (mo2 : MoveObject),
      p.solution[s.currentSolutionMoveIndex + 1]? = some reply →
      _uciToMoveObject reply = some mo2 → rules.move board mo2 = some board2 →
      (makeOpponentMove rules (makePlayerMove rules s fromAlg toAlg promotionPiece).state
        p.id).value = true) := by
  have hi : s.currentSolutionMoveIndex < p.solution.length := by
    rcases List.getElem?_eq_some_iff.1 hexp with ⟨hh, _⟩
    exact hh
  have hstate : (makePlayerMove rules s fromAlg toAlg promotionPiece).state =
      { s with puzzleGame := some board,
               currentSolutionMoveIndex := s.currentSolutionMoveIndex + 1,
               isPlayerTurnInPuzzle := false } ∧
      (makePlayerMove rules s fromAlg toAlg promotionPiece).value =
        if s.currentSolutionMoveIndex + 1 ≥ p.solution.length then "complete"
        else "correct_continue" := by
    unfold makePlayerMove
    simp only [hp, hg, ht]
    rw [dif_neg (by omega)]
    simp only [get_of_getElem? hexp hi, toLowerCase_playerMoveUCI, heq, ne_eq,
      not_true_eq_false, if_false, hparse, hmove]
    split <;> exact ⟨rfl, rfl⟩
  obtain ⟨hst, hval⟩ := hstate
  refine ⟨by rw [hst], by rw [hst], by rw [hst]; exact hp, by rw [hst], ?_, ?_, ?_, ?_⟩
  · rw [hval]
    by_cases hend : s.currentSolutionMoveIndex + 1 ≥ p.solution.length
    · rw [if_pos hend]
      exact ⟨fun _ => by omega, fun _ => rfl⟩
    · rw [if_neg hend]
      exact ⟨fun h => absurd h (by decide), fun h => absurd h (by omega)⟩
  · rw [hval]
    by_cases hend : s.currentSolutionMoveIndex + 1 ≥ p.solution.length
    · rw [if_pos hend]
      exact ⟨fun h => absurd h (by decide), fun h => absurd (by omega) h⟩
    · rw [if_neg hend]
      exact ⟨fun _ => by omega, fun _ => rfl⟩
  · intro puzzleIdCheck hok
    obtain ⟨p2, hp2, _, hidx, hturn⟩ := makeOpponentMove_success hok
    rw [hst] at hp2 hidx hturn
    have hpp : p2 = p := by
      have h3 : s.currentPuzzle = some p2 := hp2
      rw [hp] at h3
      exact (Option.some.inj h3).symm
    subst hpp
    rw [hst]
    exact ⟨hidx, hturn⟩
  · intro reply board2 mo2 hreply hparse2 hmove2
    rw [hst]
    exact (@makeOpponentMove_plays rules
      { s with puzzleGame := some board,
               currentSolutionMoveIndex := s.currentSolutionMoveIndex + 1,
               isPlayerTurnInPuzzle := false }
      p board reply board2 mo2 hp rfl rfl hreply hparse2 hmove2).1

/-- The C27 statement on the started sample puzzle: e2-e4 is the expected move
and is legal, the index goes from 0 to 1 with the turn off and the code
`'correct_continue'`; the opponent's reply takes the index to 2 and hands the
turn back. -/
theorem makePlayerMove_correct_advances_witness :
    (makePlayerMove sampleRules sampleStarted "e2" "e4" none).state.currentSolutionMoveIndex = 1 ∧
    (makePlayerMove sampleRules sampleStarted "e2" "e4" none).state.isPlayerTurnInPuzzle = false ∧
    (makePlayerMove sampleRules sampleStarted "e2" "e4" none).value = "correct_continue" ∧
    (makeOpponentMove sampleRules (makePlayerMove sampleRules sampleStarted "e2" "e4" none).state
      "sample").state.currentSolutionMoveIndex = 2 ∧
    (makeOpponentMove sampleRules (makePlayerMove sampleRules sampleStarted "e2" "e4" none).state
      "sample").state.isPlayerTurnInPuzzle = true :=
  have h := makePlayerMove_correct_advances sampleRules sampleStarted "e2" "e4" none
    { id := "sample", fen := "rnbqkbnr/pppppppp/8/8/8/8/PPPPPPPP/RNBQKBNR w KQkq - 0 1",
      solution := ["e2e4", "e7e5", "g1f3"], playerColor := Review.Color.w, initialPly := 0,
      pgn := "*" }
    "rnbqkbnr/pppppppp/8/8/8/8/PPPPPPPP/RNBQKBNR w KQkq - 0 1" "e2e4"
    "rnbqkbnr/pppppppp/8/8/4P3/8/PPPP1PPP/RNBQKBNR b KQkq e3 0 1"
    { fromSq := "e2", toSq := "e4", promotion := none }
    (by decide) (by decide) (by decide) (by decide) (by decide) (by decide) (by decide)
  ⟨h.1, h.2.1, h.2.2.2.2.2.1.2 (by decide),
   (h.2.2.2.2.2.2.1 "sample" (by decide)).1, (h.2.2.2.2.2.2.1 "sample" (by decide)).2⟩

theorem solvingInvariant_stopped (s : PuzzleState) (h : s.currentPuzzle = none) :
    SolvingInvariant s := by
  intro p hp
  rw [h] at hp
  cases hp

theorem solvingInvariant_startPuzzle (rules : Rules) (s : PuzzleState)
    (lichessPuzzleData : LichessPuzzleData) (replayed : Option Replay) :
    SolvingInvariant (startPuzzle rules s lichessPuzzleData replayed).state := by
  unfold startPuzzle
  split
  · split
    · exact solvingInvariant_stopped _ rfl
    dsimp only
    split
    · exact solvingInvariant_stopped _ rfl
    split
    · exact solvingInvariant_stopped _ rfl
    split
    · exact solvingInvariant_stopped _ rfl
    · intro p hp
      have hp2 := Option.some.inj hp
      subst hp2
      refine ⟨Nat.zero_le _, fun _ => ⟨?_, rfl⟩, fun h => by simp at h⟩
      simp
  · exact solvingInvariant_stopped _ rfl

theorem solvingInvariant_makePlayerMove (rules : Rules) (s : PuzzleState) (fromAlg toAlg : String)
    (promotionPiece : Option String) (h : SolvingInvariant s) :
    SolvingInvariant (makePlayerMove rules s fromAlg toAlg promotionPiece).state := by
  unfold makePlayerMove
  split
  · rename_i p g hp hg ht
    obtain ⟨_, h2, _⟩ := h p hp
    obtain ⟨hlt, heven⟩ := h2 ht
    split
    · exact solvingInvariant_stopped _ rfl
    dsimp only
    split
    · exact h
    split
    · exact solvingInvariant_stopped _ rfl
    split
    · exact solvingInvariant_stopped _ rfl
    have hmoved : ∀ board : String, SolvingInvariant
        { s with puzzleGame := some board,
                 currentSolutionMoveIndex := s.currentSolutionMoveIndex + 1,
                 isPlayerTurnInPuzzle := false } := by
      intro board q hq
      have hq2 : s.currentPuzzle = some q := hq
      rw [hp] at hq2
      have hq3 := Option.some.inj hq2
      subst hq3
      refine ⟨hlt, fun hturn => by simp at hturn, fun _ => Or.inl ?_⟩
      show (s.currentSolutionMoveIndex + 1) % 2 = 1
      omega
    split <;> exact hmoved _
  · exact h

theorem solvingInvariant_makeOpponentMove (rules : Rules) (s : PuzzleState)
    (puzzleIdCheck : String) (h : SolvingInvariant s) :
    SolvingInvariant (makeOpponentMove rules s puzzleIdCheck).state := by
  unfold makeOpponentMove
  split
  · exact h
  rename_i p hp
  obtain ⟨hle, _, h3⟩ := h p hp
  split
  · exact h
  split
  · exact h
  rename_i hturn
  have hoff : s.isPlayerTurnInPuzzle = false := by simpa using hturn
  split
  · exact solvingInvariant_stopped _ rfl
  split
  · rename_i hlen
    intro q hq
    have hq2 : s.currentPuzzle = some q := hq
    rw [hp] at hq2
    have hq3 := Option.some.inj hq2
    subst hq3
    refine ⟨hle, fun hturn2 => by simp at hturn2, fun _ => Or.inr ?_⟩
    show s.currentSolutionMoveIndex = _
    omega
  rename_i hlen
  dsimp only
  split
  · exact solvingInvariant_stopped _ rfl
  split
  · exact solvingInvariant_stopped _ rfl
  intro q hq
  have hq2 : s.currentPuzzle = some q := hq
  rw [hp] at hq2
  have hq3 := Option.some.inj hq2
  subst hq3
  have hodd : s.currentSolutionMoveIndex % 2 = 1 := by
    rcases h3 hoff with h4 | h4
    · exact h4
    · omega
  refine ⟨by show s.currentSolutionMoveIndex + 1 ≤ _; omega, ?_, ?_⟩
  · intro hturn2
    have hturn3 : (if s.currentSolutionMoveIndex + 1 ≥ p.solution.length then false else true) =
        true := hturn2
    by_cases hend : s.currentSolutionMoveIndex + 1 ≥ p.solution.length
    · rw [if_pos hend] at hturn3
      cases hturn3
    · refine ⟨by show s.currentSolutionMoveIndex + 1 < _; omega, ?_⟩
      show (s.currentSolutionMoveIndex + 1) % 2 = 0
      omega
  · intro hturn2
    have hturn3 : (if s.currentSolutionMoveIndex + 1 ≥ p.solution.length then false else true) =
        false := hturn2
    by_cases hend : s.currentSolutionMoveIndex + 1 ≥ p.solution.length
    · right
      show s.currentSolutionMoveIndex + 1 = _
      omega
    · rw [if_neg hend] at hturn3
      cases hturn3

theorem solvingInvariant_of_reachable {rules : Rules} {s : PuzzleState}
    (h : Reachable rules s) : SolvingInvariant s := by
  induction h with
  | initial => exact solvingInvariant_stopped _ rfl
  | next e _ ih =>
    cases e with
    | startPuzzle d r => exact solvingInvariant_startPuzzle rules _ d r
    | makePlayerMove a b c => exact solvingInvariant_makePlayerMove rules _ a b c ih
    | makeOpponentMove i => exact solvingInvariant_makeOpponentMove rules _ i ih
    | stopPuzzle => exact solvingInvariant_stopped _ rfl

theorem reachable_runPuzzleEvents (rules : Rules) (events : List Event) :
    ∀ s : PuzzleState, Reachable rules s → Reachable rules (runEvents rules s events) := by
  induction events with
  | nil => intro s hs; exact hs
  | cons e rest ih =>
    intro s hs
    exact ih (step rules s e) (Reachable.next e hs)

/-- C30. In every state reachable through `startPuzzle`, `makePlayerMove`,
`makeOpponentMove` and `stopPuzzle`, with any rules engine: while a puzzle is
active the solution index is at most the solution length, and on the player's
turn it is strictly less than the length and even; therefore no
`makePlayerMove` takes the `solution index invalid` error branch. -/
theorem player_turn_index_in_range (rules : Rules) (s : PuzzleState) (h : Reachable rules s) :
    (∀ p : PuzzleData, s.currentPuzzle = some p →
      s.currentSolutionMoveIndex ≤ p.solution.length ∧
      (s.isPlayerTurnInPuzzle = true →
        s.currentSolutionMoveIndex < p.solution.length ∧ s.currentSolutionMoveIndex % 2 = 0)) ∧
    ∀ (fromAlg toAlg : String) (promotionPiece : Option String),
      (makePlayerMove rules s fromAlg toAlg promotionPiece).loadError ≠
        some "Internal puzzle error: solution index invalid." := by
  have hinv := solvingInvariant_of_reachable h
  refine ⟨fun p hp => ⟨(hinv p hp).1, (hinv p hp).2.1⟩, ?_⟩
  intro fromAlg toAlg promotionPiece
  unfold makePlayerMove
  split
  · rename_i p g hp hg ht
    have hlt := ((hinv p hp).2.1 ht).1
    rw [dif_neg (by omega)]
    dsimp only
    split
    · simp
    split
    · simp
    split
    · simp
    split <;> simp
  · simp

/-- C30 on the sample puzzle after the player's first move and the reply: the
index is 2 of 3, even, and it is the player's turn. -/
theorem player_turn_index_in_range_witness :
    (runEvents sampleRules initialState sampleSolving).isPlayerTurnInPuzzle = true ∧
    (runEvents sampleRules initialState sampleSolving).currentSolutionMoveIndex = 2 ∧
    (∀ p : PuzzleData, (runEvents sampleRules initialState sampleSolving).currentPuzzle = some p →
      (runEvents sampleRules initialState sampleSolving).currentSolutionMoveIndex ≤
        p.solution.length ∧
      ((runEvents sampleRules initialState sampleSolving).isPlayerTurnInPuzzle = true →
        (runEvents sampleRules initialState sampleSolving).currentSolutionMoveIndex <
          p.solution.length ∧
        (runEvents sampleRules initialState sampleSolving).currentSolutionMoveIndex % 2 = 0)) :=
  ⟨by decide, by decide,
   (player_turn_index_in_range sampleRules (runEvents sampleRules initialState sampleSolving)
     (reachable_runPuzzleEvents sampleRules sampleSolving initialState Reachable.initial)).1⟩

end Puzzle
